import Mathlib

/-!
# SGI-style `vector` (stl_vector.h): a shallow embedding

The container of `src/Sequence containers/Vector/stl_vector.h` is three raw
pointers (`start`, `finish`, `end_of_stroage`) into a manually managed buffer.
The embedding keeps that shape:

* memory is a map from addresses (natural numbers) to cells, a cell being
  unallocated, allocated-but-raw, or holding a constructed object;
* a `State` carries the memory, the allocator's break, the failure schedule of
  the allocator and of the element type, an event log, and the three pointers
  of the one `vector` under study;
* every operation returns an `Outcome`: a normal return, a thrown exception
  (with the state at the throw), or undefined behaviour.

`size_type` is taken to be a 64-bit unsigned integer; the growth formula is
reduced modulo `2 ^ 64` as the machine does.

Of the members that change the container, `push_back`, `pop_back`, both `erase`
overloads and `insert_aux` are embedded. The bulk `insert(position, n, value)` is not: its definition (lines
180 to 226 of the source) names `unitialized_copy`, `unitialized_fill_n`,
`eles_after`, `oldsize` and `newstart`, none of which is declared anywhere, so the
member cannot be instantiated and has no behaviour to translate. `resize`, whose
growing branch is a call of that `insert`, cannot be instantiated either.
-/

namespace stl

/-- The modulus of `size_type` (`size_t`, 64 bits). -/
def SIZE_MOD : Nat := 2 ^ 64

/-- The largest value of `difference_type` (`ptrdiff_t`, 64 bits). -/
def PTRDIFF_MAX : Nat := 2 ^ 63 - 1

/-- One slot of memory. -/
inductive Cell (α : Type) where
  | unalloc : Cell α
  | raw : Cell α
  | obj (v : α) : Cell α
  deriving DecidableEq, Repr

/-- The exceptions that can travel through the container. An element operation
throws an exception that may or may not derive from `std::exception`. -/
inductive Exn where
  | bad_alloc : Exn
  | element (derived_from_std : Bool) : Exn
  deriving DecidableEq, Repr

/-- Whether a handler `catch (std::exception&)` matches the exception. -/
def Exn.is_std_exception : Exn → Bool
  | Exn.bad_alloc => true
  | Exn.element b => b

/-- The observable effects on memory, in the order they happen. -/
inductive Event where
  | alloc (p n : Nat) : Event
  | dealloc (p n : Nat) : Event
  | construct (p : Nat) : Event
  | destroy (p : Nat) : Event
  | assign (p : Nat) : Event
  | read (p : Nat) : Event
  | local_construct : Event
  | local_destroy : Event
  deriving DecidableEq, Repr

/-- The memory, the failure schedule, the event log and the three pointers of
the vector. `alloc_budget = some j` lets `j` allocations succeed and fails the
next one; `elem_budget = some k` lets `k` element copy operations succeed and
makes the next one throw `elem_exn`. -/
@[ext]
structure State (α : Type) where
  mem : Nat → Cell α
  brk : Nat
  alloc_budget : Option Nat
  elem_budget : Option Nat
  elem_exn : Exn
  log : List Event
  start : Nat
  finish : Nat
  end_of_stroage : Nat

/-- The result of running an operation. -/
inductive Outcome (α β : Type) where
  | ok (r : β) (s : State α) : Outcome α β
  | throw (e : Exn) (s : State α) : Outcome α β
  | undefined : Outcome α β

/-- Sequencing: an exception or undefined behaviour ends the computation. -/
def Outcome.bind {α β γ : Type} (o : Outcome α β) (f : β → State α → Outcome α γ) :
    Outcome α γ :=
  match o with
  | Outcome.ok r s => f r s
  | Outcome.throw e s => Outcome.throw e s
  | Outcome.undefined => Outcome.undefined

/-- The handler shape `try { ... } catch (std::exception&) { h }` of the source: the
handler runs only for exceptions derived from `std::exception`. -/
def Outcome.catch_std {α β : Type} (o : Outcome α β) (h : Exn → State α → Outcome α β) :
    Outcome α β :=
  match o with
  | Outcome.throw e s => if e.is_std_exception then h e s else Outcome.throw e s
  | Outcome.ok r s => Outcome.ok r s
  | Outcome.undefined => Outcome.undefined

/-- Memory with the cell at `p` replaced. -/
def set_cell {α : Type} (m : Nat → Cell α) (p : Nat) (c : Cell α) : Nat → Cell α :=
  fun a => if a = p then c else m a

/-- Memory with the `k` cells from `p` on replaced by `c`. -/
def fill_cells {α : Type} (m : Nat → Cell α) (p k : Nat) (c : Cell α) : Nat → Cell α :=
  fun a => if p ≤ a ∧ a < p + k then c else m a

/-- Memory with the objects of `l` written from `p` on. -/
def write_list {α : Type} (m : Nat → Cell α) (p : Nat) (l : List α) : Nat → Cell α :=
  fun a =>
    if p ≤ a then
      match l[a - p]? with
      | some x => Cell.obj x
      | none => m a
    else m a

/-- The objects found in the `k` cells from `p` on. -/
def read_objs {α : Type} (m : Nat → Cell α) (p : Nat) : Nat → List α
  | 0 => []
  | k + 1 =>
    match m p with
    | Cell.obj v => v :: read_objs m (p + 1) k
    | _ => read_objs m (p + 1) k

/-- The difference `a - b` in `size_type` arithmetic: `static_cast<size_type>(a - b)` for
two pointers, and the unsigned subtraction of two sizes. -/
def ptr_diff (a b : Nat) : Nat :=
  if b ≤ a then (a - b) % SIZE_MOD else (SIZE_MOD - (b - a) % SIZE_MOD) % SIZE_MOD

/-- The pointer `p - (last - first)`, the difference being signed. -/
def ptr_back (p last first : Nat) : Nat :=
  if first ≤ last then p - (last - first) else p + (first - last)

/-! ## Collaborators

`allocator.h`, `uninitialized.h` and the algorithms `copy` and `copy_backward`
are not part of the source tree; they are modelled from the contracts of the
specification. -/

/-- One element copy operation (copy construction or copy assignment) of the
element type, which throws on the scheduled invocation. -/
def tick {α : Type} (s : State α) : Outcome α Unit :=
  match s.elem_budget with
  | none => Outcome.ok () s
  | some 0 => Outcome.throw s.elem_exn { s with elem_budget := none }
  | some (b + 1) => Outcome.ok () { s with elem_budget := some b }

/-- Reading the object at `p`; the slot must hold a constructed object. -/
def read {α : Type} (s : State α) (p : Nat) : Outcome α α :=
  match s.mem p with
  | Cell.obj v => Outcome.ok v { s with log := s.log ++ [Event.read p] }
  | _ => Outcome.undefined

/-- Modelled from the spec: `ConstructAt(slot, value)` of `allocator.h`,
placement-constructs one object in a raw slot; it may fail, leaving the slot raw. -/
def construct {α : Type} (s : State α) (p : Nat) (value : α) : Outcome α Unit :=
  match s.mem p with
  | Cell.raw =>
    (tick s).bind fun _ s =>
      Outcome.ok () { s with mem := set_cell s.mem p (Cell.obj value),
                             log := s.log ++ [Event.construct p] }
  | _ => Outcome.undefined

/-- Copy assignment `*p = value` into a live object; it may fail. -/
def assign {α : Type} (s : State α) (p : Nat) (value : α) : Outcome α Unit :=
  match s.mem p with
  | Cell.obj _ =>
    (tick s).bind fun _ s =>
      Outcome.ok () { s with mem := set_cell s.mem p (Cell.obj value),
                             log := s.log ++ [Event.assign p] }
  | _ => Outcome.undefined

/-- Modelled from the spec: `DestroyAt(slot)` of `allocator.h` (spelled `destory`
in the source), destroys a live object and never fails; it must not be called on
raw or unallocated memory. -/
def destory {α : Type} (s : State α) (p : Nat) : Outcome α Unit :=
  match s.mem p with
  | Cell.obj _ =>
    Outcome.ok () { s with mem := set_cell s.mem p Cell.raw,
                           log := s.log ++ [Event.destroy p] }
  | _ => Outcome.undefined

/-- The loop of `destory(first, last)` over `k` slots. -/
def destory_loop {α : Type} (s : State α) (first : Nat) : Nat → Outcome α Unit
  | 0 => Outcome.ok () s
  | k + 1 => (destory s first).bind fun _ s => destory_loop s (first + 1) k

/-- Modelled from the spec: `DestroyRange(begin, end)` of `allocator.h`. -/
def destory_range {α : Type} (s : State α) (first last : Nat) : Outcome α Unit :=
  if last < first then Outcome.undefined else destory_loop s first (last - first)

/-- Modelled from the spec: `Allocate(n)` of `allocator.h`, a buffer of `n` raw
slots at a fresh address, or `AllocationFailure` when memory cannot be obtained: on
the scheduled request, and for a request no object can have (more than
`PTRDIFF_MAX` slots). One unallocated slot separates two buffers. -/
def data_allocator.allocate {α : Type} (s : State α) (n : Nat) : Outcome α Nat :=
  if PTRDIFF_MAX < n then Outcome.throw Exn.bad_alloc s
  else
    match s.alloc_budget with
    | some 0 => Outcome.throw Exn.bad_alloc { s with alloc_budget := none }
    | b =>
      Outcome.ok s.brk
        { s with mem := fill_cells s.mem s.brk n Cell.raw,
                 brk := s.brk + n + 1,
                 alloc_budget := b.map fun j => j - 1,
                 log := s.log ++ [Event.alloc s.brk n] }

/-- Modelled from the spec: `Release(buffer, n)` of `allocator.h`. -/
def data_allocator.deallocate {α : Type} (s : State α) (p n : Nat) : Outcome α Unit :=
  Outcome.ok () { s with mem := fill_cells s.mem p n Cell.unalloc,
                         log := s.log ++ [Event.dealloc p n] }

/-- The loop of `uninitialized_copy` over `k` elements. -/
def uninitialized_copy_loop {α : Type} (s : State α) (first result : Nat) :
    Nat → Outcome α Nat
  | 0 => Outcome.ok result s
  | k + 1 =>
    (read s first).bind fun x s =>
    (construct s result x).bind fun _ s =>
    uninitialized_copy_loop s (first + 1) (result + 1) k

/-- Modelled from the spec: `CopyConstructRange(src_begin, src_end, dst)` of
`uninitialized.h`, constructs objects at `dst, dst+1, ...` from the source range and
returns the end of the constructed region; on a failure in the middle the elements
constructed so far stay constructed (the primitive does not roll them back). -/
def uninitialized_copy {α : Type} (s : State α) (first last result : Nat) : Outcome α Nat :=
  if last < first then Outcome.undefined
  else uninitialized_copy_loop s first result (last - first)

/-- The loop of `uninitialized_fill_n` over `n` slots. -/
def uninitialized_fill_loop {α : Type} (s : State α) (first : Nat) (value : α) :
    Nat → Outcome α Nat
  | 0 => Outcome.ok first s
  | n + 1 =>
    (construct s first value).bind fun _ s => uninitialized_fill_loop s (first + 1) value n

/-- Modelled from the spec: the range-fill primitive of `uninitialized.h`, constructs
`n` copies of `value` from `first` on and returns the end of the constructed
region; like the range copy it does not roll back on failure. -/
def uninitialized_fill_n {α : Type} (s : State α) (first n : Nat) (value : α) :
    Outcome α Nat :=
  uninitialized_fill_loop s first value n

/-- The loop of `copy` over `k` elements, front to back. -/
def copy_loop {α : Type} (s : State α) (first result : Nat) : Nat → Outcome α Nat
  | 0 => Outcome.ok result s
  | k + 1 =>
    (read s first).bind fun x s =>
    (assign s result x).bind fun _ s =>
    copy_loop s (first + 1) (result + 1) k

/-- The algorithm `copy(first, last, result)`: element-wise assignment, front to back. -/
def copy {α : Type} (s : State α) (first last result : Nat) : Outcome α Nat :=
  if last < first then Outcome.undefined else copy_loop s first result (last - first)

/-- The loop of `copy_backward` over `k` elements, back to front: `last` and `result`
are one past the next element to move. -/
def copy_backward_loop {α : Type} (s : State α) (last result : Nat) : Nat → Outcome α Nat
  | 0 => Outcome.ok result s
  | k + 1 =>
    (read s (last - 1)).bind fun x s =>
    (assign s (result - 1) x).bind fun _ s =>
    copy_backward_loop s (last - 1) (result - 1) k

/-- The algorithm `std::copy_backward(first, last, result)`. -/
def copy_backward {α : Type} (s : State α) (first last result : Nat) : Outcome α Nat :=
  if last < first then Outcome.undefined
  else copy_backward_loop s last result (last - first)

/-- The local `value_type value_copy = value;` of the source: one copy
construction, the body run with the copy, and the destruction of the copy when the
scope is left, normally or by an exception. -/
def with_value_copy {α β : Type} (s : State α) (value : α)
    (body : α → State α → Outcome α β) : Outcome α β :=
  (tick s).bind fun _ s =>
    match body value { s with log := s.log ++ [Event.local_construct] } with
    | Outcome.ok r s => Outcome.ok r { s with log := s.log ++ [Event.local_destroy] }
    | Outcome.throw e s => Outcome.throw e { s with log := s.log ++ [Event.local_destroy] }
    | Outcome.undefined => Outcome.undefined

/-! ## The container

The member functions of `vector` that are well-formed as written, in the order of
the source. -/

/-- A machine with nothing allocated and the pointers of `vector()`. -/
def State.init (α : Type) : State α :=
  { mem := fun _ => Cell.unalloc, brk := 1, alloc_budget := none, elem_budget := none,
    elem_exn := Exn.element true, log := [], start := 0, finish := 0, end_of_stroage := 0 }

namespace vector

/-- The member `size()`. -/
def size {α : Type} (s : State α) : Nat := ptr_diff s.finish s.start

/-- The member `capacity()`. -/
def capacity {α : Type} (s : State α) : Nat := ptr_diff s.end_of_stroage s.start

/-- The member `empty()`. -/
def empty {α : Type} (s : State α) : Bool := s.start == s.finish

/-- The private `deallocate()`: releases the buffer unless `start` is null. -/
def deallocate {α : Type} (s : State α) : Outcome α Unit :=
  if s.start ≠ 0 then
    data_allocator.deallocate s s.start (ptr_diff s.end_of_stroage s.start)
  else Outcome.ok () s

/-- The member `allocate_and_fill(n, value)`. -/
def allocate_and_fill {α : Type} (s : State α) (n : Nat) (value : α) : Outcome α Nat :=
  (data_allocator.allocate s n).bind fun result s =>
  (uninitialized_fill_n s result n value).bind fun _ s =>
  Outcome.ok result s

/-- The member `fill_initialize(n, value)`. -/
def fill_initialize {α : Type} (s : State α) (n : Nat) (value : α) : Outcome α Unit :=
  (allocate_and_fill s n value).bind fun r s =>
  let s := { s with start := r }
  let s := { s with finish := s.start + n }
  Outcome.ok () { s with end_of_stroage := s.finish }

/-- The catch block of the growth path: destroy `[new_start, new_finish)`,
release the new buffer and rethrow. -/
def rollback {α β : Type} (new_start new_finish new_size : Nat) (e : Exn) (s : State α) :
    Outcome α β :=
  (destory_range s new_start new_finish).bind fun _ s =>
  (data_allocator.deallocate s new_start new_size).bind fun _ s =>
  Outcome.throw e s

/-- The member `insert_aux(position, value)`. In the growth path the local `new_finish` is
assigned only when a step of the three-part build returns, so the handler sees the
value it had before the step that threw. -/
def insert_aux {α : Type} (s : State α) (position : Nat) (value : α) : Outcome α Unit :=
  if s.finish ≠ s.end_of_stroage then
    (read s (s.finish - 1)).bind fun x s =>
    (construct s s.finish x).bind fun _ s =>
    let s := { s with finish := s.finish + 1 }
    with_value_copy s value fun value_copy s =>
      (copy_backward s position (s.finish - 2) (s.finish - 1)).bind fun _ s =>
      assign s position value_copy
  else
    let old_size := size s
    let new_size := if old_size ≠ 0 then (2 * old_size) % SIZE_MOD else 1
    (data_allocator.allocate s new_size).bind fun new_start s =>
    let new_finish := new_start
    (((uninitialized_copy s s.start position new_start).catch_std
        (rollback new_start new_finish new_size)).bind fun new_finish s =>
      ((construct s new_finish value).catch_std
        (rollback new_start new_finish new_size)).bind fun _ s =>
      let new_finish := new_finish + 1
      (uninitialized_copy s position s.finish new_finish).catch_std
        (rollback new_start new_finish new_size)).bind fun new_finish s =>
    (destory_range s s.start s.finish).bind fun _ s =>
    (deallocate s).bind fun _ s =>
    Outcome.ok () { s with start := new_start, finish := new_finish,
                           end_of_stroage := new_start + new_size }

/-- The member `push_back(value)`. -/
def push_back {α : Type} (s : State α) (value : α) : Outcome α Unit :=
  if s.finish ≠ s.end_of_stroage then
    (construct s s.finish value).bind fun _ s =>
    Outcome.ok () { s with finish := s.finish + 1 }
  else insert_aux s s.finish value

/-- The member `pop_back()`. -/
def pop_back {α : Type} (s : State α) : Outcome α Unit :=
  let s := { s with finish := s.finish - 1 }
  destory s s.finish

/-- The member `erase(first, last)`; returns `first`. -/
def erase_range {α : Type} (s : State α) (first last : Nat) : Outcome α Nat :=
  (copy s last s.finish first).bind fun i s =>
  (destory_range s i s.finish).bind fun _ s =>
  Outcome.ok first { s with finish := ptr_back s.finish last first }

/-- The member `erase(position)`; returns `position`. -/
def erase {α : Type} (s : State α) (position : Nat) : Outcome α Nat :=
  (if position + 1 ≠ s.finish then
      (copy s (position + 1) s.finish position).bind fun _ s => Outcome.ok () s
    else Outcome.ok () s).bind fun _ s =>
  (pop_back s).bind fun _ s =>
  Outcome.ok position s

/-- The element sequence of the container: the objects in `[start, finish)`. -/
def to_list {α : Type} (s : State α) : List α := read_objs s.mem s.start (size s)

end vector

/-! ## Specification vocabulary -/

/-- The cells from `p` on hold the objects of `xs`, in order. -/
def Live {α : Type} (m : Nat → Cell α) (p : Nat) (xs : List α) : Prop :=
  ∀ j x, xs[j]? = some x → m (p + j) = Cell.obj x

/-- The `k` cells from `p` on are allocated and hold no object. -/
def Raw {α : Type} (m : Nat → Cell α) (p k : Nat) : Prop :=
  ∀ j, j < k → m (p + j) = Cell.raw

/-- The schedule `b` lets `k` more element operations succeed. -/
def allows (b : Option Nat) (k : Nat) : Prop := ∀ j, b = some j → k ≤ j

/-- The schedule after `k` successful element operations. -/
def spend (b : Option Nat) (k : Nat) : Option Nat := b.map fun j => j - k

/-- The `k` cells from `p` on hold objects. -/
def Objs {α : Type} (m : Nat → Cell α) (p k : Nat) : Prop :=
  ∀ j, j < k → ∃ v, m (p + j) = Cell.obj v

/-- A normal return of `o`, started in `s`, used exactly `k` element operations. -/
def Ticks {α β : Type} (s : State α) (k : Nat) (o : Outcome α β) : Prop :=
  ∀ r s', o = Outcome.ok r s' →
    allows s.elem_budget k ∧ s'.elem_budget = spend s.elem_budget k

/-- The events of `k` rounds of `uninitialized_copy`. -/
def copy_events (first result : Nat) : Nat → List Event
  | 0 => []
  | k + 1 => Event.read first :: Event.construct result :: copy_events (first + 1) (result + 1) k

/-- The events of `k` rounds of `uninitialized_fill_n`. -/
def fill_events (first : Nat) : Nat → List Event
  | 0 => []
  | k + 1 => Event.construct first :: fill_events (first + 1) k

/-- The events of destroying `k` objects from `first` on. -/
def destroy_events (first : Nat) : Nat → List Event
  | 0 => []
  | k + 1 => Event.destroy first :: destroy_events (first + 1) k

/-- The events of `k` rounds of `copy`. -/
def assign_events (first result : Nat) : Nat → List Event
  | 0 => []
  | k + 1 => Event.read first :: Event.assign result :: assign_events (first + 1) (result + 1) k

/-- The events of `k` rounds of `copy_backward`. -/
def assign_back_events (last result : Nat) : Nat → List Event
  | 0 => []
  | k + 1 =>
    Event.read (last - 1) :: Event.assign (result - 1) ::
      assign_back_events (last - 1) (result - 1) k

/-- The representation invariant of the container inside the machine: the three
pointers are ordered, `[start, finish)` holds objects, `[finish, end_of_stroage)`
is raw, the buffer lies below the allocator's break, nothing is allocated beyond
the break, the capacity fits `difference_type`, and a null `start` means no buffer. -/
structure Valid {α : Type} (s : State α) : Prop where
  start_le : s.start ≤ s.finish
  finish_le : s.finish ≤ s.end_of_stroage
  below_brk : s.end_of_stroage < s.brk
  fresh : ∀ a, s.brk ≤ a → s.mem a = Cell.unalloc
  live : Objs s.mem s.start (s.finish - s.start)
  spare : Raw s.mem s.finish (s.end_of_stroage - s.finish)
  cap_le : s.end_of_stroage - s.start ≤ PTRDIFF_MAX
  null : s.start = 0 → s.end_of_stroage = 0

/-- The sequence `xs` with `n` copies of `v` inserted at index `i`. -/
def spliced {α : Type} (xs : List α) (i n : Nat) (v : α) : List α :=
  xs.take i ++ List.replicate n v ++ xs.drop i

/-- The three-part build of the growth path of `insert_aux`, with its handlers, stated
for `n` copies of the value: the old elements before `position`, `n` copies of
`value`, the old elements from `position` on, constructed from `new_start` on. In
`insert_aux` `n` is 1, its one `construct` being a fill of one element. -/
def build {α : Type} (s : State α) (position n : Nat) (value : α)
    (new_start new_size : Nat) : Outcome α Nat :=
  ((uninitialized_copy s s.start position new_start).catch_std
      (vector.rollback new_start new_start new_size)).bind fun new_finish s =>
    ((uninitialized_fill_n s new_finish n value).catch_std
      (vector.rollback new_start new_finish new_size)).bind fun new_finish s =>
    (uninitialized_copy s position s.finish new_finish).catch_std
      (vector.rollback new_start new_finish new_size)

/-- The growth path of `insert_aux` over `build`: allocate `new_size` slots, build,
destroy and release the old buffer, adopt the new one. -/
def grow {α : Type} (s : State α) (position n : Nat) (value : α) (new_size : Nat) :
    Outcome α Unit :=
  (data_allocator.allocate s new_size).bind fun new_start s =>
  (build s position n value new_start new_size).bind fun new_finish s =>
  (destory_range s s.start s.finish).bind fun _ s =>
  (vector.deallocate s).bind fun _ s =>
  Outcome.ok () { s with start := new_start, finish := new_finish,
                         end_of_stroage := new_start + new_size }

/-- The events of a build that completes. -/
def build_events (start position new_start i n m : Nat) : List Event :=
  copy_events start new_start i ++ (fill_events (new_start + i) n ++
    copy_events position (new_start + i + n) m)

/-- The events of a build in which the element operation number `b` (from 0) throws. -/
def build_events_upto (start position new_start i n b : Nat) : List Event :=
  if b < i then copy_events start new_start b ++ [Event.read (start + b)]
  else if b < i + n then copy_events start new_start i ++ fill_events (new_start + i) (b - i)
  else copy_events start new_start i ++ (fill_events (new_start + i) n ++
    (copy_events position (new_start + i + n) (b - (i + n)) ++
      [Event.read (position + (b - (i + n)))]))

/-- The number of objects in `[new_start, new_finish)` when the handler runs, the
element operation number `b` having thrown: those of the steps that returned. -/
def completed (i n b : Nat) : Nat :=
  if b < i then 0 else if b < i + n then i else i + n

/-- The state in which a build of the sequence `ys` ends when the element operation
number `b` throws: with a handler that matches, the objects of the completed steps
are destroyed and the new buffer is released; otherwise everything built so far
stays. -/
def build_failed {α : Type} (t : State α) (ys : List α) (i n ns new_size b : Nat) : State α :=
  if t.elem_exn.is_std_exception then
    { t with mem := fill_cells (fill_cells (write_list t.mem ns (ys.take b))
                      ns (completed i n b) Cell.raw) ns new_size Cell.unalloc,
             log := t.log ++ (build_events_upto t.start (t.start + i) ns i n b ++
                      (destroy_events ns (completed i n b) ++ [Event.dealloc ns new_size])),
             elem_budget := none }
  else
    { t with mem := write_list t.mem ns (ys.take b),
             log := t.log ++ build_events_upto t.start (t.start + i) ns i n b,
             elem_budget := none }

/-- The state right after a successful `allocate(n)`. -/
def after_alloc {α : Type} (s : State α) (n : Nat) : State α :=
  { s with mem := fill_cells s.mem s.brk n Cell.raw,
           brk := s.brk + n + 1,
           alloc_budget := s.alloc_budget.map fun j => j - 1,
           log := s.log ++ [Event.alloc s.brk n] }

/-- The state in which a growth path that completes leaves the machine: the new
buffer holds `ys`, the old objects are destroyed and the old buffer released. -/
def grow_done {α : Type} (s : State α) (ys : List α) (i n new_size : Nat) : State α :=
  { mem := fill_cells (fill_cells (write_list (fill_cells s.mem s.brk new_size Cell.raw) s.brk ys)
             s.start (s.finish - s.start) Cell.raw)
             s.start (s.end_of_stroage - s.start) Cell.unalloc,
    brk := s.brk + new_size + 1,
    alloc_budget := s.alloc_budget.map fun j => j - 1,
    elem_budget := spend s.elem_budget ys.length,
    elem_exn := s.elem_exn,
    log := s.log ++ (Event.alloc s.brk new_size ::
      (build_events s.start (s.start + i) s.brk i n (s.finish - s.start - i) ++
        (destroy_events s.start (s.finish - s.start) ++
          (if s.start ≠ 0 then [Event.dealloc s.start (s.end_of_stroage - s.start)] else [])))),
    start := s.brk,
    finish := s.brk + ys.length,
    end_of_stroage := s.brk + new_size }

/-- A full container holding `[10, 20]` in a buffer of two slots at address 1. -/
def example_full : State Nat :=
  { mem := fun a => if a = 1 then Cell.obj 10 else if a = 2 then Cell.obj 20 else Cell.unalloc,
    brk := 4, alloc_budget := none, elem_budget := none, elem_exn := Exn.element true,
    log := [], start := 1, finish := 3, end_of_stroage := 3 }

/-- A container holding `[10, 20, 30]` in a buffer of eight slots at address 1. -/
def example_spare : State Nat :=
  { mem := fun a =>
      if a = 1 then Cell.obj 10 else if a = 2 then Cell.obj 20 else if a = 3 then Cell.obj 30
      else if a < 9 then (if a = 0 then Cell.unalloc else Cell.raw) else Cell.unalloc,
    brk := 10, alloc_budget := none, elem_budget := none, elem_exn := Exn.element true,
    log := [], start := 1, finish := 4, end_of_stroage := 9 }

/-- The state of a finished call, if the call returned normally. -/
def Outcome.state_ok {α β : Type} : Outcome α β → Option (State α)
  | Outcome.ok _ s => some s
  | _ => none

/-- The state at the end of a call that returned or threw. -/
def Outcome.final {α β : Type} : Outcome α β → Option (State α)
  | Outcome.ok _ s => some s
  | Outcome.throw _ s => some s
  | Outcome.undefined => none

/-- The exception a call ended with, if any. -/
def Outcome.thrown {α β : Type} : Outcome α β → Option Exn
  | Outcome.throw e _ => some e
  | _ => none

/-- The container of `s'` is the container of `s`: same pointers, hence same size
and capacity, and the same element sequence. -/
def same_container {α : Type} (s s' : State α) : Prop :=
  s'.start = s.start ∧ s'.finish = s.finish ∧ s'.end_of_stroage = s.end_of_stroage ∧
    vector.size s' = vector.size s ∧ vector.capacity s' = vector.capacity s ∧
    vector.to_list s' = vector.to_list s

/-- The state in which `insert_aux` leaves the machine on its spare-capacity path:
the container held `l1 ++ l2 ++ [z]`, the position is after `l1`, and `v` is the
inserted value. -/
def insert_aux_spare_done {α : Type} (s : State α) (l1 l2 : List α) (z v : α) : State α :=
  { s with mem := write_list s.mem (s.start + l1.length) (v :: (l2 ++ [z])),
           log := s.log ++ (Event.read (s.finish - 1) :: Event.construct s.finish ::
             Event.local_construct ::
               (assign_back_events (s.finish - 1) s.finish l2.length ++
                 [Event.assign (s.start + l1.length), Event.local_destroy])),
           elem_budget := spend s.elem_budget (l2.length + 3),
           finish := s.finish + 1 }

/-- Started in `s`, the call `o` is settled by the failure schedule alone: every
normal return has used `k` element operations, and when the schedule allows `k`
the call returns `r0` in the state `s0`. -/
def Det {α β : Type} (s : State α) (k : Nat) (o : Outcome α β) (r0 : β) (s0 : State α) : Prop :=
  Ticks s k o ∧ (allows s.elem_budget k → o = Outcome.ok r0 s0)

/-- The state in which `erase(first, last)` leaves the machine: the container held
`l1 ++ l2 ++ l3` and `l2` is the erased range. -/
def erase_range_done {α : Type} (s : State α) (l1 l2 l3 : List α) : State α :=
  { s with mem := fill_cells (write_list s.mem (s.start + l1.length) l3)
                    (s.start + l1.length + l3.length) l2.length Cell.raw,
           log := s.log ++ (assign_events (s.start + l1.length + l2.length)
                    (s.start + l1.length) l3.length ++
                    destroy_events (s.start + l1.length + l3.length) l2.length),
           elem_budget := spend s.elem_budget l3.length,
           finish := s.finish - l2.length }

/-- The state in which `erase(position)` leaves the machine: the container held
`l1 ++ [x] ++ l3` and `x` is the erased element. -/
def erase_done {α : Type} (s : State α) (l1 l3 : List α) : State α :=
  { s with mem := set_cell (write_list s.mem (s.start + l1.length) l3) (s.finish - 1) Cell.raw,
           log := s.log ++ ((if l3.length = 0 then []
                    else assign_events (s.start + l1.length + 1) (s.start + l1.length) l3.length) ++
                    [Event.destroy (s.finish - 1)]),
           elem_budget := spend s.elem_budget l3.length,
           finish := s.finish - 1 }

/-- The state in which the fast path of `push_back` leaves the machine. -/
def push_back_done {α : Type} (s : State α) (v : α) : State α :=
  { s with mem := set_cell s.mem s.finish (Cell.obj v),
           log := s.log ++ [Event.construct s.finish],
           elem_budget := spend s.elem_budget 1,
           finish := s.finish + 1 }

/-- A machine on which no vector has been constructed yet: the break is past the
null address and nothing is allocated beyond it (the three pointers are garbage). -/
def Fresh {α : Type} (t : State α) : Prop :=
  1 ≤ t.brk ∧ ∀ a, t.brk ≤ a → t.mem a = Cell.unalloc

/-- The default constructor `vector()`. -/
def vector.ctor {α : Type} (t : State α) : State α :=
  { t with start := 0, finish := 0, end_of_stroage := 0 }

/-- The states in which a constructor leaves the machine: `vector()`, or
`vector(n, value)` (also `vector(n)`, with the default value) returning normally. -/
inductive Constructed {α : Type} : State α → Prop where
  | default (t : State α) (h : Fresh t) : Constructed (vector.ctor t)
  | filled (t : State α) (n : Nat) (v : α) (s : State α) (h : Fresh t)
      (hr : vector.fill_initialize t n v = Outcome.ok () s) : Constructed s

/-- The mutating calls of the public interface that can be made (`insert` and
`resize` cannot be instantiated), positions given as indices. -/
inductive Op (α : Type) where
  | push_back (v : α) : Op α
  | erase (i : Nat) : Op α
  | erase_range (a b : Nat) : Op α

/-- The position or range of the call lies in the container. -/
def Op.in_range {α : Type} (s : State α) : Op α → Prop
  | Op.push_back _ => True
  | Op.erase i => i < vector.size s
  | Op.erase_range a b => a ≤ b ∧ b ≤ vector.size s

instance Op.in_range_decidable {α : Type} (s : State α) (op : Op α) :
    Decidable (op.in_range s) :=
  match op with
  | Op.push_back _ => isTrue trivial
  | Op.erase i => inferInstanceAs (Decidable (i < vector.size s))
  | Op.erase_range a b => inferInstanceAs (Decidable (a ≤ b ∧ b ≤ vector.size s))

/-- Running one call. -/
def Op.run {α : Type} (s : State α) : Op α → Outcome α Unit
  | Op.push_back v => vector.push_back s v
  | Op.erase i => (vector.erase s (s.start + i)).bind fun _ s => Outcome.ok () s
  | Op.erase_range a b =>
    (vector.erase_range s (s.start + a) (s.start + b)).bind fun _ s => Outcome.ok () s

/-- The machine goes from the first state to the last by the listed calls, each with
its position or range in the container and each returning normally. -/
inductive Run {α : Type} : State α → List (Op α) → State α → Prop where
  | nil (s : State α) : Run s [] s
  | cons (s s1 s2 : State α) (op : Op α) (ops : List (Op α)) (hr : op.in_range s)
      (h1 : op.run s = Outcome.ok () s1) (h2 : Run s1 ops s2) : Run s (op :: ops) s2

/-- The values pushed one after the other by `push_back`; the result lists the
capacity observed after each call. -/
def push_back_all {α : Type} (s : State α) : List α → Outcome α (List Nat)
  | [] => Outcome.ok [] s
  | v :: vs =>
    (vector.push_back s v).bind fun _ s1 =>
    (push_back_all s1 vs).bind fun caps s2 =>
    Outcome.ok (vector.capacity s1 :: caps) s2

/-- One step of the capacity under `push_back`: it never decreases, and when it
changes it goes from 0 to 1 or at least doubles. -/
def cap_step (c c' : Nat) : Prop :=
  c ≤ c' ∧ (c' ≠ c → (c = 0 → c' = 1) ∧ (c ≠ 0 → 2 * c ≤ c'))

/-- A full container holding `[1, 2, 3, 4, 5]` in a buffer of five slots at address 1. -/
def example_five : State Nat :=
  { mem := fun a => if a = 0 then Cell.unalloc else if a < 6 then Cell.obj a else Cell.unalloc,
    brk := 7, alloc_budget := none, elem_budget := none, elem_exn := Exn.element true,
    log := [], start := 1, finish := 6, end_of_stroage := 6 }

/-- A full container holding `[5]` in a buffer of one slot at address 1. -/
def example_one : State Nat :=
  { mem := fun a => if a = 1 then Cell.obj 5 else Cell.unalloc,
    brk := 3, alloc_budget := none, elem_budget := none, elem_exn := Exn.element true,
    log := [], start := 1, finish := 2, end_of_stroage := 2 }

/-- Whether the event is the construction of an element: a placement construction in
a buffer, or the copy construction of a local. -/
def Event.is_construction : Event → Bool
  | Event.construct _ => true
  | Event.local_construct => true
  | _ => false

/-- The number of element constructions among the events. -/
def constructions (l : List Event) : Nat := l.countP Event.is_construction

/-! ## The statements of the spare-capacity path of `insert_aux`

The five statements of the first branch of `insert_aux`, one definition each, so that
the state between two statements can be named. -/

/-- The statement `construct(finish, *(finish - 1));` of `insert_aux`. -/
def vector.insert_aux_construct_last {α : Type} (s : State α) : Outcome α Unit :=
  (read s (s.finish - 1)).bind fun x s => construct s s.finish x

/-- The statement `++finish;` of `insert_aux`. -/
def vector.insert_aux_advance {α : Type} (s : State α) : State α :=
  { s with finish := s.finish + 1 }

/-- The declaration `value_type value_copy = value;`: one copy construction. -/
def value_copy_construct {α : Type} (s : State α) : Outcome α Unit :=
  (tick s).bind fun _ s => Outcome.ok () { s with log := s.log ++ [Event.local_construct] }

/-- The statement `std::copy_backward(position, finish - 2, finish - 1);` of
`insert_aux`. -/
def vector.insert_aux_shift {α : Type} (s : State α) (position : Nat) : Outcome α Nat :=
  copy_backward s position (s.finish - 2) (s.finish - 1)

/-- The statement `*position = value_copy;` of `insert_aux`. -/
def vector.insert_aux_store {α : Type} (s : State α) (position : Nat) (value_copy : α) :
    Outcome α Unit :=
  assign s position value_copy

/-- The end of the scope of `value_copy`: the local is destroyed. -/
def value_copy_destroy {α : Type} (s : State α) : State α :=
  { s with log := s.log ++ [Event.local_destroy] }

/-- Every slot of the current range `[start, finish)` holds a constructed element. -/
def no_gap {α : Type} (s : State α) : Prop :=
  ∀ a, s.start ≤ a → a < s.finish → ∃ v, s.mem a = Cell.obj v

/-- The slot an event reads or assigns to, if it does. -/
def Event.accessed : Event → Option Nat
  | Event.read p => some p
  | Event.assign p => some p
  | _ => none

/-- None of the events reads or assigns to a slot at or beyond `fin`. -/
def accesses_below (fin : Nat) (evs : List Event) : Prop :=
  ∀ e ∈ evs, ∀ p, e.accessed = some p → p < fin

/-- The pointers of `s'` are those of `s`, and every slot that holds an object in `s`
holds one in `s'`. -/
def keeps_objects {α : Type} (s s' : State α) : Prop :=
  s'.start = s.start ∧ s'.finish = s.finish ∧
    ∀ a, (∃ v, s.mem a = Cell.obj v) → ∃ v, s'.mem a = Cell.obj v

/-! ## Memory lemmas -/

theorem Live_nil {α : Type} (m : Nat → Cell α) (p : Nat) : Live m p [] := by
  intro j x h; simp at h

theorem Live_cons {α : Type} (m : Nat → Cell α) (p : Nat) (x : α) (l : List α) :
    Live m p (x :: l) ↔ m p = Cell.obj x ∧ Live m (p + 1) l := by
  constructor
  · intro h
    refine ⟨by simpa using h 0 x (by simp), ?_⟩
    intro j y hj
    have := h (j + 1) y (by simpa using hj)
    rw [← this]; congr 1; omega
  · rintro ⟨h0, h1⟩ j y hj
    cases j with
    | zero => simp at hj; subst hj; simpa using h0
    | succ j =>
      have := h1 j y (by simpa using hj)
      rw [← this]; congr 1; omega

theorem Live_append {α : Type} (m : Nat → Cell α) (p : Nat) (l1 l2 : List α) :
    Live m p (l1 ++ l2) ↔ Live m p l1 ∧ Live m (p + l1.length) l2 := by
  induction l1 generalizing p with
  | nil => simp [Live_nil]
  | cons x l ih =>
    simp only [List.cons_append, Live_cons, ih, List.length_cons, and_assoc]
    have : p + 1 + l.length = p + (l.length + 1) := by omega
    rw [this]

theorem Live_congr {α : Type} {m m' : Nat → Cell α} {p : Nat} {xs : List α}
    (h : Live m p xs) (hm : ∀ a, p ≤ a → a < p + xs.length → m' a = m a) : Live m' p xs := by
  intro j x hj
  have hlt : j < xs.length := by
    rcases Nat.lt_or_ge j xs.length with h1 | h1
    · exact h1
    · rw [List.getElem?_eq_none h1] at hj; cases hj
  rw [hm (p + j) (by omega) (by omega)]
  exact h j x hj

theorem Live_get {α : Type} {m : Nat → Cell α} {p : Nat} {xs : List α} (h : Live m p xs)
    (a : Nat) (h1 : p ≤ a) (h2 : a < p + xs.length) : ∃ x, xs[a - p]? = some x ∧ m a = Cell.obj x := by
  have hlt : a - p < xs.length := by omega
  refine ⟨xs[a - p], List.getElem?_eq_getElem hlt, ?_⟩
  have := h (a - p) _ (List.getElem?_eq_getElem hlt)
  rw [← this]; congr 1; omega

theorem Live_take {α : Type} {m : Nat → Cell α} {p : Nat} {xs : List α} (h : Live m p xs)
    (k : Nat) : Live m p (xs.take k) := by
  intro j x hj
  rw [List.getElem?_take] at hj
  split at hj
  · exact h j x hj
  · cases hj

theorem Live_drop {α : Type} {m : Nat → Cell α} {p : Nat} {xs : List α} (h : Live m p xs)
    (k : Nat) : Live m (p + k) (xs.drop k) := by
  intro j x hj
  rw [List.getElem?_drop] at hj
  have := h (k + j) x hj
  rw [← this]; congr 1; omega

theorem Live_unique {α : Type} {m : Nat → Cell α} {p : Nat} {xs ys : List α}
    (hx : Live m p xs) (hy : Live m p ys) (hl : xs.length = ys.length) : xs = ys := by
  apply List.ext_getElem hl
  intro j h1 h2
  have a := hx j _ (List.getElem?_eq_getElem h1)
  have b := hy j _ (List.getElem?_eq_getElem h2)
  rw [a] at b
  exact Cell.obj.inj b

theorem read_objs_of_Live {α : Type} (xs : List α) :
    ∀ (m : Nat → Cell α) (p : Nat), Live m p xs → read_objs m p xs.length = xs := by
  induction xs with
  | nil => intro m p _; rfl
  | cons x l ih =>
    intro m p h
    rw [Live_cons] at h
    simp only [List.length_cons, read_objs, h.1, ih m (p + 1) h.2]

theorem Live_read_objs {α : Type} (k : Nat) :
    ∀ (m : Nat → Cell α) (p : Nat), (∀ a, p ≤ a → a < p + k → ∃ v, m a = Cell.obj v) →
      Live m p (read_objs m p k) ∧ (read_objs m p k).length = k := by
  induction k with
  | zero => intro m p _; exact ⟨Live_nil m p, rfl⟩
  | succ k ih =>
    intro m p h
    obtain ⟨v, hv⟩ := h p (Nat.le_refl p) (by omega)
    obtain ⟨h1, h2⟩ := ih m (p + 1) (fun a ha hb => h a (by omega) (by omega))
    simp only [read_objs, hv, Live_cons, List.length_cons, h2, and_true]
    exact ⟨trivial, h1⟩

@[simp] theorem write_list_nil {α : Type} (m : Nat → Cell α) (p : Nat) :
    write_list m p [] = m := by
  funext a; simp [write_list]

theorem write_list_cons {α : Type} (m : Nat → Cell α) (p : Nat) (x : α) (l : List α) :
    write_list (set_cell m p (Cell.obj x)) (p + 1) l = write_list m p (x :: l) := by
  funext a
  simp only [write_list, set_cell]
  by_cases h1 : p + 1 ≤ a
  · have h2 : p ≤ a := by omega
    have h3 : a - p = (a - (p + 1)) + 1 := by omega
    have h4 : ¬ a = p := by omega
    rw [if_pos h1, if_pos h2, h3, List.getElem?_cons_succ, if_neg h4]
  · rw [if_neg h1]
    by_cases h2 : a = p
    · subst h2; simp
    · have h3 : ¬ p ≤ a := by omega
      rw [if_neg h2, if_neg h3]

theorem write_list_concat {α : Type} (m : Nat → Cell α) (p : Nat) (x : α) (l : List α) :
    write_list (set_cell m (p + l.length) (Cell.obj x)) p l = write_list m p (l ++ [x]) := by
  funext a
  simp only [write_list, set_cell]
  by_cases h1 : p ≤ a
  · rw [if_pos h1, if_pos h1]
    rcases Nat.lt_trichotomy (a - p) l.length with h2 | h2 | h2
    · rw [List.getElem?_append_left h2]
      rw [List.getElem?_eq_getElem h2]
    · have h3 : a = p + l.length := by omega
      rw [List.getElem?_append_right (by omega), List.getElem?_eq_none (by omega)]
      simp [h2, h3]
    · have h3 : ¬ a = p + l.length := by omega
      rw [List.getElem?_eq_none (by omega), List.getElem?_eq_none (by simp; omega)]
      simp [h3]
  · have h3 : ¬ a = p + l.length := by omega
    rw [if_neg h1, if_neg h1, if_neg h3]

theorem write_list_append {α : Type} (l1 l2 : List α) :
    ∀ (m : Nat → Cell α) (p : Nat),
      write_list (write_list m p l1) (p + l1.length) l2 = write_list m p (l1 ++ l2) := by
  intro m p
  funext a
  simp only [write_list]
  by_cases h1 : p ≤ a
  · rw [if_pos h1]
    by_cases h2 : p + l1.length ≤ a
    · rw [if_pos h2, List.getElem?_append_right (by omega), List.getElem?_eq_none (l := l1) (by omega)]
      have : a - (p + l1.length) = a - p - l1.length := by omega
      rw [this, if_pos h1]
    · rw [if_neg h2, if_pos h1, List.getElem?_append_left (by omega)]
  · have h2 : ¬ p + l1.length ≤ a := by omega
    rw [if_neg h1, if_neg h2, if_neg h1]

theorem write_list_outside {α : Type} (m : Nat → Cell α) (p : Nat) (l : List α) (a : Nat)
    (h : a < p ∨ p + l.length ≤ a) : write_list m p l a = m a := by
  simp only [write_list]
  by_cases h1 : p ≤ a
  · rw [if_pos h1, List.getElem?_eq_none (by omega)]
  · rw [if_neg h1]

theorem Live_write_list {α : Type} (m : Nat → Cell α) (p : Nat) (l : List α) :
    Live (write_list m p l) p l := by
  intro j x hj
  simp only [write_list]
  rw [if_pos (by omega)]
  have : p + j - p = j := by omega
  rw [this, hj]

theorem write_list_inside {α : Type} (m : Nat → Cell α) (p : Nat) (l : List α) (a : Nat)
    (h1 : p ≤ a) (h2 : a < p + l.length) : ∃ x, write_list m p l a = Cell.obj x := by
  obtain ⟨x, _, hx⟩ := Live_get (Live_write_list m p l) a h1 h2
  exact ⟨x, hx⟩

@[simp] theorem fill_cells_zero {α : Type} (m : Nat → Cell α) (p : Nat) (c : Cell α) :
    fill_cells m p 0 c = m := by
  funext a; simp [fill_cells]

theorem fill_cells_succ {α : Type} (m : Nat → Cell α) (p k : Nat) (c : Cell α) :
    fill_cells (set_cell m p c) (p + 1) k c = fill_cells m p (k + 1) c := by
  funext a
  simp only [fill_cells, set_cell]
  by_cases h1 : a = p
  · subst h1; simp
  · have : (p + 1 ≤ a ∧ a < p + 1 + k) ↔ (p ≤ a ∧ a < p + (k + 1)) := by omega
    simp [this, h1]

theorem fill_cells_outside {α : Type} (m : Nat → Cell α) (p k : Nat) (c : Cell α) (a : Nat)
    (h : a < p ∨ p + k ≤ a) : fill_cells m p k c a = m a := by
  simp only [fill_cells]
  rw [if_neg (by omega)]

theorem fill_cells_inside {α : Type} (m : Nat → Cell α) (p k : Nat) (c : Cell α) (a : Nat)
    (h1 : p ≤ a) (h2 : a < p + k) : fill_cells m p k c a = c := by
  simp only [fill_cells]
  rw [if_pos ⟨h1, h2⟩]

theorem write_list_replicate {α : Type} (m : Nat → Cell α) (p k : Nat) (v : α) :
    write_list m p (List.replicate k v) = fill_cells m p k (Cell.obj v) := by
  funext a
  by_cases h : p ≤ a ∧ a < p + k
  · rw [fill_cells_inside m p k _ a h.1 h.2]
    simp only [write_list]
    rw [if_pos h.1, List.getElem?_replicate, if_pos (by omega)]
  · rw [fill_cells_outside m p k _ a (by omega), write_list_outside m p _ a (by simp; omega)]

theorem ptr_diff_eq {a b : Nat} (h1 : b ≤ a) (h2 : a - b < SIZE_MOD) : ptr_diff a b = a - b := by
  simp only [ptr_diff]
  rw [if_pos h1, Nat.mod_eq_of_lt h2]

/-! ## Primitive operations -/

@[simp] theorem Outcome.bind_ok {α β γ : Type} (r : β) (s : State α)
    (f : β → State α → Outcome α γ) : (Outcome.ok r s).bind f = f r s := rfl

@[simp] theorem Outcome.bind_throw {α β γ : Type} (e : Exn) (s : State α)
    (f : β → State α → Outcome α γ) :
    (Outcome.throw e s : Outcome α β).bind f = Outcome.throw e s := rfl

@[simp] theorem Outcome.bind_undefined {α β γ : Type} (f : β → State α → Outcome α γ) :
    (Outcome.undefined : Outcome α β).bind f = Outcome.undefined := rfl

@[simp] theorem Outcome.catch_std_ok {α β : Type} (r : β) (s : State α)
    (h : Exn → State α → Outcome α β) : (Outcome.ok r s).catch_std h = Outcome.ok r s := rfl

@[simp] theorem Outcome.catch_std_undefined {α β : Type} (h : Exn → State α → Outcome α β) :
    (Outcome.undefined : Outcome α β).catch_std h = Outcome.undefined := rfl

@[simp] theorem Outcome.catch_std_throw {α β : Type} (e : Exn) (s : State α)
    (h : Exn → State α → Outcome α β) :
    (Outcome.throw e s : Outcome α β).catch_std h =
      if e.is_std_exception then h e s else Outcome.throw e s := rfl

@[simp] theorem allows_none (k : Nat) : allows none k := by
  intro j h; cases h

@[simp] theorem allows_zero (b : Option Nat) : allows b 0 := by
  intro j _; exact Nat.zero_le j

@[simp] theorem allows_some (b k : Nat) : allows (some b) k ↔ k ≤ b := by
  constructor
  · intro h; exact h b rfl
  · intro h j hj; cases hj; exact h

@[simp] theorem spend_none (k : Nat) : spend none k = none := rfl

@[simp] theorem spend_some (b k : Nat) : spend (some b) k = some (b - k) := rfl

@[simp] theorem spend_zero (b : Option Nat) : spend b 0 = b := by
  cases b <;> simp [spend]

theorem spend_spend (b : Option Nat) (j k : Nat) : spend (spend b j) k = spend b (j + k) := by
  cases b <;> simp [spend, Nat.sub_sub]

theorem allows_add {b : Option Nat} {j k : Nat} :
    allows b (j + k) ↔ allows b j ∧ allows (spend b j) k := by
  cases b with
  | none => simp
  | some c => simp; omega

theorem allows_mono {b : Option Nat} {j k : Nat} (h : allows b k) (hjk : j ≤ k) : allows b j := by
  intro c hc; exact Nat.le_trans hjk (h c hc)

theorem ok_congr {α β : Type} {r r' : β} {s s' : State α} (hr : r = r') (hs : s = s') :
    Outcome.ok r s = Outcome.ok r' s' := by rw [hr, hs]

theorem throw_congr {α β : Type} {e e' : Exn} {s s' : State α} (he : e = e') (hs : s = s') :
    (Outcome.throw e s : Outcome α β) = Outcome.throw e' s' := by rw [he, hs]

theorem tick_ok {α : Type} (s : State α) (h : allows s.elem_budget 1) :
    tick s = Outcome.ok () { s with elem_budget := spend s.elem_budget 1 } := by
  unfold tick
  cases hb : s.elem_budget with
  | none => exact ok_congr rfl (by ext1 <;> simp [hb])
  | some j =>
    cases j with
    | zero => rw [hb] at h; simp at h
    | succ j => simp

theorem tick_throw {α : Type} (s : State α) (h : s.elem_budget = some 0) :
    tick s = Outcome.throw s.elem_exn { s with elem_budget := none } := by
  unfold tick; rw [h]

theorem tick_cases {α : Type} (s : State α) :
    (allows s.elem_budget 1 ∧
        tick s = Outcome.ok () { s with elem_budget := spend s.elem_budget 1 }) ∨
      (s.elem_budget = some 0 ∧
        tick s = Outcome.throw s.elem_exn { s with elem_budget := none }) := by
  cases hb : s.elem_budget with
  | none => left; exact ⟨by simp, by rw [← hb]; exact tick_ok s (by simp [hb])⟩
  | some j =>
    cases j with
    | zero => right; exact ⟨rfl, tick_throw s hb⟩
    | succ j => left; exact ⟨by simp, by rw [← hb]; exact tick_ok s (by simp [hb])⟩

theorem read_ok {α : Type} (s : State α) (p : Nat) (v : α) (hc : s.mem p = Cell.obj v) :
    read s p = Outcome.ok v { s with log := s.log ++ [Event.read p] } := by
  unfold read; rw [hc]

theorem construct_ok {α : Type} (s : State α) (p : Nat) (v : α)
    (hc : s.mem p = Cell.raw) (h : allows s.elem_budget 1) :
    construct s p v = Outcome.ok ()
      { s with mem := set_cell s.mem p (Cell.obj v), log := s.log ++ [Event.construct p],
               elem_budget := spend s.elem_budget 1 } := by
  unfold construct; rw [hc]; simp [tick_ok s h]

theorem construct_throw {α : Type} (s : State α) (p : Nat) (v : α)
    (hc : s.mem p = Cell.raw) (h : s.elem_budget = some 0) :
    construct s p v = Outcome.throw s.elem_exn { s with elem_budget := none } := by
  unfold construct; rw [hc]; simp [tick_throw s h]

theorem assign_ok {α : Type} (s : State α) (p : Nat) (v w : α)
    (hc : s.mem p = Cell.obj w) (h : allows s.elem_budget 1) :
    assign s p v = Outcome.ok ()
      { s with mem := set_cell s.mem p (Cell.obj v), log := s.log ++ [Event.assign p],
               elem_budget := spend s.elem_budget 1 } := by
  unfold assign; rw [hc]; simp [tick_ok s h]

theorem destory_ok {α : Type} (s : State α) (p : Nat) (w : α) (hc : s.mem p = Cell.obj w) :
    destory s p = Outcome.ok ()
      { s with mem := set_cell s.mem p Cell.raw, log := s.log ++ [Event.destroy p] } := by
  unfold destory; rw [hc]

/-! ## The construction loops -/

theorem uninitialized_fill_loop_ok {α : Type} (value : α) (n : Nat) :
    ∀ (s : State α) (first : Nat), Raw s.mem first n → allows s.elem_budget n →
      uninitialized_fill_loop s first value n = Outcome.ok (first + n)
        { s with mem := fill_cells s.mem first n (Cell.obj value),
                 log := s.log ++ fill_events first n,
                 elem_budget := spend s.elem_budget n } := by
  induction n with
  | zero =>
    intro s first _ _
    simp [uninitialized_fill_loop, fill_events]
  | succ n ih =>
    intro s first hraw hb
    rw [Nat.add_comm n 1, allows_add] at hb
    have h0 : s.mem first = Cell.raw := by simpa using hraw 0 (by omega)
    rw [uninitialized_fill_loop, construct_ok s first value h0 hb.1]
    simp only [Outcome.bind_ok]
    rw [ih]
    · apply ok_congr (by omega)
      ext1 <;> simp only [fill_cells_succ, spend_spend, fill_events, List.append_assoc,
        List.singleton_append, Nat.add_comm n 1]
    · intro j hj
      have := hraw (j + 1) (by omega)
      simp only [set_cell]
      rw [if_neg (by omega), ← this]; congr 1; omega
    · exact hb.2

theorem uninitialized_fill_loop_throw {α : Type} (value : α) (n : Nat) :
    ∀ (s : State α) (first b : Nat), Raw s.mem first (b + 1) → s.elem_budget = some b → b < n →
      uninitialized_fill_loop s first value n = Outcome.throw s.elem_exn
        { s with mem := fill_cells s.mem first b (Cell.obj value),
                 log := s.log ++ fill_events first b,
                 elem_budget := none } := by
  induction n with
  | zero => intro s first b _ _ hb; omega
  | succ n ih =>
    intro s first b hraw hbud hb
    have h0 : s.mem first = Cell.raw := by simpa using hraw 0 (by omega)
    cases b with
    | zero =>
      rw [uninitialized_fill_loop, construct_throw s first value h0 hbud]
      simp only [Outcome.bind_throw]
      apply throw_congr rfl
      ext1 <;> simp [fill_events]
    | succ b =>
      rw [uninitialized_fill_loop, construct_ok s first value h0 (by simp [hbud])]
      simp only [Outcome.bind_ok]
      rw [ih _ (first + 1) b]
      · apply throw_congr rfl
        ext1 <;> simp only [fill_cells_succ, fill_events, List.append_assoc,
          List.singleton_append]
      · intro j hj
        have := hraw (j + 1) (by omega)
        simp only [set_cell]
        rw [if_neg (by omega), ← this]; congr 1; omega
      · simp [hbud]
      · omega

theorem uninitialized_fill_loop_inv {α : Type} (value : α) (n : Nat) :
    ∀ (s : State α) (first : Nat),
      (∀ r s', uninitialized_fill_loop s first value n = Outcome.ok r s' →
        allows s.elem_budget n ∧ Raw s.mem first n) ∧
      (∀ e s', uninitialized_fill_loop s first value n = Outcome.throw e s' →
        ∃ b, s.elem_budget = some b ∧ b < n ∧ Raw s.mem first (b + 1)) := by
  induction n with
  | zero =>
    intro s first
    refine ⟨fun r s' _ => ⟨by simp, fun j hj => by omega⟩, fun e s' h => ?_⟩
    simp [uninitialized_fill_loop] at h
  | succ n ih =>
    intro s first
    rcases hc : s.mem first with _ | _ | x
    · simp [uninitialized_fill_loop, construct, hc]
    · rcases tick_cases s with ⟨hb, ht⟩ | ⟨hb, ht⟩
      · have hstep := construct_ok s first value hc hb
        have hraw : ∀ k, Raw (set_cell s.mem first (Cell.obj value)) (first + 1) k →
            Raw s.mem first (k + 1) := by
          intro k hk j hj
          cases j with
          | zero => simpa using hc
          | succ j =>
            have := hk j (by omega)
            simp only [set_cell] at this
            rw [if_neg (by omega)] at this
            rw [← this]; congr 1; omega
        constructor
        · intro r s' h
          rw [uninitialized_fill_loop, hstep] at h
          obtain ⟨a1, a2⟩ := (ih _ _).1 r s' h
          refine ⟨?_, hraw n a2⟩
          rw [Nat.add_comm n 1, allows_add]; exact ⟨hb, a1⟩
        · intro e s' h
          rw [uninitialized_fill_loop, hstep] at h
          obtain ⟨b, a1, a2, a3⟩ := (ih _ _).2 e s' h
          refine ⟨b + 1, ?_, by omega, hraw (b + 1) a3⟩
          cases hbud : s.elem_budget with
          | none => rw [hbud] at a1; simp at a1
          | some c =>
            rw [hbud] at a1 hb; simp at a1 hb; simp; omega
      · constructor
        · intro r s' h
          rw [uninitialized_fill_loop, construct_throw s first value hc hb] at h
          simp at h
        · intro e s' _
          exact ⟨0, hb, by omega, fun j hj => by
            have : j = 0 := by omega
            subst this; simpa using hc⟩
    · simp [uninitialized_fill_loop, construct, hc]

theorem Raw_set_cell_succ {α : Type} {m : Nat → Cell α} {p k : Nat} {c : Cell α}
    (h : Raw m p (k + 1)) : Raw (set_cell m p c) (p + 1) k := by
  intro j hj
  have := h (j + 1) (by omega)
  simp only [set_cell]
  rw [if_neg (by omega), ← this]; congr 1; omega

theorem Raw_of_set_cell_succ {α : Type} {m : Nat → Cell α} {p k : Nat} {c : Cell α}
    (h0 : m p = Cell.raw) (h : Raw (set_cell m p c) (p + 1) k) : Raw m p (k + 1) := by
  intro j hj
  cases j with
  | zero => simpa using h0
  | succ j =>
    have := h j (by omega)
    simp only [set_cell] at this
    rw [if_neg (by omega)] at this
    rw [← this]; congr 1; omega

theorem Raw_mono {α : Type} {m : Nat → Cell α} {p j k : Nat} (h : Raw m p k) (hjk : j ≤ k) :
    Raw m p j := fun i hi => h i (by omega)

theorem Live_set_cell_raw {α : Type} {m : Nat → Cell α} {p q : Nat} {xs : List α} {c : Cell α}
    (h : Live m p xs) (hq : m q = Cell.raw) : Live (set_cell m q c) p xs := by
  apply Live_congr h
  intro a h1 h2
  obtain ⟨x, _, hx⟩ := Live_get h a h1 h2
  simp only [set_cell]
  rw [if_neg]
  intro hEq
  rw [hEq, hq] at hx
  cases hx

theorem uninitialized_copy_loop_ok {α : Type} (xs : List α) :
    ∀ (s : State α) (first result : Nat), Live s.mem first xs → Raw s.mem result xs.length →
      allows s.elem_budget xs.length →
      uninitialized_copy_loop s first result xs.length = Outcome.ok (result + xs.length)
        { s with mem := write_list s.mem result xs,
                 log := s.log ++ copy_events first result xs.length,
                 elem_budget := spend s.elem_budget xs.length } := by
  induction xs with
  | nil =>
    intro s first result _ _ _
    simp [uninitialized_copy_loop, copy_events]
  | cons x l ih =>
    intro s first result hlive hraw hb
    rw [List.length_cons, Nat.add_comm l.length 1, allows_add] at hb
    have h0 : s.mem result = Cell.raw := by simpa using hraw 0 (by simp)
    obtain ⟨hx, hl⟩ := (Live_cons _ _ _ _).1 hlive
    rw [List.length_cons, uninitialized_copy_loop, read_ok s first x hx]
    simp only [Outcome.bind_ok]
    rw [construct_ok { s with log := s.log ++ [Event.read first] } result x h0 hb.1]
    simp only [Outcome.bind_ok]
    rw [ih]
    · apply ok_congr (by omega)
      ext1 <;> simp only [write_list_cons, spend_spend, copy_events, List.append_assoc,
        List.singleton_append, Nat.add_comm l.length 1, List.cons_append, List.nil_append]
    · exact Live_set_cell_raw hl h0
    · exact Raw_set_cell_succ hraw
    · exact hb.2

theorem uninitialized_copy_loop_throw {α : Type} (xs : List α) :
    ∀ (s : State α) (first result b : Nat), Live s.mem first xs → Raw s.mem result (b + 1) →
      s.elem_budget = some b → b < xs.length →
      uninitialized_copy_loop s first result xs.length = Outcome.throw s.elem_exn
        { s with mem := write_list s.mem result (xs.take b),
                 log := s.log ++ (copy_events first result b ++ [Event.read (first + b)]),
                 elem_budget := none } := by
  induction xs with
  | nil => intro s first result b _ _ _ hb; simp at hb
  | cons x l ih =>
    intro s first result b hlive hraw hbud hb
    have h0 : s.mem result = Cell.raw := by simpa using hraw 0 (by omega)
    obtain ⟨hx, hl⟩ := (Live_cons _ _ _ _).1 hlive
    rw [List.length_cons, uninitialized_copy_loop, read_ok s first x hx]
    simp only [Outcome.bind_ok]
    cases b with
    | zero =>
      rw [construct_throw { s with log := s.log ++ [Event.read first] } result x h0 hbud]
      simp only [Outcome.bind_throw]
      apply throw_congr rfl
      ext1 <;> simp [copy_events]
    | succ b =>
      rw [construct_ok { s with log := s.log ++ [Event.read first] } result x h0 (by simp [hbud])]
      simp only [Outcome.bind_ok]
      rw [ih _ (first + 1) (result + 1) b]
      · apply throw_congr rfl
        ext1 <;> simp only [write_list_cons, copy_events, List.append_assoc,
          List.singleton_append, List.take_succ_cons, List.cons_append, List.nil_append,
          Nat.add_assoc, Nat.add_comm 1 b]
      · exact Live_set_cell_raw hl h0
      · exact Raw_set_cell_succ hraw
      · simp [hbud]
      · simpa using hb

theorem uninitialized_copy_loop_inv {α : Type} (k : Nat) :
    ∀ (s : State α) (first result : Nat),
      (∀ r s', uninitialized_copy_loop s first result k = Outcome.ok r s' →
        allows s.elem_budget k ∧ Raw s.mem result k) ∧
      (∀ e s', uninitialized_copy_loop s first result k = Outcome.throw e s' →
        ∃ b, s.elem_budget = some b ∧ b < k ∧ Raw s.mem result (b + 1)) := by
  induction k with
  | zero =>
    intro s first result
    refine ⟨fun r s' _ => ⟨by simp, fun j hj => by omega⟩, fun e s' h => ?_⟩
    simp [uninitialized_copy_loop] at h
  | succ k ih =>
    intro s first result
    rcases hs : s.mem first with _ | _ | x
    · simp [uninitialized_copy_loop, read, hs]
    · simp [uninitialized_copy_loop, read, hs]
    · rw [uninitialized_copy_loop, read_ok s first x hs]
      simp only [Outcome.bind_ok]
      rcases hc : s.mem result with _ | _ | y
      · simp [construct, hc]
      · rcases tick_cases s with ⟨hb, _⟩ | ⟨hb, _⟩
        · rw [construct_ok { s with log := s.log ++ [Event.read first] } result x hc hb]
          simp only [Outcome.bind_ok]
          constructor
          · intro r s' h
            obtain ⟨a1, a2⟩ := (ih _ _ _).1 r s' h
            refine ⟨?_, Raw_of_set_cell_succ hc a2⟩
            rw [Nat.add_comm k 1, allows_add]; exact ⟨hb, a1⟩
          · intro e s' h
            obtain ⟨b, a1, a2, a3⟩ := (ih _ _ _).2 e s' h
            refine ⟨b + 1, ?_, by omega, Raw_of_set_cell_succ hc a3⟩
            cases hbud : s.elem_budget with
            | none => simp [hbud] at a1
            | some c =>
              simp [hbud] at a1 hb; simp; omega
        · rw [construct_throw { s with log := s.log ++ [Event.read first] } result x hc hb]
          simp only [Outcome.bind_throw]
          refine ⟨fun r s' h => by simp at h, fun e s' _ => ⟨0, hb, by omega, ?_⟩⟩
          intro j hj
          have : j = 0 := by omega
          subst this; simpa using hc
      · simp [construct, hc]

/-! ## Destruction and the assignment loops -/

theorem destory_loop_ok {α : Type} (xs : List α) :
    ∀ (s : State α) (first : Nat), Live s.mem first xs →
      destory_loop s first xs.length = Outcome.ok ()
        { s with mem := fill_cells s.mem first xs.length Cell.raw,
                 log := s.log ++ destroy_events first xs.length } := by
  induction xs with
  | nil => intro s first _; simp [destory_loop, destroy_events]
  | cons x l ih =>
    intro s first hlive
    obtain ⟨hx, hl⟩ := (Live_cons _ _ _ _).1 hlive
    rw [List.length_cons, destory_loop, destory_ok s first x hx]
    simp only [Outcome.bind_ok]
    rw [ih]
    · apply ok_congr rfl
      ext1 <;> simp only [fill_cells_succ, destroy_events, List.append_assoc,
        List.singleton_append]
    · apply Live_congr hl
      intro a h1 h2
      simp only [set_cell]
      rw [if_neg (by omega)]

theorem Objs_of_Live {α : Type} {m : Nat → Cell α} {p : Nat} {xs : List α} (h : Live m p xs) :
    Objs m p xs.length := by
  intro j hj
  exact ⟨xs[j], h j _ (List.getElem?_eq_getElem hj)⟩

theorem Objs_mono {α : Type} {m : Nat → Cell α} {p j k : Nat} (h : Objs m p k) (hjk : j ≤ k) :
    Objs m p j := fun i hi => h i (by omega)

theorem Objs_shift {α : Type} {m : Nat → Cell α} {p k : Nat} (h : Objs m p (k + 1)) (c : Cell α)
    : Objs (set_cell m p c) (p + 1) k := by
  intro j hj
  obtain ⟨v, hv⟩ := h (j + 1) (by omega)
  refine ⟨v, ?_⟩
  simp only [set_cell]
  rw [if_neg (by omega), ← hv]; congr 1; omega

theorem copy_loop_ok {α : Type} (xs : List α) :
    ∀ (s : State α) (first result : Nat), result ≤ first → Live s.mem first xs →
      Objs s.mem result xs.length → allows s.elem_budget xs.length →
      copy_loop s first result xs.length = Outcome.ok (result + xs.length)
        { s with mem := write_list s.mem result xs,
                 log := s.log ++ assign_events first result xs.length,
                 elem_budget := spend s.elem_budget xs.length } := by
  induction xs with
  | nil =>
    intro s first result _ _ _ _
    simp [copy_loop, assign_events]
  | cons x l ih =>
    intro s first result hle hlive hobj hb
    rw [List.length_cons, Nat.add_comm l.length 1, allows_add] at hb
    obtain ⟨w, hw⟩ := hobj 0 (by simp)
    obtain ⟨hx, hl⟩ := (Live_cons _ _ _ _).1 hlive
    rw [List.length_cons, copy_loop, read_ok s first x hx]
    simp only [Outcome.bind_ok]
    rw [assign_ok { s with log := s.log ++ [Event.read first] } result x w hw hb.1]
    simp only [Outcome.bind_ok]
    rw [ih]
    · apply ok_congr (by omega)
      ext1 <;> simp only [write_list_cons, spend_spend, assign_events, List.append_assoc,
        List.singleton_append, Nat.add_comm l.length 1, List.cons_append, List.nil_append]
    · omega
    · apply Live_congr hl
      intro a h1 h2
      simp only [set_cell]
      rw [if_neg (by omega)]
    · exact Objs_shift hobj _
    · exact hb.2

theorem copy_backward_loop_ok {α : Type} (xs : List α) :
    ∀ (s : State α) (src dst : Nat), src ≤ dst → Live s.mem src xs →
      Objs s.mem dst xs.length → allows s.elem_budget xs.length →
      copy_backward_loop s (src + xs.length) (dst + xs.length) xs.length = Outcome.ok dst
        { s with mem := write_list s.mem dst xs,
                 log := s.log ++
                   assign_back_events (src + xs.length) (dst + xs.length) xs.length,
                 elem_budget := spend s.elem_budget xs.length } := by
  induction xs using List.reverseRecOn with
  | nil =>
    intro s src dst _ _ _ _
    simp [copy_backward_loop, assign_back_events]
  | append_singleton l x ih =>
    intro s src dst hle hlive hobj hb
    rw [List.length_append, List.length_singleton] at hobj hb ⊢
    rw [Nat.add_comm l.length 1, allows_add] at hb
    obtain ⟨w, hw⟩ := hobj l.length (by omega)
    obtain ⟨hl, hx⟩ := (Live_append _ _ _ _).1 hlive
    have hx0 : s.mem (src + l.length) = Cell.obj x := by simpa using hx 0 x (by simp)
    have e1 : src + (l.length + 1) - 1 = src + l.length := by omega
    have e2 : dst + (l.length + 1) - 1 = dst + l.length := by omega
    rw [copy_backward_loop, e1, e2, read_ok s _ x hx0]
    simp only [Outcome.bind_ok]
    rw [assign_ok { s with log := s.log ++ [Event.read (src + l.length)] } _ x w hw hb.1]
    simp only [Outcome.bind_ok]
    rw [ih _ src dst hle]
    · apply ok_congr rfl
      ext1 <;> simp only [write_list_concat, spend_spend, assign_back_events, List.append_assoc,
        List.singleton_append, Nat.add_comm l.length 1, List.cons_append, List.nil_append, e1, e2]
      · simp only [Nat.add_comm 1 l.length, e1, e2]
    · apply Live_congr hl
      intro a h1 h2
      simp only [set_cell]
      rw [if_neg (by omega)]
    · intro j hj
      obtain ⟨v, hv⟩ := hobj j (by omega)
      refine ⟨v, ?_⟩
      simp only [set_cell]
      rw [if_neg (by omega), hv]
    · exact hb.2

/-! ## Counting element operations -/

theorem Ticks_ok {α β : Type} (s : State α) (r : β) : Ticks s 0 (Outcome.ok r s) := by
  intro r' s' h
  cases h
  simp

theorem Ticks_throw {α β : Type} (s : State α) (k : Nat) (e : Exn) (s1 : State α) :
    Ticks s k (Outcome.throw e s1 : Outcome α β) := by
  intro r' s' h; cases h

theorem Ticks_undefined {α β : Type} (s : State α) (k : Nat) :
    Ticks s k (Outcome.undefined : Outcome α β) := by
  intro r' s' h; cases h

theorem Ticks_bind {α β γ : Type} {s : State α} {j k : Nat} {o : Outcome α β}
    {f : β → State α → Outcome α γ} (h1 : Ticks s j o)
    (h2 : ∀ r s1, o = Outcome.ok r s1 → Ticks s1 k (f r s1)) : Ticks s (j + k) (o.bind f) := by
  intro r s' h
  cases o with
  | ok r1 s1 =>
    obtain ⟨a1, a2⟩ := h1 r1 s1 rfl
    obtain ⟨b1, b2⟩ := h2 r1 s1 rfl r s' h
    rw [a2] at b1 b2
    exact ⟨allows_add.2 ⟨a1, b1⟩, by rw [b2, spend_spend]⟩
  | throw e s1 => cases h
  | undefined => cases h

theorem Ticks_congr_state {α β : Type} {s t : State α} {k : Nat} {o : Outcome α β}
    (h : Ticks s k o) (hb : t.elem_budget = s.elem_budget) : Ticks t k o := by
  intro r s' ho
  rw [hb]; exact h r s' ho

theorem Ticks_tick {α : Type} (s : State α) : Ticks s 1 (tick s) := by
  intro r s' h
  rcases tick_cases s with ⟨hb, ht⟩ | ⟨_, ht⟩
  · rw [ht] at h; cases h; exact ⟨hb, rfl⟩
  · rw [ht] at h; cases h

theorem Ticks_read {α : Type} (s : State α) (p : Nat) : Ticks s 0 (read s p) := by
  intro r s' h
  unfold read at h
  split at h
  · cases h; simp
  · cases h

theorem Ticks_construct {α : Type} (s : State α) (p : Nat) (v : α) :
    Ticks s 1 (construct s p v) := by
  unfold construct
  split
  · show Ticks s (1 + 0) _
    apply Ticks_bind (Ticks_tick s)
    intro r s1 _ r' s' h
    cases h; simp
  · exact Ticks_undefined s 1

theorem Ticks_assign {α : Type} (s : State α) (p : Nat) (v : α) :
    Ticks s 1 (assign s p v) := by
  unfold assign
  split
  · show Ticks s (1 + 0) _
    apply Ticks_bind (Ticks_tick s)
    intro r s1 _ r' s' h
    cases h; simp
  · exact Ticks_undefined s 1

theorem Ticks_destory {α : Type} (s : State α) (p : Nat) : Ticks s 0 (destory s p) := by
  intro r s' h
  unfold destory at h
  split at h
  · cases h; simp
  · cases h

theorem Ticks_copy_loop {α : Type} (k : Nat) :
    ∀ (s : State α) (first result : Nat), Ticks s k (copy_loop s first result k) := by
  induction k with
  | zero => intro s first result; exact Ticks_ok s result
  | succ k ih =>
    intro s first result
    rw [copy_loop, Nat.add_comm k 1, ← Nat.zero_add (1 + k)]
    exact Ticks_bind (Ticks_read s first) fun x s1 _ =>
      Ticks_bind (Ticks_assign s1 result x) fun _ s2 _ => ih s2 _ _

theorem Ticks_copy_backward_loop {α : Type} (k : Nat) :
    ∀ (s : State α) (last result : Nat), Ticks s k (copy_backward_loop s last result k) := by
  induction k with
  | zero => intro s last result; exact Ticks_ok s result
  | succ k ih =>
    intro s last result
    rw [copy_backward_loop, Nat.add_comm k 1, ← Nat.zero_add (1 + k)]
    exact Ticks_bind (Ticks_read s _) fun x s1 _ =>
      Ticks_bind (Ticks_assign s1 _ x) fun _ s2 _ => ih s2 _ _

theorem Ticks_uninitialized_copy_loop {α : Type} (k : Nat) :
    ∀ (s : State α) (first result : Nat),
      Ticks s k (uninitialized_copy_loop s first result k) := by
  induction k with
  | zero => intro s first result; exact Ticks_ok s result
  | succ k ih =>
    intro s first result
    rw [uninitialized_copy_loop, Nat.add_comm k 1, ← Nat.zero_add (1 + k)]
    exact Ticks_bind (Ticks_read s first) fun x s1 _ =>
      Ticks_bind (Ticks_construct s1 result x) fun _ s2 _ => ih s2 _ _

theorem Ticks_uninitialized_fill_loop {α : Type} (value : α) (k : Nat) :
    ∀ (s : State α) (first : Nat), Ticks s k (uninitialized_fill_loop s first value k) := by
  induction k with
  | zero => intro s first; exact Ticks_ok s first
  | succ k ih =>
    intro s first
    rw [uninitialized_fill_loop, Nat.add_comm k 1]
    exact Ticks_bind (Ticks_construct s first value) fun _ s2 _ => ih s2 _

theorem Ticks_destory_loop {α : Type} (k : Nat) :
    ∀ (s : State α) (first : Nat), Ticks s 0 (destory_loop s first k) := by
  induction k with
  | zero => intro s first; exact Ticks_ok s ()
  | succ k ih =>
    intro s first
    rw [destory_loop]
    exact Ticks_bind (Ticks_destory s first) fun _ s2 _ => ih s2 _

theorem Ticks_with_value_copy {α β : Type} (s : State α) (value : α) (k : Nat)
    (body : α → State α → Outcome α β) (h : ∀ s1, Ticks s1 k (body value s1)) :
    Ticks s (1 + k) (with_value_copy s value body) := by
  unfold with_value_copy
  apply Ticks_bind (Ticks_tick s)
  intro _ s1 _ r s' hr
  have := h { s1 with log := s1.log ++ [Event.local_construct] }
  cases hbody : body value { s1 with log := s1.log ++ [Event.local_construct] } with
  | ok r2 s2 =>
    rw [hbody] at hr
    obtain ⟨a, b⟩ := this r2 s2 hbody
    cases hr
    exact ⟨a, b⟩
  | throw e s2 => rw [hbody] at hr; cases hr
  | undefined => rw [hbody] at hr; cases hr

/-! ## The allocator, the handler and the three-part build -/

theorem allocate_ok {α : Type} (s : State α) (n : Nat) (h1 : n ≤ PTRDIFF_MAX)
    (h2 : s.alloc_budget ≠ some 0) :
    data_allocator.allocate s n = Outcome.ok s.brk (after_alloc s n) := by
  unfold data_allocator.allocate
  rw [if_neg (by omega)]
  split
  · rename_i h; exact absurd h h2
  · rfl

theorem allocate_throw {α : Type} (s : State α) (n : Nat)
    (h : PTRDIFF_MAX < n ∨ s.alloc_budget = some 0) :
    data_allocator.allocate s n = Outcome.throw Exn.bad_alloc
      { s with alloc_budget := if PTRDIFF_MAX < n then s.alloc_budget else none } := by
  unfold data_allocator.allocate
  by_cases h1 : PTRDIFF_MAX < n
  · rw [if_pos h1, if_pos h1]
  · rw [if_neg h1, if_neg h1]
    rcases h with h | h
    · exact absurd h h1
    · rw [h]

theorem allocate_cases {α : Type} (s : State α) (n : Nat) :
    (n ≤ PTRDIFF_MAX ∧ s.alloc_budget ≠ some 0) ∨ (PTRDIFF_MAX < n ∨ s.alloc_budget = some 0) := by
  by_cases h1 : PTRDIFF_MAX < n
  · right; left; exact h1
  · by_cases h2 : s.alloc_budget = some 0
    · right; right; exact h2
    · left; exact ⟨by omega, h2⟩

theorem destory_range_ok {α : Type} (xs : List α) (s : State α) (first : Nat)
    (h : Live s.mem first xs) :
    destory_range s first (first + xs.length) = Outcome.ok ()
      { s with mem := fill_cells s.mem first xs.length Cell.raw,
               log := s.log ++ destroy_events first xs.length } := by
  unfold destory_range
  rw [if_neg (by omega), Nat.add_sub_cancel_left, destory_loop_ok xs s first h]

theorem rollback_eq {α β : Type} (zs : List α) (s : State α) (new_start new_size : Nat)
    (e : Exn) (h : Live s.mem new_start zs) :
    (vector.rollback new_start (new_start + zs.length) new_size e s : Outcome α β) =
      Outcome.throw e
        { s with mem := fill_cells (fill_cells s.mem new_start zs.length Cell.raw)
                          new_start new_size Cell.unalloc,
                 log := s.log ++ (destroy_events new_start zs.length ++
                          [Event.dealloc new_start new_size]) } := by
  unfold vector.rollback
  rw [destory_range_ok zs s new_start h]
  simp [data_allocator.deallocate]

theorem rollback_not_ok {α β : Type} (s : State α) (new_start new_finish new_size : Nat)
    (e : Exn) (r : β) (s' : State α) :
    (vector.rollback new_start new_finish new_size e s : Outcome α β) ≠ Outcome.ok r s' := by
  unfold vector.rollback
  cases destory_range s new_start new_finish with
  | ok r1 s1 => simp [data_allocator.deallocate]
  | throw e1 s1 => simp
  | undefined => simp

theorem write_list_write_list {α : Type} (m : Nat → Cell α) (p q : Nat) (l1 l2 : List α)
    (hq : q = p + l1.length) : write_list (write_list m p l1) q l2 = write_list m p (l1 ++ l2) := by
  subst hq; exact write_list_append l1 l2 m p

theorem fill_obj_write_list {α : Type} (m : Nat → Cell α) (p q k : Nat) (l1 : List α) (v : α)
    (hq : q = p + l1.length) :
    fill_cells (write_list m p l1) q k (Cell.obj v) = write_list m p (l1 ++ List.replicate k v) := by
  rw [← write_list_replicate, write_list_write_list m p q _ _ hq]

theorem Raw_append {α : Type} {m : Nat → Cell α} {p j k : Nat} (h1 : Raw m p j)
    (h2 : Raw m (p + j) k) : Raw m p (j + k) := by
  intro a ha
  by_cases h : a < j
  · exact h1 a h
  · have := h2 (a - j) (by omega)
    rw [← this]; congr 1; omega

theorem Raw_congr {α : Type} {m m' : Nat → Cell α} {p k : Nat} (h : Raw m p k)
    (hm : ∀ a, p ≤ a → a < p + k → m' a = m a) : Raw m' p k := by
  intro j hj
  rw [hm (p + j) (by omega) (by omega)]
  exact h j hj

theorem Raw_shift {α : Type} {m : Nat → Cell α} {p k : Nat} (h : Raw m p k) (j i : Nat)
    (hji : j + i ≤ k) : Raw m (p + j) i := by
  intro a ha
  have := h (j + a) (by omega)
  rw [← this]; congr 1; omega

theorem bind_eq_ok {α β γ : Type} {o : Outcome α β} {f : β → State α → Outcome α γ}
    {r : γ} {s' : State α} (h : o.bind f = Outcome.ok r s') :
    ∃ r1 s1, o = Outcome.ok r1 s1 ∧ f r1 s1 = Outcome.ok r s' := by
  cases o with
  | ok r1 s1 => exact ⟨r1, s1, rfl, h⟩
  | throw e s1 => cases h
  | undefined => cases h

theorem catch_rollback_eq_ok {α β : Type} {o : Outcome α β} {a b c : Nat} {r : β}
    {s' : State α} (h : o.catch_std (vector.rollback a b c) = Outcome.ok r s') :
    o = Outcome.ok r s' := by
  cases o with
  | ok r1 s1 => exact h
  | throw e s1 =>
    rw [Outcome.catch_std_throw] at h
    split at h
    · exact absurd h (rollback_not_ok _ _ _ _ _ _ _)
    · cases h
  | undefined => cases h

theorem build_ok {α : Type} (t : State α) (l1 l3 : List α) (n : Nat) (v : α)
    (ns new_size : Nat) (hlive : Live t.mem t.start (l1 ++ l3))
    (hfin : t.finish = t.start + (l1.length + l3.length)) (hsep : t.finish ≤ ns)
    (hraw : Raw t.mem ns (l1.length + (n + l3.length)))
    (hb : allows t.elem_budget (l1.length + (n + l3.length))) :
    build t (t.start + l1.length) n v ns new_size =
      Outcome.ok (ns + (l1.length + (n + l3.length)))
        { t with mem := write_list t.mem ns (l1 ++ List.replicate n v ++ l3),
                 log := t.log ++
                   build_events t.start (t.start + l1.length) ns l1.length n l3.length,
                 elem_budget := spend t.elem_budget (l1.length + (n + l3.length)) } := by
  have e3 : t.finish - (t.start + l1.length) = l3.length := by omega
  obtain ⟨hl1, hl3⟩ := (Live_append _ _ _ _).1 hlive
  rw [allows_add, allows_add] at hb
  unfold build uninitialized_copy
  rw [if_neg (by omega), Nat.add_sub_cancel_left, uninitialized_copy_loop_ok l1 t t.start ns
    hl1 (Raw_mono hraw (by omega)) hb.1]
  simp only [Outcome.catch_std_ok, Outcome.bind_ok]
  unfold uninitialized_fill_n
  rw [uninitialized_fill_loop_ok]
  · simp only [Outcome.catch_std_ok, Outcome.bind_ok]
    rw [if_neg (by omega), e3, uninitialized_copy_loop_ok l3]
    · simp only [Outcome.catch_std_ok]
      apply ok_congr (by omega)
      ext1 <;> simp only [spend_spend, build_events, List.append_assoc]
      · rw [fill_obj_write_list _ _ _ _ _ _ rfl, write_list_write_list _ _ _ _ _ (by simp; omega),
          List.append_assoc]
      · rw [Nat.add_assoc]
    · apply Live_congr hl3
      intro a h1 h2
      simp only
      rw [fill_cells_outside _ _ _ _ _ (by omega), write_list_outside _ _ _ _ (by omega)]
    · intro j hj
      simp only
      rw [fill_cells_outside _ _ _ _ _ (by omega), write_list_outside _ _ _ _ (by omega)]
      have := hraw (l1.length + n + j) (by omega)
      rw [← this]; congr 1; omega
    · simp only [spend_spend] at hb ⊢
      exact hb.2.2
  · intro j hj
    simp only
    rw [write_list_outside _ _ _ _ (by omega)]
    have := hraw (l1.length + j) (by omega)
    rw [← this]; congr 1; omega
  · exact hb.2.1

theorem build_throw {α : Type} (t : State α) (l1 l3 : List α) (n : Nat) (v : α)
    (ns new_size b : Nat) (hlive : Live t.mem t.start (l1 ++ l3))
    (hfin : t.finish = t.start + (l1.length + l3.length)) (hsep : t.finish ≤ ns)
    (hraw : Raw t.mem ns (b + 1)) (hbud : t.elem_budget = some b)
    (hb : b < l1.length + (n + l3.length)) :
    build t (t.start + l1.length) n v ns new_size =
      Outcome.throw t.elem_exn
        (build_failed t (l1 ++ List.replicate n v ++ l3) l1.length n ns new_size b) := by
  have e3 : t.finish - (t.start + l1.length) = l3.length := by omega
  obtain ⟨hl1, hl3⟩ := (Live_append _ _ _ _).1 hlive
  unfold build uninitialized_copy
  rw [if_neg (by omega), Nat.add_sub_cancel_left]
  by_cases c1 : b < l1.length
  · -- the first range copy throws
    rw [uninitialized_copy_loop_throw l1 t t.start ns b hl1 hraw hbud c1]
    have htake : (l1 ++ List.replicate n v ++ l3).take b = l1.take b := by
      rw [List.append_assoc, List.take_append_of_le_length (by omega)]
    simp only [Outcome.catch_std_throw, build_failed, completed, build_events_upto, if_pos c1,
      htake]
    by_cases hstd : t.elem_exn.is_std_exception = true
    · rw [if_pos hstd, if_pos hstd]
      have := rollback_eq (β := Nat) ([] : List α)
        { t with mem := write_list t.mem ns (List.take b l1),
                 log := t.log ++ (copy_events t.start ns b ++ [Event.read (t.start + b)]),
                 elem_budget := none } ns new_size t.elem_exn (Live_nil _ _)
      simp only [List.length_nil, Nat.add_zero] at this
      rw [this]
      simp only [Outcome.bind_throw, List.append_assoc]
    · rw [if_neg hstd, if_neg hstd]
      simp only [Outcome.bind_throw]
  · have c1' : l1.length ≤ b := by omega
    rw [uninitialized_copy_loop_ok l1 t t.start ns hl1 (Raw_mono hraw (by omega))
      (by rw [hbud]; simpa using c1')]
    simp only [Outcome.catch_std_ok, Outcome.bind_ok]
    unfold uninitialized_fill_n
    have hraw2 : ∀ k, l1.length + k ≤ b + 1 →
        Raw (write_list t.mem ns l1) (ns + l1.length) k := by
      intro k hk j hj
      rw [write_list_outside _ _ _ _ (by omega)]
      have := hraw (l1.length + j) (by omega)
      rw [← this]; congr 1; omega
    by_cases c2 : b < l1.length + n
    · -- the fill throws
      rw [uninitialized_fill_loop_throw v n _ _ (b - l1.length) (hraw2 _ (by omega))
        (by simp [hbud]) (by omega)]
      have htake : (l1 ++ List.replicate n v ++ l3).take b =
          l1 ++ List.replicate (b - l1.length) v := by
        rw [List.take_append_of_le_length (by simp; omega), List.take_append_eq_append_take,
          List.take_of_length_le (by omega), List.take_replicate]
        congr 2; omega
      simp only [Outcome.catch_std_throw, build_failed, completed, build_events_upto, if_neg c1,
        if_pos c2, htake, fill_obj_write_list _ _ _ _ _ _ rfl]
      by_cases hstd : t.elem_exn.is_std_exception = true
      · rw [if_pos hstd, if_pos hstd]
        rw [rollback_eq l1]
        · simp only [Outcome.bind_throw, List.append_assoc]
        · exact ((Live_append _ _ _ _).1 (Live_write_list _ _ _)).1
      · rw [if_neg hstd, if_neg hstd]
        simp only [Outcome.bind_throw, List.append_assoc]
    · -- the second range copy throws
      have c2' : l1.length + n ≤ b := by omega
      rw [uninitialized_fill_loop_ok v n _ _ (hraw2 _ (by omega)) (by simp [hbud]; omega)]
      simp only [Outcome.catch_std_ok, Outcome.bind_ok]
      rw [if_neg (by omega), e3]
      rw [uninitialized_copy_loop_throw l3 _ _ _ (b - (l1.length + n))]
      · have htake : (l1 ++ List.replicate n v ++ l3).take b =
            l1 ++ List.replicate n v ++ l3.take (b - (l1.length + n)) := by
          rw [List.take_append_eq_append_take, List.take_of_length_le (by simp; omega)]
          congr 2; simp
        simp only [Outcome.catch_std_throw, build_failed, completed, build_events_upto,
          if_neg c1, if_neg c2, htake, fill_obj_write_list _ _ _ _ _ _ rfl]
        have hw : write_list (write_list t.mem ns (l1 ++ List.replicate n v)) (ns + l1.length + n)
            (List.take (b - (l1.length + n)) l3) =
            write_list t.mem ns (l1 ++ List.replicate n v ++ l3.take (b - (l1.length + n))) :=
          write_list_write_list _ _ _ _ _ (by simp; omega)
        by_cases hstd : t.elem_exn.is_std_exception = true
        · rw [if_pos hstd, if_pos hstd]
          have hlen : ns + l1.length + n = ns + (l1 ++ List.replicate n v).length := by
            simp; omega
          rw [hlen, rollback_eq (l1 ++ List.replicate n v)]
          · rw [← hlen]
            apply throw_congr rfl
            ext1 <;> simp only [List.append_assoc, List.length_append, List.length_replicate, hw]
          · simp only [← hlen, hw]
            exact ((Live_append _ _ _ _).1 (Live_write_list _ _ _)).1
        · rw [if_neg hstd, if_neg hstd]
          apply throw_congr rfl
          ext1 <;> simp only [List.append_assoc, hw]
      · apply Live_congr hl3
        intro a h1 h2
        simp only
        rw [fill_cells_outside _ _ _ _ _ (by omega), write_list_outside _ _ _ _ (by omega)]
      · intro j hj
        simp only
        rw [fill_cells_outside _ _ _ _ _ (by omega), write_list_outside _ _ _ _ (by omega)]
        have := hraw (l1.length + n + j) (by omega)
        rw [← this]; congr 1; omega
      · simp [hbud, Nat.sub_sub]
      · omega

theorem spend_eq_some {bud : Option Nat} {j b : Nat} (h1 : allows bud j)
    (h2 : spend bud j = some b) : bud = some (j + b) := by
  cases bud with
  | none => simp at h2
  | some c => simp at h1 h2 ⊢; omega

theorem build_inv {α : Type} (t : State α) (l1 l3 : List α) (n : Nat) (v : α)
    (ns new_size : Nat) (hlive : Live t.mem t.start (l1 ++ l3))
    (hfin : t.finish = t.start + (l1.length + l3.length)) (_hsep : t.finish ≤ ns) :
    (∀ r s', build t (t.start + l1.length) n v ns new_size = Outcome.ok r s' →
        allows t.elem_budget (l1.length + (n + l3.length)) ∧
          Raw t.mem ns (l1.length + (n + l3.length))) ∧
      (∀ e s', build t (t.start + l1.length) n v ns new_size = Outcome.throw e s' →
        ∃ b, t.elem_budget = some b ∧ b < l1.length + (n + l3.length) ∧
          Raw t.mem ns (b + 1)) := by
  have e3 : t.finish - (t.start + l1.length) = l3.length := by omega
  obtain ⟨hl1, hl3⟩ := (Live_append _ _ _ _).1 hlive
  unfold build uninitialized_copy
  rw [if_neg (by omega), Nat.add_sub_cancel_left]
  obtain ⟨i1ok, i1th⟩ := uninitialized_copy_loop_inv l1.length t t.start ns
  cases h1 : uninitialized_copy_loop t t.start ns l1.length with
  | undefined => simp
  | throw e sA =>
    obtain ⟨b, hb1, hb2, hb3⟩ := i1th e sA h1
    constructor
    · intro r s' h
      obtain ⟨r1, s1, h', _⟩ := bind_eq_ok h
      cases catch_rollback_eq_ok h'
    · intro e' s' _
      exact ⟨b, hb1, by omega, hb3⟩
  | ok r1 s2 =>
    obtain ⟨a1, a2⟩ := i1ok r1 s2 h1
    rw [uninitialized_copy_loop_ok l1 t t.start ns hl1 a2 a1] at h1
    injection h1 with hr1 hs2
    have m2 : s2.mem = write_list t.mem ns l1 := by rw [← hs2]
    have b2 : s2.elem_budget = spend t.elem_budget l1.length := by rw [← hs2]
    have f2 : s2.finish = t.finish := by rw [← hs2]
    simp only [Outcome.catch_std_ok, Outcome.bind_ok]
    unfold uninitialized_fill_n
    obtain ⟨i2ok, i2th⟩ := uninitialized_fill_loop_inv v n s2 r1
    have raw2 : ∀ k, Raw s2.mem r1 k → Raw t.mem (ns + l1.length) k := by
      intro k hk
      rw [← hr1] at hk
      apply Raw_congr hk
      intro a h1 h2
      rw [m2, write_list_outside _ _ _ _ (by omega)]
    cases h2 : uninitialized_fill_loop s2 r1 v n with
    | undefined => simp
    | throw e sB =>
      obtain ⟨b, hb1, hb2, hb3⟩ := i2th e sB h2
      constructor
      · intro r s' h
        obtain ⟨r1, s1, h', _⟩ := bind_eq_ok h
        cases catch_rollback_eq_ok h'
      · intro e' s' _
        rw [b2] at hb1
        refine ⟨l1.length + b, spend_eq_some a1 hb1, by omega, ?_⟩
        rw [Nat.add_assoc]
        exact Raw_append a2 (raw2 _ hb3)
    | ok r2 s3 =>
      obtain ⟨c1, c2⟩ := i2ok r2 s3 h2
      rw [uninitialized_fill_loop_ok v n s2 r1 c2 c1] at h2
      injection h2 with hr2 hs3
      have m3 : s3.mem = fill_cells s2.mem r1 n (Cell.obj v) := by rw [← hs3]
      have b3 : s3.elem_budget = spend s2.elem_budget n := by rw [← hs3]
      have f3 : s3.finish = s2.finish := by rw [← hs3]
      simp only [Outcome.catch_std_ok, Outcome.bind_ok]
      rw [f3, f2, if_neg (by omega), e3]
      obtain ⟨i3ok, i3th⟩ := uninitialized_copy_loop_inv l3.length s3 (t.start + l1.length) r2
      have raw3 : ∀ k, Raw s3.mem r2 k → Raw t.mem (ns + (l1.length + n)) k := by
        intro k hk
        rw [← hr2, ← hr1, Nat.add_assoc] at hk
        apply Raw_congr hk
        intro a h1 h2
        rw [m3, fill_cells_outside _ _ _ _ _ (by omega), m2,
          write_list_outside _ _ _ _ (by omega)]
      have rawt : Raw t.mem ns (l1.length + n) := Raw_append a2 (raw2 _ c2)
      rw [b2] at c1
      cases h3 : uninitialized_copy_loop s3 (t.start + l1.length) r2 l3.length with
      | undefined => simp
      | throw e sC =>
        obtain ⟨b, hb1, hb2, hb3⟩ := i3th e sC h3
        constructor
        · intro r s' h
          cases catch_rollback_eq_ok h
        · intro e' s' _
          rw [b3, b2, spend_spend] at hb1
          refine ⟨l1.length + n + b, spend_eq_some (allows_add.2 ⟨a1, c1⟩) hb1, by omega, ?_⟩
          rw [Nat.add_assoc]
          exact Raw_append rawt (raw3 _ hb3)
      | ok r3 s4 =>
        obtain ⟨d1, d2⟩ := i3ok r3 s4 h3
        constructor
        · intro r s' _
          rw [b3, b2] at d1
          refine ⟨allows_add.2 ⟨a1, allows_add.2 ⟨c1, d1⟩⟩, ?_⟩
          rw [← Nat.add_assoc]
          exact Raw_append rawt (raw3 _ d2)
        · intro e' s' h
          simp at h

theorem build_eq_ok {α : Type} {t : State α} {l1 l3 : List α} {n : Nat} {v : α}
    {ns new_size : Nat} (hlive : Live t.mem t.start (l1 ++ l3))
    (hfin : t.finish = t.start + (l1.length + l3.length)) (hsep : t.finish ≤ ns)
    {r : Nat} {s' : State α}
    (h : build t (t.start + l1.length) n v ns new_size = Outcome.ok r s') :
    allows t.elem_budget (l1.length + (n + l3.length)) ∧
      Raw t.mem ns (l1.length + (n + l3.length)) ∧
      r = ns + (l1.length + (n + l3.length)) ∧
      s' = { t with mem := write_list t.mem ns (l1 ++ List.replicate n v ++ l3),
                    log := t.log ++
                      build_events t.start (t.start + l1.length) ns l1.length n l3.length,
                    elem_budget := spend t.elem_budget (l1.length + (n + l3.length)) } := by
  obtain ⟨a1, a2⟩ := (build_inv t l1 l3 n v ns new_size hlive hfin hsep).1 r s' h
  rw [build_ok t l1 l3 n v ns new_size hlive hfin hsep a2 a1] at h
  injection h with h1 h2
  exact ⟨a1, a2, h1.symm, h2.symm⟩

theorem build_eq_throw {α : Type} {t : State α} {l1 l3 : List α} {n : Nat} {v : α}
    {ns new_size : Nat} (hlive : Live t.mem t.start (l1 ++ l3))
    (hfin : t.finish = t.start + (l1.length + l3.length)) (hsep : t.finish ≤ ns)
    {e : Exn} {s' : State α}
    (h : build t (t.start + l1.length) n v ns new_size = Outcome.throw e s') :
    ∃ b, t.elem_budget = some b ∧ b < l1.length + (n + l3.length) ∧ Raw t.mem ns (b + 1) ∧
      e = t.elem_exn ∧
      s' = build_failed t (l1 ++ List.replicate n v ++ l3) l1.length n ns new_size b := by
  obtain ⟨b, a1, a2, a3⟩ := (build_inv t l1 l3 n v ns new_size hlive hfin hsep).2 e s' h
  rw [build_throw t l1 l3 n v ns new_size b hlive hfin hsep a3 a1 a2] at h
  injection h with h1 h2
  exact ⟨b, a1, a2, a3, h1.symm, h2.symm⟩

/-! ## The growth path -/

theorem Valid.size_eq {α : Type} {s : State α} (h : Valid s) :
    vector.size s = s.finish - s.start := by
  have h1 := h.start_le
  have h2 := h.finish_le
  have h3 := h.cap_le
  unfold vector.size
  apply ptr_diff_eq h1
  simp only [PTRDIFF_MAX, SIZE_MOD] at *
  omega

theorem Valid.capacity_eq {α : Type} {s : State α} (h : Valid s) :
    vector.capacity s = s.end_of_stroage - s.start := by
  have h1 := h.start_le
  have h2 := h.finish_le
  have h3 := h.cap_le
  unfold vector.capacity
  apply ptr_diff_eq (by omega)
  simp only [PTRDIFF_MAX, SIZE_MOD] at *
  omega

theorem Valid.spare_eq {α : Type} {s : State α} (h : Valid s) :
    ptr_diff s.end_of_stroage s.finish = s.end_of_stroage - s.finish := by
  have h1 := h.start_le
  have h2 := h.finish_le
  have h3 := h.cap_le
  apply ptr_diff_eq h2
  simp only [PTRDIFF_MAX, SIZE_MOD] at *
  omega

theorem Valid.live_to_list {α : Type} {s : State α} (h : Valid s) :
    Live s.mem s.start (vector.to_list s) ∧ (vector.to_list s).length = s.finish - s.start := by
  unfold vector.to_list
  rw [h.size_eq]
  apply Live_read_objs
  intro a h1 h2
  obtain ⟨v, hv⟩ := h.live (a - s.start) (by omega)
  refine ⟨v, ?_⟩
  rw [← hv]; congr 1; omega

theorem to_list_eq {α : Type} {s : State α} {xs : List α} (h : Valid s)
    (hl : Live s.mem s.start xs) (hn : s.finish = s.start + xs.length) :
    vector.to_list s = xs := by
  obtain ⟨a, b⟩ := h.live_to_list
  exact Live_unique a hl (by omega)

theorem grow_ok {α : Type} (s : State α) (l1 l3 : List α) (n : Nat) (v : α) (new_size : Nat)
    (hv : Valid s) (hlive : Live s.mem s.start (l1 ++ l3))
    (hfin : s.finish = s.start + (l1.length + l3.length))
    (h1 : new_size ≤ PTRDIFF_MAX) (h2 : s.alloc_budget ≠ some 0)
    (h3 : l1.length + (n + l3.length) ≤ new_size)
    (hb : allows s.elem_budget (l1.length + (n + l3.length))) :
    grow s (s.start + l1.length) n v new_size =
      Outcome.ok () (grow_done s (l1 ++ List.replicate n v ++ l3) l1.length n new_size) := by
  have hle := hv.finish_le
  have hbrk := hv.below_brk
  unfold grow
  rw [allocate_ok s new_size h1 h2]
  unfold after_alloc
  simp only [Outcome.bind_ok]
  rw [build_ok _ l1 l3 n v s.brk new_size]
  · simp only [Outcome.bind_ok]
    have hfin' : s.finish = s.start + (l1 ++ l3).length := by
      rw [hfin, List.length_append]
    simp only [hfin']
    rw [destory_range_ok (l1 ++ l3)]
    swap
    · apply Live_congr hlive
      intro a ha hb
      simp only [List.length_append] at hb
      simp only
      rw [write_list_outside _ _ _ _ (by omega), fill_cells_outside _ _ _ _ _ (by omega)]
    simp only [List.length_append]
    simp only [Outcome.bind_ok, vector.deallocate]
    have hlen : (l1 ++ List.replicate n v ++ l3).length = l1.length + (n + l3.length) := by
      simp
    have hsz : s.start + (l1.length + l3.length) - s.start = l1.length + l3.length := by omega
    have hsz2 : l1.length + l3.length - l1.length = l3.length := by omega
    by_cases h0 : s.start = 0
    · have he := hv.null h0
      rw [if_neg (by simpa using h0)]
      apply ok_congr rfl
      unfold grow_done
      ext1 <;> simp [hfin, hsz, hsz2, he, h0]
    · rw [if_pos (by simpa using h0)]
      simp only [data_allocator.deallocate, hv.capacity_eq.symm ▸ hv.capacity_eq]
      have hc := hv.capacity_eq
      unfold vector.capacity at hc
      rw [hc]
      apply ok_congr rfl
      unfold grow_done
      ext1 <;> simp [hfin, hsz, hsz2, h0]
  · simpa using (Live_congr hlive (by
      intro a ha hb
      simp only [List.length_append] at hb
      rw [fill_cells_outside _ _ _ _ _ (by omega)]))
  · exact hfin
  · show s.finish ≤ s.brk
    omega
  · intro j hj
    exact fill_cells_inside _ _ _ _ _ (by omega) (by omega)
  · exact hb

theorem after_alloc_fresh {α : Type} {s : State α} (hv : Valid s) (n : Nat) :
    (after_alloc s n).mem (s.brk + n) = Cell.unalloc := by
  show fill_cells s.mem s.brk n Cell.raw (s.brk + n) = Cell.unalloc
  rw [fill_cells_outside _ _ _ _ _ (by omega)]
  exact hv.fresh _ (by omega)

theorem Raw_after_alloc_le {α : Type} {s : State α} (hv : Valid s) {n k : Nat}
    (h : Raw (after_alloc s n).mem s.brk k) : k ≤ n := by
  by_contra hc
  have h1 := h n (by omega)
  rw [after_alloc_fresh hv n] at h1
  cases h1

theorem Live_after_alloc {α : Type} {s : State α} (hv : Valid s) {xs : List α} (n : Nat)
    (hlive : Live s.mem s.start xs) (hfin : s.finish = s.start + xs.length) :
    Live (after_alloc s n).mem s.start xs := by
  have hle := hv.finish_le
  have hbrk := hv.below_brk
  apply Live_congr hlive
  intro a ha hb
  show fill_cells s.mem s.brk n Cell.raw a = s.mem a
  rw [fill_cells_outside _ _ _ _ _ (by omega)]

theorem grow_eq_ok {α : Type} {s : State α} {l1 l3 : List α} {n : Nat} {v : α}
    {new_size : Nat} (hv : Valid s) (hlive : Live s.mem s.start (l1 ++ l3))
    (hfin : s.finish = s.start + (l1.length + l3.length)) {s' : State α}
    (h : grow s (s.start + l1.length) n v new_size = Outcome.ok () s') :
    new_size ≤ PTRDIFF_MAX ∧ s.alloc_budget ≠ some 0 ∧
      l1.length + (n + l3.length) ≤ new_size ∧
      allows s.elem_budget (l1.length + (n + l3.length)) ∧
      s' = grow_done s (l1 ++ List.replicate n v ++ l3) l1.length n new_size := by
  have hle := hv.finish_le
  have hbrk := hv.below_brk
  rcases allocate_cases s new_size with ⟨a1, a2⟩ | a
  · have h' := h
    unfold grow at h'
    rw [allocate_ok s new_size a1 a2] at h'
    simp only [Outcome.bind_ok] at h'
    obtain ⟨r, s1, hb, _⟩ := bind_eq_ok h'
    obtain ⟨b1, b2, _, _⟩ := build_eq_ok (t := after_alloc s new_size)
      (Live_after_alloc hv new_size hlive (by rw [hfin, List.length_append]))
      hfin (show s.finish ≤ s.brk by omega) hb
    have b3 := Raw_after_alloc_le hv b2
    refine ⟨a1, a2, b3, b1, ?_⟩
    rw [grow_ok s l1 l3 n v new_size hv hlive hfin a1 a2 b3 b1] at h
    injection h with _ h
    exact h.symm
  · unfold grow at h
    rw [allocate_throw s new_size a] at h
    cases h

theorem grow_throw {α : Type} (s : State α) (l1 l3 : List α) (n : Nat) (v : α)
    (new_size b : Nat) (hv : Valid s) (hlive : Live s.mem s.start (l1 ++ l3))
    (hfin : s.finish = s.start + (l1.length + l3.length))
    (h1 : new_size ≤ PTRDIFF_MAX) (h2 : s.alloc_budget ≠ some 0)
    (hbud : s.elem_budget = some b) (hb : b < l1.length + (n + l3.length))
    (hb' : b < new_size) :
    grow s (s.start + l1.length) n v new_size =
      Outcome.throw s.elem_exn (build_failed (after_alloc s new_size)
        (l1 ++ List.replicate n v ++ l3) l1.length n s.brk new_size b) := by
  have hle := hv.finish_le
  have hbrk := hv.below_brk
  unfold grow
  rw [allocate_ok s new_size h1 h2]
  simp only [Outcome.bind_ok]
  have := build_throw (after_alloc s new_size) l1 l3 n v s.brk new_size b
    (Live_after_alloc hv new_size hlive (by rw [hfin, List.length_append]))
    hfin (show s.finish ≤ s.brk by omega)
    (fun j hj => fill_cells_inside _ _ _ _ _ (by omega) (by omega)) hbud hb
  have e : (after_alloc s new_size).start = s.start := rfl
  rw [e] at this
  rw [this]
  rfl

theorem grow_throw_alloc {α : Type} (s : State α) (position n : Nat) (v : α) (new_size : Nat)
    (h : PTRDIFF_MAX < new_size ∨ s.alloc_budget = some 0) :
    grow s position n v new_size = Outcome.throw Exn.bad_alloc
      { s with alloc_budget := if PTRDIFF_MAX < new_size then s.alloc_budget else none } := by
  unfold grow
  rw [allocate_throw s new_size h]
  rfl

theorem grow_eq_throw {α : Type} {s : State α} {l1 l3 : List α} {n : Nat} {v : α}
    {new_size : Nat} (hv : Valid s) (hlive : Live s.mem s.start (l1 ++ l3))
    (hfin : s.finish = s.start + (l1.length + l3.length)) {e : Exn} {s' : State α}
    (h : grow s (s.start + l1.length) n v new_size = Outcome.throw e s') :
    ((PTRDIFF_MAX < new_size ∨ s.alloc_budget = some 0) ∧ e = Exn.bad_alloc ∧
        s' = { s with alloc_budget :=
                 if PTRDIFF_MAX < new_size then s.alloc_budget else none }) ∨
      (new_size ≤ PTRDIFF_MAX ∧ s.alloc_budget ≠ some 0 ∧
        ∃ b, s.elem_budget = some b ∧ b < l1.length + (n + l3.length) ∧ b < new_size ∧
          e = s.elem_exn ∧
          s' = build_failed (after_alloc s new_size) (l1 ++ List.replicate n v ++ l3)
                 l1.length n s.brk new_size b) := by
  have hle := hv.finish_le
  have hbrk := hv.below_brk
  rcases allocate_cases s new_size with ⟨a1, a2⟩ | a
  · right
    refine ⟨a1, a2, ?_⟩
    have h' := h
    unfold grow at h'
    rw [allocate_ok s new_size a1 a2] at h'
    simp only [Outcome.bind_ok] at h'
    have hl := Live_after_alloc hv new_size hlive (by rw [hfin, List.length_append])
    cases hb : build (after_alloc s new_size) (s.start + l1.length) n v s.brk new_size with
    | ok r s1 =>
      obtain ⟨b1, b2, _, _⟩ := build_eq_ok (t := after_alloc s new_size) hl
        hfin (show s.finish ≤ s.brk by omega) hb
      have b3 := Raw_after_alloc_le hv b2
      rw [grow_ok s l1 l3 n v new_size hv hlive hfin a1 a2 b3 b1] at h
      cases h
    | throw e1 s1 =>
      obtain ⟨b, c1, c2, c3, c4, c5⟩ := build_eq_throw (t := after_alloc s new_size) hl
        hfin (show s.finish ≤ s.brk by omega) hb
      have c6 := Raw_after_alloc_le hv c3
      rw [hb] at h'
      injection h' with h1 h2
      exact ⟨b, c1, c2, by omega, by rw [← h1, c4]; rfl, by rw [← h2, c5]⟩
    | undefined =>
      rw [hb] at h'
      cases h'
  · left
    rw [grow_throw_alloc s _ n v new_size a] at h
    injection h with h1 h2
    exact ⟨a, h1.symm, h2.symm⟩

theorem grow_done_mem_new {α : Type} {s : State α} (hv : Valid s) (ys : List α)
    (i n new_size a : Nat) (ha : s.brk ≤ a) :
    (grow_done s ys i n new_size).mem a =
      write_list (fill_cells s.mem s.brk new_size Cell.raw) s.brk ys a := by
  have h1 := hv.start_le
  have h2 := hv.finish_le
  have h3 := hv.below_brk
  show fill_cells (fill_cells _ _ _ _) _ _ _ a = _
  rw [fill_cells_outside _ _ _ _ _ (by omega), fill_cells_outside _ _ _ _ _ (by omega)]

theorem Live_grow_done {α : Type} {s : State α} (hv : Valid s) (ys : List α)
    (i n new_size : Nat) : Live (grow_done s ys i n new_size).mem s.brk ys := by
  apply Live_congr (Live_write_list (fill_cells s.mem s.brk new_size Cell.raw) s.brk ys)
  intro a h1 h2
  exact grow_done_mem_new hv ys i n new_size a h1

theorem Valid_grow_done {α : Type} {s : State α} (hv : Valid s) (ys : List α)
    (i n new_size : Nat) (h1 : ys.length ≤ new_size) (h2 : new_size ≤ PTRDIFF_MAX) :
    Valid (grow_done s ys i n new_size) := by
  have g1 := hv.start_le
  have g2 := hv.finish_le
  have g3 := hv.below_brk
  refine ⟨?_, ?_, ?_, ?_, ?_, ?_, ?_, ?_⟩
  · show s.brk ≤ s.brk + ys.length
    omega
  · show s.brk + ys.length ≤ s.brk + new_size
    omega
  · show s.brk + new_size < s.brk + new_size + 1
    omega
  · intro a ha
    have ha' : s.brk + new_size + 1 ≤ a := ha
    rw [grow_done_mem_new hv ys i n new_size a (by omega),
      write_list_outside _ _ _ _ (by omega), fill_cells_outside _ _ _ _ _ (by omega)]
    exact hv.fresh a (by omega)
  · show Objs _ s.brk (s.brk + ys.length - s.brk)
    rw [Nat.add_sub_cancel_left]
    exact Objs_of_Live (Live_grow_done hv ys i n new_size)
  · show Raw _ (s.brk + ys.length) (s.brk + new_size - (s.brk + ys.length))
    intro j hj
    rw [grow_done_mem_new hv ys i n new_size _ (by omega),
      write_list_outside _ _ _ _ (by omega)]
    exact fill_cells_inside _ _ _ _ _ (by omega) (by omega)
  · show s.brk + new_size - s.brk ≤ PTRDIFF_MAX
    omega
  · intro h0
    have h0' : s.brk = 0 := h0
    omega

theorem to_list_grow_done {α : Type} {s : State α} (hv : Valid s) (ys : List α)
    (i n new_size : Nat) (h1 : ys.length ≤ new_size) (h2 : new_size ≤ PTRDIFF_MAX) :
    vector.to_list (grow_done s ys i n new_size) = ys :=
  to_list_eq (Valid_grow_done hv ys i n new_size h1 h2) (Live_grow_done hv ys i n new_size) rfl

theorem rollback_bind {α β γ : Type} (a b c : Nat) (e : Exn) (s : State α)
    (f : β → State α → Outcome α γ) :
    (vector.rollback a b c e s : Outcome α β).bind f = vector.rollback a b c e s := by
  unfold vector.rollback
  cases destory_range s a b with
  | ok r1 s1 => simp [data_allocator.deallocate]
  | throw e1 s1 => simp
  | undefined => simp

theorem construct_as_fill {α γ : Type} (s : State α) (p : Nat) (v : α) (a c : Nat)
    (f : Nat → State α → Outcome α γ) :
    ((construct s p v).catch_std (vector.rollback a p c)).bind (fun _ s1 => f (p + 1) s1) =
      ((uninitialized_fill_n s p 1 v).catch_std (vector.rollback a p c)).bind f := by
  unfold uninitialized_fill_n
  simp only [uninitialized_fill_loop]
  cases construct s p v with
  | ok r1 s1 => simp
  | throw e1 s1 =>
    simp only [Outcome.catch_std_throw, Outcome.bind_throw]
    split
    · rw [rollback_bind, rollback_bind]
    · rfl
  | undefined => simp

theorem insert_aux_full {α : Type} (s : State α) (position : Nat) (v : α)
    (h : s.finish = s.end_of_stroage) :
    vector.insert_aux s position v =
      grow s position 1 v
        (if vector.size s ≠ 0 then (2 * vector.size s) % SIZE_MOD else 1) := by
  unfold vector.insert_aux grow build
  rw [if_neg (by simpa using h)]
  simp only
  congr 1
  funext new_start s1
  congr 1
  cases uninitialized_copy s1 s1.start position new_start with
  | ok r s2 =>
    simp only [Outcome.catch_std_ok, Outcome.bind_ok]
    exact construct_as_fill s2 r v new_start _
      (fun nf s3 => (uninitialized_copy s3 position s3.finish nf).catch_std
        (vector.rollback new_start nf _))
  | throw e s2 =>
    simp only [Outcome.catch_std_throw]
    split
    · rw [rollback_bind, rollback_bind]
    · rfl
  | undefined => rfl

/-! ## Single-element insertion on the growth path -/

theorem Valid.split {α : Type} {s : State α} (hv : Valid s) {i : Nat}
    (hi : i ≤ vector.size s) :
    Live s.mem s.start ((vector.to_list s).take i ++ (vector.to_list s).drop i) ∧
      ((vector.to_list s).take i).length = i ∧
      ((vector.to_list s).drop i).length = vector.size s - i ∧
      s.finish = s.start + (((vector.to_list s).take i).length +
        ((vector.to_list s).drop i).length) := by
  obtain ⟨h1, h2⟩ := hv.live_to_list
  have h3 := hv.size_eq
  have h4 := hv.start_le
  rw [List.take_append_drop, List.length_take, List.length_drop, h2, ← h3]
  exact ⟨h1, by omega, rfl, by omega⟩

theorem example_full_valid : Valid example_full := by
  refine ⟨by decide, by decide, by decide, ?_, ?_, ?_, by decide, by decide⟩
  · intro a ha
    have h : 4 ≤ a := ha
    show (if a = 1 then Cell.obj 10 else if a = 2 then Cell.obj 20 else Cell.unalloc) = _
    rw [if_neg (by omega), if_neg (by omega)]
  · intro j hj
    have h : j < 2 := hj
    interval_cases j
    · exact ⟨10, rfl⟩
    · exact ⟨20, rfl⟩
  · intro j hj
    have h : j < 0 := hj
    omega

theorem grow_ok_iff {α : Type} {s : State α} (hv : Valid s) {i : Nat} (hi : i ≤ vector.size s)
    (n : Nat) (v : α) (new_size : Nat) (s' : State α) :
    grow s (s.start + i) n v new_size = Outcome.ok () s' ↔
      (new_size ≤ PTRDIFF_MAX ∧ s.alloc_budget ≠ some 0 ∧ vector.size s + n ≤ new_size ∧
        allows s.elem_budget (vector.size s + n) ∧
        s' = grow_done s (spliced (vector.to_list s) i n v) i n new_size) := by
  obtain ⟨h1, h2, h3, h4⟩ := hv.split hi
  have e : ((vector.to_list s).take i).length + (n + ((vector.to_list s).drop i).length) =
      vector.size s + n := by omega
  constructor
  · intro h
    rw [← h2] at h
    obtain ⟨a1, a2, a3, a4, a5⟩ := grow_eq_ok hv h1 h4 h
    rw [h2] at a5
    rw [e] at a3 a4
    exact ⟨a1, a2, a3, a4, a5⟩
  · rintro ⟨a1, a2, a3, a4, a5⟩
    rw [a5]
    have := grow_ok s _ _ n v new_size hv h1 h4 a1 a2 (by rw [e]; exact a3)
      (by rw [e]; exact a4)
    rw [h2] at this
    exact this

theorem grow_done_facts {α : Type} {s : State α} (hv : Valid s) {i : Nat}
    (hi : i ≤ vector.size s) (n : Nat) (v : α) (new_size : Nat)
    (h1 : new_size ≤ PTRDIFF_MAX) (h2 : vector.size s + n ≤ new_size) :
    Valid (grow_done s (spliced (vector.to_list s) i n v) i n new_size) ∧
      vector.to_list (grow_done s (spliced (vector.to_list s) i n v) i n new_size) =
        spliced (vector.to_list s) i n v ∧
      vector.size (grow_done s (spliced (vector.to_list s) i n v) i n new_size) =
        vector.size s + n ∧
      vector.capacity (grow_done s (spliced (vector.to_list s) i n v) i n new_size) =
        new_size := by
  obtain ⟨g1, g2⟩ := hv.live_to_list
  have g3 := hv.size_eq
  have hlen : (spliced (vector.to_list s) i n v).length = vector.size s + n := by
    unfold spliced
    simp only [List.length_append, List.length_take, List.length_replicate, List.length_drop]
    omega
  have hV := Valid_grow_done hv (spliced (vector.to_list s) i n v) i n new_size
    (by rw [hlen]; exact h2) h1
  refine ⟨hV, to_list_grow_done hv _ i n new_size (by rw [hlen]; exact h2) h1, ?_, ?_⟩
  · rw [hV.size_eq]
    show s.brk + (spliced (vector.to_list s) i n v).length - s.brk = _
    rw [hlen]; omega
  · rw [hV.capacity_eq]
    show s.brk + new_size - s.brk = _
    omega

theorem aux_new_size {α : Type} {s : State α} (hv : Valid s) :
    (if vector.size s ≠ 0 then (2 * vector.size s) % SIZE_MOD else 1) =
      max 1 (2 * vector.size s) := by
  have h1 := hv.size_eq
  have h2 := hv.cap_le
  have h3 := hv.finish_le
  have h4 : 2 * vector.size s < SIZE_MOD := by
    simp only [PTRDIFF_MAX, SIZE_MOD] at *
    omega
  rw [Nat.mod_eq_of_lt h4]
  split <;> omega

/-- C3. Content correctness of `insert_aux` on the growth path: on a full container
(`finish = end_of_stroage`, the empty one included) and for an index `i ≤ size`, the
call returns normally whenever the allocation and the element copies do not fail,
and every normal return leaves a valid container of size `size + 1` whose element
sequence is the first `i` old elements, then `v`, then the old elements from `i` on. -/
theorem insert_aux_growth_content {α : Type} (s : State α) (i : Nat) (v : α)
    (hv : Valid s) (hfull : s.finish = s.end_of_stroage) (hi : i ≤ vector.size s) :
    (s.alloc_budget ≠ some 0 → allows s.elem_budget (vector.size s + 1) →
        2 * vector.size s ≤ PTRDIFF_MAX →
        ∃ s', vector.insert_aux s (s.start + i) v = Outcome.ok () s') ∧
      (∀ s', vector.insert_aux s (s.start + i) v = Outcome.ok () s' →
        Valid s' ∧ vector.size s' = vector.size s + 1 ∧
          vector.to_list s' =
            (vector.to_list s).take i ++ v :: (vector.to_list s).drop i) := by
  rw [insert_aux_full s _ v hfull, aux_new_size hv]
  constructor
  · intro a1 a2 a3
    refine ⟨_, (grow_ok_iff hv hi 1 v _ _).2 ⟨?_, a1, ?_, a2, rfl⟩⟩
    · simp only [PTRDIFF_MAX] at *; omega
    · omega
  · intro s' h
    obtain ⟨a1, _, a3, _, a5⟩ := (grow_ok_iff hv hi 1 v _ s').1 h
    obtain ⟨b1, b2, b3, _⟩ := grow_done_facts hv hi 1 v _ a1 a3
    rw [a5]
    refine ⟨b1, b3, ?_⟩
    rw [b2]
    simp [spliced]

/-- Witness of C3: inserting 7 at index 1 of the full container `[10, 20]`. -/
theorem insert_aux_growth_content_witness :
    ∃ s', vector.insert_aux example_full 2 7 = Outcome.ok () s' ∧
      vector.size s' = 3 ∧ vector.to_list s' = [10, 7, 20] := by
  have h := insert_aux_growth_content example_full 1 7 example_full_valid rfl (by decide)
  obtain ⟨s', hs⟩ := h.1 (by decide) (by simp [example_full]) (by decide)
  obtain ⟨_, h2, h3⟩ := h.2 s' hs
  exact ⟨s', hs, h2, h3⟩

/-! ## Size and capacity -/

theorem Valid.size_le {α : Type} {s : State α} (hv : Valid s) :
    vector.size s ≤ vector.capacity s ∧ vector.capacity s ≤ PTRDIFF_MAX := by
  have h1 := hv.size_eq
  have h2 := hv.capacity_eq
  have h3 := hv.cap_le
  have h4 := hv.finish_le
  have h5 := hv.start_le
  omega

theorem example_full_to_list : vector.to_list example_full = [10, 20] := by
  decide

/-! ## Commit or rollback -/

theorem read_objs_congr {α : Type} (k : Nat) :
    ∀ (m m' : Nat → Cell α) (p : Nat), (∀ a, p ≤ a → a < p + k → m' a = m a) →
      read_objs m' p k = read_objs m p k := by
  induction k with
  | zero => intro m m' p _; rfl
  | succ k ih =>
    intro m m' p h
    simp only [read_objs]
    rw [h p (Nat.le_refl p) (by omega), ih m m' (p + 1) (fun a h1 h2 => h a (by omega) (by omega))]

theorem same_container_of_frame {α : Type} {s s' : State α} (hv : Valid s)
    (h1 : s'.start = s.start) (h2 : s'.finish = s.finish)
    (h3 : s'.end_of_stroage = s.end_of_stroage) (hm : ∀ a, a < s.brk → s'.mem a = s.mem a) :
    same_container s s' := by
  have g1 := hv.size_eq
  have g2 := hv.finish_le
  have g3 := hv.below_brk
  have g4 := hv.start_le
  refine ⟨h1, h2, h3, ?_, ?_, ?_⟩
  · unfold vector.size; rw [h1, h2]
  · unfold vector.capacity; rw [h1, h3]
  · unfold vector.to_list vector.size
    rw [h1, h2]
    apply read_objs_congr
    intro a ha hb
    unfold vector.size at g1
    exact hm a (by omega)

theorem build_failed_frame {α : Type} {s : State α} (hv : Valid s) (ys : List α)
    (i n N b : Nat) :
    same_container s (build_failed (after_alloc s N) ys i n s.brk N b) := by
  apply same_container_of_frame hv
  · unfold build_failed; split <;> rfl
  · unfold build_failed; split <;> rfl
  · unfold build_failed; split <;> rfl
  · intro a ha
    unfold build_failed
    split
    · show fill_cells (fill_cells (write_list (fill_cells s.mem s.brk N Cell.raw) s.brk _)
          s.brk _ Cell.raw) s.brk N Cell.unalloc a = s.mem a
      rw [fill_cells_outside _ _ _ _ _ (by omega), fill_cells_outside _ _ _ _ _ (by omega),
        write_list_outside _ _ _ _ (by omega), fill_cells_outside _ _ _ _ _ (by omega)]
    · show write_list (fill_cells s.mem s.brk N Cell.raw) s.brk _ a = s.mem a
      rw [write_list_outside _ _ _ _ (by omega), fill_cells_outside _ _ _ _ _ (by omega)]

theorem grow_throw_same {α : Type} {s : State α} (hv : Valid s) {i : Nat}
    (hi : i ≤ vector.size s) (n : Nat) (v : α) (N : Nat) {e : Exn} {s' : State α}
    (h : grow s (s.start + i) n v N = Outcome.throw e s') :
    (e = Exn.bad_alloc ∨ e = s.elem_exn) ∧ same_container s s' := by
  obtain ⟨h1, h2, h3, h4⟩ := hv.split hi
  rw [← h2] at h
  rcases grow_eq_throw hv h1 h4 h with ⟨_, a2, a3⟩ | ⟨_, _, b, _, _, _, b4, b5⟩
  · refine ⟨Or.inl a2, ?_⟩
    rw [a3]
    exact same_container_of_frame hv rfl rfl rfl (fun a _ => rfl)
  · refine ⟨Or.inr b4, ?_⟩
    rw [b5]
    exact build_failed_frame hv _ _ _ _ _

theorem grow_throws {α : Type} {s : State α} (hv : Valid s) {i : Nat}
    (hi : i ≤ vector.size s) (n : Nat) (v : α) (N : Nat) :
    (s.alloc_budget = some 0 → ∃ s', grow s (s.start + i) n v N = Outcome.throw Exn.bad_alloc s') ∧
      (∀ k, s.alloc_budget ≠ some 0 → N ≤ PTRDIFF_MAX → s.elem_budget = some k →
        k < vector.size s + n → k < N →
        ∃ s', grow s (s.start + i) n v N = Outcome.throw s.elem_exn s') := by
  obtain ⟨h1, h2, h3, h4⟩ := hv.split hi
  constructor
  · intro h
    exact ⟨_, grow_throw_alloc s _ n v N (Or.inr h)⟩
  · intro k a1 a2 a3 a4 a5
    have := grow_throw s _ _ n v N k hv h1 h4 a2 a1 a3 (by omega) a5
    rw [h2] at this
    exact ⟨_, this⟩

/-- C2, evaluated on the full container `[10, 20]` when 7 is appended. With the
second element copy throwing an exception derived from `std::exception`, the first
range copy has constructed one object in the new buffer (at address 4) when it
throws; the handler sees `new_finish = new_start`, destroys nothing and releases the
buffer: the object is never destroyed. With the construction of the new element
throwing an exception that does not derive from `std::exception`, the handler does
not run: the two objects built so far are not destroyed and the buffer is not
released. -/
theorem growth_rollback_leaks :
    (vector.insert_aux { example_full with elem_budget := some 1 } 3 7).thrown =
        some (Exn.element true) ∧
      (vector.insert_aux { example_full with elem_budget := some 1 } 3 7).final.map State.log =
        some [Event.alloc 4 4, Event.read 1, Event.construct 4, Event.read 2,
          Event.dealloc 4 4] ∧
      (vector.insert_aux
          { example_full with elem_budget := some 2, elem_exn := Exn.element false } 3 7).thrown =
        some (Exn.element false) ∧
      (vector.insert_aux
          { example_full with elem_budget := some 2, elem_exn := Exn.element false }
          3 7).final.map State.log =
        some [Event.alloc 4 4, Event.read 1, Event.construct 4, Event.read 2,
          Event.construct 5] := by
  refine ⟨by decide, by decide, by decide, by decide⟩

/-! ## Inversion of the loops -/

theorem ok_of_Ticks {α β : Type} {s : State α} {k : Nat} {o : Outcome α β} {r0 : β}
    {s0 : State α} (hT : Ticks s k o) (hd : allows s.elem_budget k → o = Outcome.ok r0 s0)
    {r : β} {s' : State α} (h : o = Outcome.ok r s') :
    allows s.elem_budget k ∧ r = r0 ∧ s' = s0 := by
  obtain ⟨a, _⟩ := hT r s' h
  rw [hd a] at h
  injection h with h1 h2
  exact ⟨a, h1.symm, h2.symm⟩

theorem write_list_congr_base {α : Type} {m m' : Nat → Cell α} (p : Nat) (l : List α) (a : Nat)
    (h : m a = m' a) : write_list m p l a = write_list m' p l a := by
  simp only [write_list]
  split
  · split <;> simp [h]
  · exact h

theorem insert_aux_spare_mem {α : Type} (m : Nat → Cell α) (p : Nat) (l2 : List α) (z v : α) :
    set_cell (write_list (set_cell m (p + 1 + l2.length) (Cell.obj z)) (p + 1) l2) p (Cell.obj v) =
      write_list m p (v :: (l2 ++ [z])) := by
  rw [← write_list_cons, ← write_list_concat]
  funext a
  by_cases h : a = p
  · subst h
    have e : ¬ a = a + 1 + l2.length := by omega
    simp [set_cell, write_list, e]
  · simp only [set_cell, if_neg h]
    apply write_list_congr_base
    simp [set_cell, h]

/-! ## Calls settled by the failure schedule -/

theorem Det.ok_iff {α β : Type} {s : State α} {k : Nat} {o : Outcome α β} {r0 : β}
    {s0 : State α} (h : Det s k o r0 s0) (r : β) (s' : State α) :
    o = Outcome.ok r s' ↔ allows s.elem_budget k ∧ r = r0 ∧ s' = s0 := by
  constructor
  · intro ho
    exact ok_of_Ticks h.1 h.2 ho
  · rintro ⟨a, rfl, rfl⟩
    exact h.2 a

theorem Det.cast {α β : Type} {s : State α} {k k' : Nat} {o : Outcome α β} {r0 : β}
    {s0 s0' : State α} (h : Det s k o r0 s0) (hk : k = k') (hs : s0 = s0') :
    Det s k' o r0 s0' := by
  subst hk; subst hs; exact h

theorem Det_pure {α β : Type} (s : State α) (r : β) : Det s 0 (Outcome.ok r s) r s :=
  ⟨Ticks_ok s r, fun _ => rfl⟩

theorem Det_bind {α β γ : Type} {s : State α} {j k : Nat} {o : Outcome α β}
    {f : β → State α → Outcome α γ} {r0 : β} {s0 : State α} {r1 : γ} {s1 : State α}
    (h1 : Det s j o r0 s0) (h2 : allows s.elem_budget j → Det s0 k (f r0 s0) r1 s1) :
    Det s (j + k) (o.bind f) r1 s1 := by
  constructor
  · intro r s' h
    obtain ⟨ra, sa, ha, hb⟩ := bind_eq_ok h
    obtain ⟨a1, a2, a3⟩ := ok_of_Ticks h1.1 h1.2 ha
    subst a2; subst a3
    obtain ⟨_, a4⟩ := h1.1 _ _ ha
    obtain ⟨b1, b2⟩ := (h2 a1).1 r s' hb
    rw [a4] at b1 b2
    exact ⟨allows_add.2 ⟨a1, b1⟩, by rw [b2, spend_spend]⟩
  · intro ha
    obtain ⟨a1, a2⟩ := allows_add.1 ha
    have ho := h1.2 a1
    obtain ⟨_, a4⟩ := h1.1 _ _ ho
    rw [ho]
    simp only [Outcome.bind_ok]
    exact (h2 a1).2 (by rw [a4]; exact a2)

theorem Det_read {α : Type} (s : State α) (p : Nat) (v : α) (hc : s.mem p = Cell.obj v) :
    Det s 0 (read s p) v { s with log := s.log ++ [Event.read p] } :=
  ⟨Ticks_read s p, fun _ => read_ok s p v hc⟩

theorem Det_construct {α : Type} (s : State α) (p : Nat) (v : α) (hc : s.mem p = Cell.raw) :
    Det s 1 (construct s p v) ()
      { s with mem := set_cell s.mem p (Cell.obj v), log := s.log ++ [Event.construct p],
               elem_budget := spend s.elem_budget 1 } :=
  ⟨Ticks_construct s p v, fun h => construct_ok s p v hc h⟩

theorem Det_assign {α : Type} (s : State α) (p : Nat) (v w : α) (hc : s.mem p = Cell.obj w) :
    Det s 1 (assign s p v) ()
      { s with mem := set_cell s.mem p (Cell.obj v), log := s.log ++ [Event.assign p],
               elem_budget := spend s.elem_budget 1 } :=
  ⟨Ticks_assign s p v, fun h => assign_ok s p v w hc h⟩

theorem Det_destory {α : Type} (s : State α) (p : Nat) (w : α) (hc : s.mem p = Cell.obj w) :
    Det s 0 (destory s p) ()
      { s with mem := set_cell s.mem p Cell.raw, log := s.log ++ [Event.destroy p] } :=
  ⟨Ticks_destory s p, fun _ => destory_ok s p w hc⟩

theorem Det_destory_range {α : Type} (xs : List α) (s : State α) (first last : Nat)
    (hlast : last = first + xs.length) (h : Live s.mem first xs) :
    Det s 0 (destory_range s first last) ()
      { s with mem := fill_cells s.mem first xs.length Cell.raw,
               log := s.log ++ destroy_events first xs.length } := by
  subst hlast
  refine ⟨?_, fun _ => destory_range_ok xs s first h⟩
  unfold destory_range
  rw [if_neg (by omega)]
  exact Ticks_destory_loop _ s first

theorem Det_uninitialized_copy {α : Type} (xs : List α) (s : State α)
    (first last result : Nat) (hlast : last = first + xs.length)
    (hl : Live s.mem first xs) (hr : Raw s.mem result xs.length) :
    Det s xs.length (uninitialized_copy s first last result)
      (result + xs.length)
      { s with mem := write_list s.mem result xs,
               log := s.log ++ copy_events first result xs.length,
               elem_budget := spend s.elem_budget xs.length } := by
  subst hlast
  unfold uninitialized_copy
  rw [if_neg (by omega), Nat.add_sub_cancel_left]
  exact ⟨Ticks_uninitialized_copy_loop _ s first result,
    fun h => uninitialized_copy_loop_ok xs s first result hl hr h⟩

theorem Det_uninitialized_fill_n {α : Type} (s : State α) (first n : Nat) (v : α)
    (hr : Raw s.mem first n) :
    Det s n (uninitialized_fill_n s first n v) (first + n)
      { s with mem := fill_cells s.mem first n (Cell.obj v),
               log := s.log ++ fill_events first n,
               elem_budget := spend s.elem_budget n } :=
  ⟨Ticks_uninitialized_fill_loop v n s first,
    fun h => uninitialized_fill_loop_ok v n s first hr h⟩

theorem Det_copy {α : Type} (xs : List α) (s : State α) (first last result : Nat)
    (hlast : last = first + xs.length)
    (hle : result ≤ first) (hl : Live s.mem first xs) (ho : Objs s.mem result xs.length) :
    Det s xs.length (copy s first last result) (result + xs.length)
      { s with mem := write_list s.mem result xs,
               log := s.log ++ assign_events first result xs.length,
               elem_budget := spend s.elem_budget xs.length } := by
  subst hlast
  unfold copy
  rw [if_neg (by omega), Nat.add_sub_cancel_left]
  exact ⟨Ticks_copy_loop _ s first result, fun h => copy_loop_ok xs s first result hle hl ho h⟩

theorem Det_copy_backward {α : Type} (xs : List α) (s : State α) (src last result dst : Nat)
    (hlast : last = src + xs.length) (hres : result = dst + xs.length)
    (hle : src ≤ dst) (hl : Live s.mem src xs) (ho : Objs s.mem dst xs.length) :
    Det s xs.length (copy_backward s src last result) dst
      { s with mem := write_list s.mem dst xs,
               log := s.log ++ assign_back_events last result xs.length,
               elem_budget := spend s.elem_budget xs.length } := by
  subst hlast; subst hres
  unfold copy_backward
  rw [if_neg (by omega), Nat.add_sub_cancel_left]
  exact ⟨Ticks_copy_backward_loop _ s _ _,
    fun h => copy_backward_loop_ok xs s src dst hle hl ho h⟩

theorem Det_with_value_copy {α β : Type} (s : State α) (value : α) (k : Nat)
    (body : α → State α → Outcome α β) (r : β) (s1 : State α)
    (h : allows s.elem_budget 1 →
      Det { s with elem_budget := spend s.elem_budget 1,
                   log := s.log ++ [Event.local_construct] } k
        (body value { s with elem_budget := spend s.elem_budget 1,
                             log := s.log ++ [Event.local_construct] }) r s1) :
    Det s (1 + k) (with_value_copy s value body) r
      { s1 with log := s1.log ++ [Event.local_destroy] } := by
  constructor
  · intro r' s' ho
    unfold with_value_copy at ho
    obtain ⟨_, sa, ha, hb⟩ := bind_eq_ok ho
    obtain ⟨a1, _, a3⟩ := ok_of_Ticks (Ticks_tick s) (tick_ok s) ha
    subst a3
    cases hbody : body value { s with elem_budget := spend s.elem_budget 1,
                                      log := s.log ++ [Event.local_construct] } with
    | ok r2 s2 =>
      obtain ⟨b1, b2⟩ := (h a1).1 r2 s2 hbody
      simp only [hbody] at hb
      injection hb with _ hs
      rw [← hs]
      exact ⟨allows_add.2 ⟨a1, b1⟩, by
        show s2.elem_budget = _
        rw [b2, spend_spend]⟩
    | throw e s2 => simp only [hbody] at hb; cases hb
    | undefined => simp only [hbody] at hb; cases hb
  · intro ha
    obtain ⟨a1, a2⟩ := allows_add.1 ha
    unfold with_value_copy
    rw [tick_ok s a1]
    simp only [Outcome.bind_ok]
    rw [(h a1).2 a2]

/-! ## Single-element insertion with spare capacity -/

theorem insert_aux_spare_det {α : Type} (s : State α) (l1 l2 : List α) (z v : α)
    (hv : Valid s) (hlive : Live s.mem s.start (l1 ++ (l2 ++ [z])))
    (hfin : s.finish = s.start + (l1.length + (l2.length + 1)))
    (hsp : s.finish ≠ s.end_of_stroage) :
    Det s (l2.length + 3) (vector.insert_aux s (s.start + l1.length) v) ()
      (insert_aux_spare_done s l1 l2 z v) := by
  have g2 := hv.finish_le
  obtain ⟨hl1, hl23⟩ := (Live_append _ _ _ _).1 hlive
  obtain ⟨hl2, hl3⟩ := (Live_append _ _ _ _).1 hl23
  have hz : s.mem (s.finish - 1) = Cell.obj z := by
    have := hl3 0 z (by simp)
    rw [← this]; congr 1; omega
  have hraw : s.mem s.finish = Cell.raw := by
    have := hv.spare 0 (by omega)
    simpa using this
  obtain ⟨y, hy⟩ := Objs_of_Live hl23 0 (by simp)
  unfold vector.insert_aux
  rw [if_pos hsp]
  refine Det.cast (Det_bind (Det_read s _ z hz) fun _ =>
    Det_bind (Det_construct _ _ z hraw) fun _ =>
    Det_with_value_copy _ _ _ _ _ _ fun _ =>
    Det_bind (Det_copy_backward l2 _ (s.start + l1.length) _ _ (s.start + l1.length + 1)
      ?_ ?_ ?_ ?_ ?_) fun _ =>
    Det_assign _ _ v y ?_) ?_ ?_
  · show s.finish + 1 - 2 = _
    omega
  · show s.finish + 1 - 1 = _
    omega
  · omega
  · apply Live_congr hl2
    intro a h1 h2
    show set_cell s.mem s.finish (Cell.obj z) a = s.mem a
    simp only [set_cell]
    rw [if_neg (by omega)]
  · intro j hj
    obtain ⟨w, hw⟩ := Objs_of_Live hl23 (j + 1) (by simp; omega)
    refine ⟨w, ?_⟩
    show set_cell s.mem s.finish (Cell.obj z) _ = _
    simp only [set_cell]
    rw [if_neg (by omega), ← hw]
    congr 1
    omega
  · show write_list (set_cell s.mem s.finish (Cell.obj z)) _ l2 _ = _
    rw [write_list_outside _ _ _ _ (by omega)]
    simp only [set_cell]
    rw [if_neg (by omega)]
    simpa using hy
  · omega
  · unfold insert_aux_spare_done
    have e3 : s.finish = s.start + l1.length + 1 + l2.length := by omega
    ext1 <;> simp only [spend_spend]
    · rw [e3, insert_aux_spare_mem]
    · congr 1; omega
    · simp

theorem Valid_update {α : Type} {s s' : State α} (hv : Valid s) (ys : List α)
    (h1 : s'.start = s.start) (h3 : s'.end_of_stroage = s.end_of_stroage)
    (hbrk : s'.brk = s.brk) (hf : s'.finish = s.start + ys.length)
    (hle : s'.finish ≤ s.end_of_stroage) (hl : Live s'.mem s.start ys)
    (hsp : Raw s'.mem s'.finish (s.end_of_stroage - s'.finish))
    (hfresh : ∀ a, s.brk ≤ a → s'.mem a = s.mem a) :
    Valid s' ∧ vector.to_list s' = ys ∧ vector.size s' = ys.length ∧
      vector.capacity s' = vector.capacity s := by
  have hV : Valid s' := by
    refine ⟨by omega, by omega, ?_, ?_, ?_, ?_, ?_, ?_⟩
    · rw [h3, hbrk]; exact hv.below_brk
    · intro a ha
      rw [hbrk] at ha
      rw [hfresh a ha]
      exact hv.fresh a ha
    · rw [h1, hf, Nat.add_sub_cancel_left]
      exact Objs_of_Live hl
    · rw [h3]; exact hsp
    · rw [h1, h3]; exact hv.cap_le
    · rw [h1, h3]; exact hv.null
  refine ⟨hV, to_list_eq hV (by rw [h1]; exact hl) (by rw [h1]; exact hf), ?_, ?_⟩
  · rw [hV.size_eq, h1, hf]; omega
  · rw [hV.capacity_eq, hv.capacity_eq, h1, h3]

theorem insert_aux_spare_done_facts {α : Type} (s : State α) (l1 l2 : List α) (z v : α)
    (hv : Valid s) (hlive : Live s.mem s.start (l1 ++ (l2 ++ [z])))
    (hfin : s.finish = s.start + (l1.length + (l2.length + 1)))
    (hsp : s.finish ≠ s.end_of_stroage) :
    Valid (insert_aux_spare_done s l1 l2 z v) ∧
      vector.to_list (insert_aux_spare_done s l1 l2 z v) = l1 ++ v :: (l2 ++ [z]) ∧
      vector.size (insert_aux_spare_done s l1 l2 z v) = (l1 ++ v :: (l2 ++ [z])).length ∧
      vector.capacity (insert_aux_spare_done s l1 l2 z v) = vector.capacity s := by
  have g2 := hv.finish_le
  have g3 := hv.below_brk
  obtain ⟨hl1, _⟩ := (Live_append _ _ _ _).1 hlive
  refine @Valid_update α s (insert_aux_spare_done s l1 l2 z v) hv (l1 ++ v :: (l2 ++ [z]))
    rfl rfl rfl ?_ ?_ ?_ ?_ ?_
  · show s.finish + 1 = _
    simp; omega
  · show s.finish + 1 ≤ _
    omega
  · show Live (write_list s.mem (s.start + l1.length) (v :: (l2 ++ [z]))) _ _
    rw [Live_append]
    refine ⟨?_, Live_write_list _ _ _⟩
    apply Live_congr hl1
    intro a h1 h2
    rw [write_list_outside _ _ _ _ (by omega)]
  · intro j hj
    show write_list s.mem (s.start + l1.length) (v :: (l2 ++ [z])) (s.finish + 1 + j) = _
    have hj' : j < s.end_of_stroage - (s.finish + 1) := hj
    rw [write_list_outside _ _ _ _ (by simp; omega)]
    have := hv.spare (j + 1) (by omega)
    rw [← this]; congr 1; omega
  · intro a ha
    show write_list s.mem (s.start + l1.length) (v :: (l2 ++ [z])) a = _
    rw [write_list_outside _ _ _ _ (by simp; omega)]

/-- C4. Content correctness of `insert_aux` with spare capacity in the middle: on a
container with `finish < end_of_stroage` and for an index `i < size`, the call
returns normally whenever the element operations do not fail, and every normal
return leaves a valid container of size `size + 1` and unchanged capacity whose
element sequence is the old one with `v` spliced in at index `i`. -/
theorem insert_aux_spare_content {α : Type} (s : State α) (i : Nat) (v : α)
    (hv : Valid s) (hsp : s.finish < s.end_of_stroage) (hi : i < vector.size s) :
    (allows s.elem_budget (vector.size s - i + 2) →
        ∃ s', vector.insert_aux s (s.start + i) v = Outcome.ok () s') ∧
      (∀ s', vector.insert_aux s (s.start + i) v = Outcome.ok () s' →
        Valid s' ∧ vector.size s' = vector.size s + 1 ∧
          vector.capacity s' = vector.capacity s ∧
          vector.to_list s' =
            (vector.to_list s).take i ++ v :: (vector.to_list s).drop i) := by
  obtain ⟨h1, h2, h3, h4⟩ := hv.split (Nat.le_of_lt hi)
  have hne : (vector.to_list s).drop i ≠ [] := by
    intro h
    rw [h] at h3
    simp at h3
    omega
  have hd := List.dropLast_append_getLast hne
  have hlen : ((vector.to_list s).drop i).dropLast.length + 1 = vector.size s - i := by
    rw [← h3]
    conv_rhs => rw [← hd]
    simp
  rw [← hd] at h1 h4
  rw [List.length_append, List.length_singleton] at h4
  have hdet := insert_aux_spare_det s _ _ _ v hv h1 h4 (by omega)
  have hf := insert_aux_spare_done_facts s _ _ _ v hv h1 h4 (by omega)
  rw [h2] at hdet
  constructor
  · intro hb
    exact ⟨_, hdet.2 (by
      have : ((vector.to_list s).drop i).dropLast.length + 3 = vector.size s - i + 2 := by omega
      rw [this]; exact hb)⟩
  · intro s' h
    obtain ⟨_, _, a3⟩ := (hdet.ok_iff () s').1 h
    rw [a3]
    obtain ⟨b1, b2, b3, b4⟩ := hf
    refine ⟨b1, ?_, b4, ?_⟩
    · rw [b3]
      simp only [List.length_append, List.length_cons, List.length_nil, h2]
      omega
    · rw [b2, hd]

theorem example_spare_valid : Valid example_spare := by
  refine ⟨by decide, by decide, by decide, ?_, ?_, ?_, by decide, by decide⟩
  · intro a ha
    have h : 10 ≤ a := ha
    show (if a = 1 then Cell.obj 10 else if a = 2 then Cell.obj 20 else
      if a = 3 then Cell.obj 30 else
      if a < 9 then (if a = 0 then Cell.unalloc else Cell.raw) else Cell.unalloc) = _
    rw [if_neg (by omega), if_neg (by omega), if_neg (by omega), if_neg (by omega)]
  · intro j hj
    have h : j < 3 := hj
    interval_cases j
    · exact ⟨10, rfl⟩
    · exact ⟨20, rfl⟩
    · exact ⟨30, rfl⟩
  · intro j hj
    have h : j < 5 := hj
    interval_cases j <;> rfl

/-- Witness of C4: inserting 7 at index 1 of `[10, 20, 30]` held in eight slots. -/
theorem insert_aux_spare_content_witness :
    ∃ s', vector.insert_aux example_spare 2 7 = Outcome.ok () s' ∧
      vector.size s' = 4 ∧ vector.capacity s' = 8 ∧ vector.to_list s' = [10, 7, 20, 30] := by
  have h := insert_aux_spare_content example_spare 1 7 example_spare_valid (by decide)
    (by decide)
  obtain ⟨s', hs⟩ := h.1 (by simp [example_spare])
  obtain ⟨_, h2, h3, h4⟩ := h.2 s' hs
  exact ⟨s', hs, h2, h3, h4⟩

/-! ## Appending and erasing -/

theorem push_back_spare_det {α : Type} (s : State α) (v : α) (hv : Valid s)
    (hsp : s.finish ≠ s.end_of_stroage) :
    Det s 1 (vector.push_back s v) () (push_back_done s v) := by
  have g2 := hv.finish_le
  have hraw : s.mem s.finish = Cell.raw := by
    have := hv.spare 0 (by omega)
    simpa using this
  unfold vector.push_back
  rw [if_pos hsp]
  exact Det.cast (Det_bind (Det_construct s _ v hraw) fun _ => Det_pure _ ()) rfl rfl

theorem push_back_done_facts {α : Type} (s : State α) (v : α) (hv : Valid s)
    (hsp : s.finish ≠ s.end_of_stroage) :
    Valid (push_back_done s v) ∧
      vector.to_list (push_back_done s v) = vector.to_list s ++ [v] ∧
      vector.size (push_back_done s v) = (vector.to_list s ++ [v]).length ∧
      vector.capacity (push_back_done s v) = vector.capacity s := by
  have g1 := hv.start_le
  have g2 := hv.finish_le
  have g3 := hv.below_brk
  obtain ⟨hl, hlen⟩ := hv.live_to_list
  refine @Valid_update α s (push_back_done s v) hv (vector.to_list s ++ [v])
    rfl rfl rfl ?_ ?_ ?_ ?_ ?_
  · show s.finish + 1 = _
    simp; omega
  · show s.finish + 1 ≤ _
    omega
  · show Live (set_cell s.mem s.finish (Cell.obj v)) _ _
    rw [Live_append]
    constructor
    · apply Live_congr hl
      intro a h1 h2
      simp only [set_cell]
      rw [if_neg (by omega)]
    · intro j x hj
      cases j with
      | zero =>
        simp at hj
        subst hj
        simp only [set_cell]
        rw [if_pos (by omega)]
      | succ j => simp at hj
  · intro j hj
    have hj' : j < s.end_of_stroage - (s.finish + 1) := hj
    show set_cell s.mem s.finish (Cell.obj v) (s.finish + 1 + j) = _
    simp only [set_cell]
    rw [if_neg (by omega)]
    have := hv.spare (j + 1) (by omega)
    rw [← this]; congr 1; omega
  · intro a ha
    show set_cell s.mem s.finish (Cell.obj v) a = _
    simp only [set_cell]
    rw [if_neg (by omega)]

theorem erase_range_det {α : Type} (s : State α) (l1 l2 l3 : List α)
    (hlive : Live s.mem s.start (l1 ++ (l2 ++ l3)))
    (hfin : s.finish = s.start + (l1.length + (l2.length + l3.length))) :
    Det s l3.length
      (vector.erase_range s (s.start + l1.length) (s.start + l1.length + l2.length))
      (s.start + l1.length) (erase_range_done s l1 l2 l3) := by
  obtain ⟨hl1, hl23⟩ := (Live_append _ _ _ _).1 hlive
  obtain ⟨hl2, hl3⟩ := (Live_append _ _ _ _).1 hl23
  unfold vector.erase_range
  have hz : ((l2 ++ l3).drop l3.length).length = l2.length := by
    simp
  refine Det.cast (Det_bind (Det_copy l3 s _ _ _ ?_ ?_ hl3 ?_) fun _ =>
    Det_bind (Det_destory_range ((l2 ++ l3).drop l3.length) _ _ _ ?_ ?_) fun _ =>
    Det_pure _ _) ?_ ?_
  · omega
  · omega
  · exact Objs_mono (Objs_of_Live hl23) (by simp)
  · show s.finish = _
    rw [hz]; omega
  · apply Live_congr (Live_drop hl23 l3.length)
    intro a h1 h2
    rw [hz] at h2
    show write_list s.mem _ l3 a = _
    rw [write_list_outside _ _ _ _ (by omega)]
  · omega
  · unfold erase_range_done
    ext1 <;> simp only [spend_zero, hz, List.append_assoc, Nat.add_zero]
    show ptr_back s.finish _ _ = _
    unfold ptr_back
    rw [if_pos (by omega)]
    omega

theorem erase_range_done_facts {α : Type} (s : State α) (l1 l2 l3 : List α) (hv : Valid s)
    (hlive : Live s.mem s.start (l1 ++ (l2 ++ l3)))
    (hfin : s.finish = s.start + (l1.length + (l2.length + l3.length))) :
    Valid (erase_range_done s l1 l2 l3) ∧
      vector.to_list (erase_range_done s l1 l2 l3) = l1 ++ l3 ∧
      vector.size (erase_range_done s l1 l2 l3) = (l1 ++ l3).length ∧
      vector.capacity (erase_range_done s l1 l2 l3) = vector.capacity s := by
  have g2 := hv.finish_le
  have g3 := hv.below_brk
  obtain ⟨hl1, _⟩ := (Live_append _ _ _ _).1 hlive
  refine @Valid_update α s (erase_range_done s l1 l2 l3) hv (l1 ++ l3) rfl rfl rfl ?_ ?_ ?_ ?_ ?_
  · show s.finish - l2.length = _
    simp; omega
  · show s.finish - l2.length ≤ _
    omega
  · show Live (fill_cells (write_list s.mem (s.start + l1.length) l3) _ _ _) _ _
    rw [Live_append]
    constructor
    · apply Live_congr hl1
      intro a h1 h2
      rw [fill_cells_outside _ _ _ _ _ (by omega), write_list_outside _ _ _ _ (by omega)]
    · apply Live_congr (Live_write_list s.mem _ l3)
      intro a h1 h2
      rw [fill_cells_outside _ _ _ _ _ (by omega)]
  · intro j hj
    have hj' : j < s.end_of_stroage - (s.finish - l2.length) := hj
    show fill_cells (write_list s.mem (s.start + l1.length) l3) _ _ _ (s.finish - l2.length + j) = _
    by_cases hc : j < l2.length
    · rw [fill_cells_inside _ _ _ _ _ (by omega) (by omega)]
    · rw [fill_cells_outside _ _ _ _ _ (by omega), write_list_outside _ _ _ _ (by omega)]
      have := hv.spare (j - l2.length) (by omega)
      rw [← this]; congr 1; omega
  · intro a ha
    show fill_cells (write_list s.mem (s.start + l1.length) l3) _ _ _ a = _
    rw [fill_cells_outside _ _ _ _ _ (by omega), write_list_outside _ _ _ _ (by omega)]

theorem pop_back_det {α : Type} (s : State α) (w : α) (hc : s.mem (s.finish - 1) = Cell.obj w) :
    Det s 0 (vector.pop_back s) ()
      { s with mem := set_cell s.mem (s.finish - 1) Cell.raw,
               log := s.log ++ [Event.destroy (s.finish - 1)],
               finish := s.finish - 1 } := by
  unfold vector.pop_back
  exact Det_destory { s with finish := s.finish - 1 } (s.finish - 1) w hc

theorem erase_det {α : Type} (s : State α) (l1 l3 : List α) (x : α)
    (hlive : Live s.mem s.start (l1 ++ (x :: l3)))
    (hfin : s.finish = s.start + (l1.length + (l3.length + 1))) :
    Det s l3.length (vector.erase s (s.start + l1.length)) (s.start + l1.length)
      (erase_done s l1 l3) := by
  obtain ⟨hl1, hl23⟩ := (Live_append _ _ _ _).1 hlive
  obtain ⟨hx, hl3⟩ := (Live_cons _ _ _ _).1 hl23
  unfold vector.erase
  by_cases h0 : l3.length = 0
  · have hnil : l3 = [] := List.length_eq_zero.1 h0
    subst hnil
    rw [if_neg (by simp; omega)]
    simp only [Outcome.bind_ok]
    refine Det.cast (Det_bind (pop_back_det s x ?_) fun _ => Det_pure _ _) rfl ?_
    · rw [← hx]; congr 1; simp at hfin; omega
    · unfold erase_done
      ext1 <;> simp
  · obtain ⟨w, hw⟩ := Objs_of_Live hl3 (l3.length - 1) (by omega)
    rw [if_pos (by omega)]
    refine Det.cast (Det_bind (Det_bind (Det_copy l3 s _ _ _ ?_ ?_ hl3 ?_) fun _ =>
      Det_pure _ _) fun _ => Det_bind (pop_back_det _ w ?_) fun _ => Det_pure _ _) ?_ ?_
    · omega
    · omega
    · exact Objs_mono (Objs_of_Live hl23) (by simp)
    · show write_list s.mem (s.start + l1.length) l3 (s.finish - 1) = _
      rw [write_list_outside _ _ _ _ (by omega), ← hw]
      congr 1; omega
    · omega
    · unfold erase_done
      ext1 <;> simp [h0]

theorem erase_done_facts {α : Type} (s : State α) (l1 l3 : List α) (x : α) (hv : Valid s)
    (hlive : Live s.mem s.start (l1 ++ (x :: l3)))
    (hfin : s.finish = s.start + (l1.length + (l3.length + 1))) :
    Valid (erase_done s l1 l3) ∧
      vector.to_list (erase_done s l1 l3) = l1 ++ l3 ∧
      vector.size (erase_done s l1 l3) = (l1 ++ l3).length ∧
      vector.capacity (erase_done s l1 l3) = vector.capacity s := by
  have g2 := hv.finish_le
  have g3 := hv.below_brk
  obtain ⟨hl1, _⟩ := (Live_append _ _ _ _).1 hlive
  refine @Valid_update α s (erase_done s l1 l3) hv (l1 ++ l3) rfl rfl rfl ?_ ?_ ?_ ?_ ?_
  · show s.finish - 1 = _
    simp; omega
  · show s.finish - 1 ≤ _
    omega
  · show Live (set_cell (write_list s.mem (s.start + l1.length) l3) _ _) _ _
    rw [Live_append]
    constructor
    · apply Live_congr hl1
      intro a h1 h2
      simp only [set_cell]
      rw [if_neg (by omega), write_list_outside _ _ _ _ (by omega)]
    · apply Live_congr (Live_write_list s.mem _ l3)
      intro a h1 h2
      simp only [set_cell]
      rw [if_neg (by omega)]
  · intro j hj
    have hj' : j < s.end_of_stroage - (s.finish - 1) := hj
    show set_cell (write_list s.mem (s.start + l1.length) l3) _ _ (s.finish - 1 + j) = _
    simp only [set_cell]
    by_cases hc : j = 0
    · rw [if_pos (by omega)]
    · rw [if_neg (by omega), write_list_outside _ _ _ _ (by omega)]
      have := hv.spare (j - 1) (by omega)
      rw [← this]; congr 1; omega
  · intro a ha
    show set_cell (write_list s.mem (s.start + l1.length) l3) _ _ a = _
    simp only [set_cell]
    rw [if_neg (by omega), write_list_outside _ _ _ _ (by omega)]

/-! ## What every normal return preserves -/

theorem take_drop_size {α : Type} {s : State α} (hv : Valid s) :
    (vector.to_list s).take (vector.size s) = vector.to_list s ∧
      (vector.to_list s).drop (vector.size s) = [] := by
  obtain ⟨_, hlen⟩ := hv.live_to_list
  rw [← hv.size_eq] at hlen
  exact ⟨List.take_of_length_le (by omega), List.drop_of_length_le (by omega)⟩

theorem Valid.finish_eq {α : Type} {s : State α} (hv : Valid s) :
    s.finish = s.start + vector.size s := by
  have := hv.size_eq
  have := hv.start_le
  omega

theorem push_back_ok_facts {α : Type} {s : State α} (hv : Valid s) (v : α) {s' : State α}
    (h : vector.push_back s v = Outcome.ok () s') :
    Valid s' ∧ vector.to_list s' = vector.to_list s ++ [v] ∧
      vector.size s' = vector.size s + 1 ∧
      vector.capacity s' =
        (if s.finish ≠ s.end_of_stroage then vector.capacity s
          else max 1 (2 * vector.capacity s)) ∧
      (s.alloc_budget = none → s'.alloc_budget = none) ∧
      (s.elem_budget = none → s'.elem_budget = none) := by
  by_cases hsp : s.finish ≠ s.end_of_stroage
  · obtain ⟨_, _, a3⟩ := ((push_back_spare_det s v hv hsp).ok_iff () s').1 h
    obtain ⟨b1, b2, b3, b4⟩ := push_back_done_facts s v hv hsp
    rw [a3, if_pos hsp]
    refine ⟨b1, b2, by rw [b3]; simp [hv.live_to_list.2, hv.size_eq], b4, fun h => h, ?_⟩
    intro h
    show spend s.elem_budget 1 = none
    rw [h]; rfl
  · have hfull : s.finish = s.end_of_stroage := by
      by_contra hc; exact hsp hc
    have hcs : vector.capacity s = vector.size s := by
      rw [hv.capacity_eq, hv.size_eq, hfull]
    unfold vector.push_back at h
    rw [if_neg hsp, hv.finish_eq, insert_aux_full s _ v hfull, aux_new_size hv] at h
    obtain ⟨a1, _, a3, _, a5⟩ := (grow_ok_iff hv (Nat.le_refl _) 1 v _ s').1 h
    obtain ⟨b1, b2, b3, b4⟩ := grow_done_facts hv (Nat.le_refl (vector.size s)) 1 v _ a1 a3
    rw [a5, if_neg hsp, hcs]
    refine ⟨b1, ?_, b3, b4, ?_, ?_⟩
    · rw [b2]
      unfold spliced
      rw [(take_drop_size hv).1, (take_drop_size hv).2]
      simp
    · intro h
      show s.alloc_budget.map _ = none
      rw [h]; rfl
    · intro h
      show spend s.elem_budget _ = none
      rw [h]; rfl

theorem push_back_total {α : Type} {s : State α} (hv : Valid s) (v : α)
    (h1 : s.finish ≠ s.end_of_stroage → allows s.elem_budget 1)
    (h2 : s.finish = s.end_of_stroage → s.alloc_budget ≠ some 0 ∧
      allows s.elem_budget (vector.size s + 1) ∧ 2 * vector.size s ≤ PTRDIFF_MAX) :
    ∃ s', vector.push_back s v = Outcome.ok () s' := by
  by_cases hsp : s.finish ≠ s.end_of_stroage
  · exact ⟨_, (push_back_spare_det s v hv hsp).2 (h1 hsp)⟩
  · have hfull : s.finish = s.end_of_stroage := by
      by_contra hc; exact hsp hc
    obtain ⟨a1, a2, a3⟩ := h2 hfull
    unfold vector.push_back
    rw [if_neg hsp, hv.finish_eq, insert_aux_full s _ v hfull, aux_new_size hv]
    refine ⟨_, (grow_ok_iff hv (Nat.le_refl _) 1 v _ _).2 ⟨?_, a1, ?_, a2, rfl⟩⟩
    · simp only [PTRDIFF_MAX] at *; omega
    · omega

theorem erase_ok_facts {α : Type} {s : State α} (hv : Valid s) {i : Nat}
    (hi : i < vector.size s) {r : Nat} {s' : State α}
    (h : vector.erase s (s.start + i) = Outcome.ok r s') :
    Valid s' ∧ vector.to_list s' = (vector.to_list s).take i ++ (vector.to_list s).drop (i + 1) ∧
      vector.size s' = vector.size s - 1 ∧ vector.capacity s' = vector.capacity s ∧
      r = s.start + i := by
  obtain ⟨h1, h2, h3, h4⟩ := hv.split (Nat.le_of_lt hi)
  cases hd : (vector.to_list s).drop i with
  | nil => rw [hd] at h3; simp at h3; omega
  | cons x l3 =>
    rw [hd] at h1 h4 h3
    simp only [List.length_cons] at h4 h3
    have hdet := erase_det s _ l3 x h1 h4
    obtain ⟨b1, b2, b3, b4⟩ := erase_done_facts s _ l3 x hv h1 h4
    rw [h2] at hdet
    obtain ⟨_, a2, a3⟩ := (hdet.ok_iff r s').1 h
    have hl3 : (vector.to_list s).drop (i + 1) = l3 := by
      rw [← List.drop_drop 1 i, hd]
      rfl
    rw [a3, hl3]
    refine ⟨b1, b2, ?_, b4, a2⟩
    rw [b3, List.length_append, h2]
    omega

theorem erase_range_ok_facts {α : Type} {s : State α} (hv : Valid s) {a b : Nat}
    (hab : a ≤ b) (hb : b ≤ vector.size s) {r : Nat} {s' : State α}
    (h : vector.erase_range s (s.start + a) (s.start + b) = Outcome.ok r s') :
    Valid s' ∧ vector.to_list s' = (vector.to_list s).take a ++ (vector.to_list s).drop b ∧
      vector.size s' = vector.size s - (b - a) ∧ vector.capacity s' = vector.capacity s ∧
      r = s.start + a := by
  obtain ⟨hl, hlen⟩ := hv.live_to_list
  have hsz := hv.size_eq
  have hst := hv.start_le
  have e : vector.to_list s = (vector.to_list s).take a ++
      (((vector.to_list s).drop a).take (b - a) ++ (vector.to_list s).drop b) := by
    have e1 := List.take_append_drop (b - a) ((vector.to_list s).drop a)
    rw [List.drop_drop] at e1
    have e2 : a + (b - a) = b := by omega
    rw [e2] at e1
    rw [e1, List.take_append_drop]
  have l1 : ((vector.to_list s).take a).length = a := by
    rw [List.length_take]; omega
  have l2 : (((vector.to_list s).drop a).take (b - a)).length = b - a := by
    rw [List.length_take, List.length_drop]; omega
  have l3 : ((vector.to_list s).drop b).length = vector.size s - b := by
    rw [List.length_drop]; omega
  rw [e] at hl
  have hfin : s.finish = s.start + (((vector.to_list s).take a).length +
      ((((vector.to_list s).drop a).take (b - a)).length +
        ((vector.to_list s).drop b).length)) := by
    rw [l1, l2, l3]; omega
  have hdet := erase_range_det s _ _ _ hl hfin
  obtain ⟨b1, b2, b3, b4⟩ := erase_range_done_facts s _ _ _ hv hl hfin
  rw [l1, l2] at hdet
  have eb : s.start + a + (b - a) = s.start + b := by omega
  rw [eb] at hdet
  obtain ⟨_, a2, a3⟩ := (hdet.ok_iff r s').1 h
  rw [a3]
  refine ⟨b1, b2, ?_, b4, a2⟩
  rw [b3, List.length_append, l1, l3]
  omega

theorem Valid_ctor {α : Type} {t : State α} (h : Fresh t) : Valid (vector.ctor t) := by
  obtain ⟨h1, h2⟩ := h
  refine ⟨Nat.le_refl _, Nat.le_refl _, ?_, h2, ?_, ?_, ?_, fun _ => rfl⟩
  · show 0 < t.brk
    omega
  · intro j hj
    have : j < 0 := hj
    omega
  · intro j hj
    have : j < 0 := hj
    omega
  · show 0 - 0 ≤ PTRDIFF_MAX
    omega

theorem Valid_fill_initialize {α : Type} {t : State α} (hf : Fresh t) (n : Nat) (v : α)
    {s : State α} (h : vector.fill_initialize t n v = Outcome.ok () s) : Valid s := by
  obtain ⟨f1, f2⟩ := hf
  unfold vector.fill_initialize vector.allocate_and_fill at h
  rcases allocate_cases t n with ⟨a1, a2⟩ | a
  · rw [allocate_ok t n a1 a2] at h
    simp only [Outcome.bind_ok] at h
    have hraw : Raw (after_alloc t n).mem t.brk n := fun j hj =>
      fill_cells_inside _ _ _ _ _ (by omega) (by omega)
    obtain ⟨r1, s1, h1, h2⟩ := bind_eq_ok h
    obtain ⟨r2, s2, h3, h4⟩ := bind_eq_ok h1
    obtain ⟨_, _, c3⟩ := ((Det_uninitialized_fill_n _ t.brk n v hraw).ok_iff r2 s2).1 h3
    injection h4 with h5 h6
    injection h2 with _ h7
    subst h5; subst h6; subst c3; subst h7
    refine ⟨?_, ?_, ?_, ?_, ?_, ?_, ?_, ?_⟩ <;> dsimp only [after_alloc]
    · omega
    · exact Nat.le_refl _
    · omega
    · intro a ha
      rw [fill_cells_outside _ _ _ _ _ (by omega), fill_cells_outside _ _ _ _ _ (by omega)]
      exact f2 a (by omega)
    · intro j hj
      exact ⟨v, fill_cells_inside _ _ _ _ _ (by omega) (by omega)⟩
    · intro j hj
      omega
    · omega
    · intro h0
      omega
  · rw [allocate_throw t n a] at h
    cases h

theorem Constructed_valid {α : Type} {s : State α} (h : Constructed s) : Valid s := by
  cases h with
  | default t h => exact Valid_ctor h
  | filled t n v s h hr => exact Valid_fill_initialize h n v hr

theorem Op.run_valid {α : Type} {s s' : State α} (hv : Valid s) (op : Op α)
    (hr : op.in_range s) (h : op.run s = Outcome.ok () s') :
    Valid s' := by
  cases op with
  | push_back v => exact (push_back_ok_facts hv v h).1
  | erase i =>
    obtain ⟨r, s1, h1, h2⟩ := bind_eq_ok h
    injection h2 with _ h2
    subst h2
    exact (erase_ok_facts hv hr h1).1
  | erase_range a b =>
    obtain ⟨r, s1, h1, h2⟩ := bind_eq_ok h
    injection h2 with _ h2
    subst h2
    exact (erase_range_ok_facts hv hr.1 hr.2 h1).1

theorem Run_valid {α : Type} {s s' : State α} {ops : List (Op α)} (h : Run s ops s')
    (hv : Valid s) : Valid s' := by
  induction h with
  | nil s => exact hv
  | cons s s1 s2 op ops hr h1 _ ih => exact ih (Op.run_valid hv op hr h1)

/-! ## Invariant preservation, growth and `push_back` -/

theorem init_fresh (α : Type) : Fresh (State.init α) :=
  ⟨Nat.le_refl 1, fun _ _ => rfl⟩

theorem cap_step_push {c : Nat} (full : Prop) [Decidable full] :
    cap_step c (if ¬ full then c else max 1 (2 * c)) := by
  unfold cap_step
  split
  · exact ⟨Nat.le_refl _, fun h => absurd rfl h⟩
  · refine ⟨by omega, fun _ => ⟨fun h => by subst h; rfl, fun h => by omega⟩⟩

theorem push_back_all_chain {α : Type} (vs : List α) :
    ∀ (s : State α) (caps : List Nat) (s' : State α), Valid s →
      push_back_all s vs = Outcome.ok caps s' →
      caps.length = vs.length ∧ List.Chain cap_step (vector.capacity s) caps := by
  induction vs with
  | nil =>
    intro s caps s' _ h
    injection h with h1 _
    subst h1
    exact ⟨rfl, List.Chain.nil⟩
  | cons v vs ih =>
    intro s caps s' hv h
    rw [push_back_all] at h
    obtain ⟨_, s1, h1, h2⟩ := bind_eq_ok h
    obtain ⟨caps1, s2, h3, h4⟩ := bind_eq_ok h2
    injection h4 with h5 _
    subst h5
    obtain ⟨b1, _, _, b4, _, _⟩ := push_back_ok_facts hv v h1
    obtain ⟨c1, c2⟩ := ih s1 caps1 s2 b1 h3
    refine ⟨by simp [c1], List.Chain.cons ?_ c2⟩
    rw [b4]
    exact cap_step_push (s.finish = s.end_of_stroage)

theorem push_back_all_total {α : Type} (vs : List α) :
    ∀ (s : State α), Valid s → s.alloc_budget = none → s.elem_budget = none →
      2 * (vector.size s + vs.length) ≤ PTRDIFF_MAX →
      ∃ caps s', push_back_all s vs = Outcome.ok caps s' := by
  induction vs with
  | nil => intro s _ _ _ _; exact ⟨[], s, rfl⟩
  | cons v vs ih =>
    intro s hv ha he hn
    simp only [List.length_cons] at hn
    obtain ⟨s1, h1⟩ := push_back_total hv v (fun _ => by rw [he]; simp)
      (fun _ => ⟨by rw [ha]; simp, by rw [he]; simp, by omega⟩)
    obtain ⟨b1, _, b3, _, b5, b6⟩ := push_back_ok_facts hv v h1
    obtain ⟨caps, s2, h2⟩ := ih s1 b1 (b5 ha) (b6 he) (by rw [b3]; omega)
    exact ⟨vector.capacity s1 :: caps, s2, by rw [push_back_all, h1]; simp [h2]⟩

/-- C9. Growth doubling: from the default-constructed container, `N` sequential
`push_back` calls all return normally when no failure is scheduled (and `2 N` fits
the allocator), and whenever they all return normally the capacities observed
after the calls form, from the initial 0, a chain in which each capacity is at
least the previous one and, when it changes, is 1 from 0 and at least twice the
previous one otherwise. -/
theorem push_back_growth_doubling {α : Type} (t : State α) (vs : List α) (ht : Fresh t) :
    (t.alloc_budget = none → t.elem_budget = none → 2 * vs.length ≤ PTRDIFF_MAX →
        ∃ caps s', push_back_all (vector.ctor t) vs = Outcome.ok caps s') ∧
      (∀ caps s', push_back_all (vector.ctor t) vs = Outcome.ok caps s' →
        caps.length = vs.length ∧ List.Chain cap_step 0 caps) := by
  have hv : Valid (vector.ctor t) := Valid_ctor ht
  have hsz : vector.size (vector.ctor t) = 0 := by rw [hv.size_eq]; rfl
  have hcap : vector.capacity (vector.ctor t) = 0 := by rw [hv.capacity_eq]; rfl
  constructor
  · intro ha he hn
    exact push_back_all_total vs _ hv ha he (by rw [hsz]; omega)
  · intro caps s' h
    have := push_back_all_chain vs _ caps s' hv h
    rw [hcap] at this
    exact this

/-- Witness of C9: five calls from the empty container see the capacities
1, 2, 4, 4, 8. -/
theorem push_back_growth_doubling_witness :
    ∃ s', push_back_all (vector.ctor (State.init Nat)) [1, 2, 3, 4, 5] =
        Outcome.ok [1, 2, 4, 4, 8] s' ∧
      List.Chain cap_step 0 [1, 2, 4, 4, 8] := by
  have h := push_back_growth_doubling (State.init Nat) [1, 2, 3, 4, 5] (init_fresh Nat)
  obtain ⟨caps, s', hs⟩ := h.1 rfl rfl (by decide)
  have hrun : ∃ s0, push_back_all (vector.ctor (State.init Nat)) [1, 2, 3, 4, 5] =
      Outcome.ok [1, 2, 4, 4, 8] s0 := ⟨_, rfl⟩
  obtain ⟨s0, h0⟩ := hrun
  rw [h0] at hs
  injection hs with h1 h2
  subst h1; subst h2
  exact ⟨s0, h0, (h.2 _ s0 h0).2⟩

/-- C10. Postcondition of `push_back`: the call returns normally whenever the
allocation (if any) and the element copies do not fail, and every normal return
leaves a valid container holding the old elements followed by `v`, of size
`size + 1`, with the capacity unchanged when `finish < end_of_stroage` held before the
call and equal to `max 1 (2 * capacity)` otherwise. -/
theorem push_back_post {α : Type} (s : State α) (v : α) (hv : Valid s) :
    ((s.finish ≠ s.end_of_stroage → allows s.elem_budget 1) →
        (s.finish = s.end_of_stroage → s.alloc_budget ≠ some 0 ∧
          allows s.elem_budget (vector.size s + 1) ∧ 2 * vector.size s ≤ PTRDIFF_MAX) →
        ∃ s', vector.push_back s v = Outcome.ok () s') ∧
      (∀ s', vector.push_back s v = Outcome.ok () s' →
        Valid s' ∧ vector.to_list s' = vector.to_list s ++ [v] ∧
          vector.size s' = vector.size s + 1 ∧
          (s.finish < s.end_of_stroage → vector.capacity s' = vector.capacity s) ∧
          (¬ s.finish < s.end_of_stroage →
            vector.capacity s' = max 1 (2 * vector.capacity s))) := by
  have g := hv.finish_le
  constructor
  · intro h1 h2
    exact push_back_total hv v h1 h2
  · intro s' h
    obtain ⟨b1, b2, b3, b4, _, _⟩ := push_back_ok_facts hv v h
    refine ⟨b1, b2, b3, ?_, ?_⟩
    · intro hlt
      rw [b4, if_pos (by omega)]
    · intro hge
      rw [b4, if_neg (by omega)]

/-- Witness of C10: appending 7 to the full `[10, 20]` doubles the capacity to 4;
appending 7 to `[10, 20, 30]` held in eight slots keeps the capacity. -/
theorem push_back_post_witness :
    (∃ s', vector.push_back example_full 7 = Outcome.ok () s' ∧
        vector.to_list s' = [10, 20, 7] ∧ vector.size s' = 3 ∧ vector.capacity s' = 4) ∧
      (∃ s', vector.push_back example_spare 7 = Outcome.ok () s' ∧
        vector.to_list s' = [10, 20, 30, 7] ∧ vector.size s' = 4 ∧
        vector.capacity s' = 8) := by
  constructor
  · have h := push_back_post example_full 7 example_full_valid
    obtain ⟨s', hs⟩ := h.1 (fun _ => by simp [example_full])
      (fun _ => ⟨by decide, by simp [example_full], by decide⟩)
    obtain ⟨_, h2, h3, _, h5⟩ := h.2 s' hs
    exact ⟨s', hs, h2, h3, h5 (by decide)⟩
  · have h := push_back_post example_spare 7 example_spare_valid
    obtain ⟨s', hs⟩ := h.1 (fun _ => by simp [example_spare])
      (fun h => absurd h (by decide))
    obtain ⟨_, h2, h3, h4, _⟩ := h.2 s' hs
    exact ⟨s', hs, h2, h3, h4 (by decide)⟩

/-! ## Erasing -/

theorem example_five_valid : Valid example_five := by
  refine ⟨by decide, by decide, by decide, ?_, ?_, ?_, by decide, by decide⟩
  · intro a ha
    have h : 7 ≤ a := ha
    show (if a = 0 then Cell.unalloc else if a < 6 then Cell.obj a else Cell.unalloc) = _
    rw [if_neg (by omega), if_neg (by omega)]
  · intro j hj
    have h : j < 5 := hj
    interval_cases j
    · exact ⟨1, rfl⟩
    · exact ⟨2, rfl⟩
    · exact ⟨3, rfl⟩
    · exact ⟨4, rfl⟩
    · exact ⟨5, rfl⟩
  · intro j hj
    have h : j < 0 := hj
    omega

theorem example_one_valid : Valid example_one := by
  refine ⟨by decide, by decide, by decide, ?_, ?_, ?_, by decide, by decide⟩
  · intro a ha
    have h : 3 ≤ a := ha
    show (if a = 1 then Cell.obj 5 else Cell.unalloc) = _
    rw [if_neg (by omega)]
  · intro j hj
    have h : j < 1 := hj
    interval_cases j
    exact ⟨5, rfl⟩
  · intro j hj
    have h : j < 0 := hj
    omega

theorem erase_range_index_det {α : Type} {s : State α} (hv : Valid s) {a b : Nat}
    (hab : a ≤ b) (hb : b ≤ vector.size s) :
    Det s (vector.size s - b) (vector.erase_range s (s.start + a) (s.start + b)) (s.start + a)
        (erase_range_done s ((vector.to_list s).take a)
          (((vector.to_list s).drop a).take (b - a)) ((vector.to_list s).drop b)) ∧
      Valid (erase_range_done s ((vector.to_list s).take a)
          (((vector.to_list s).drop a).take (b - a)) ((vector.to_list s).drop b)) ∧
      vector.to_list (erase_range_done s ((vector.to_list s).take a)
          (((vector.to_list s).drop a).take (b - a)) ((vector.to_list s).drop b)) =
        (vector.to_list s).take a ++ (vector.to_list s).drop b ∧
      vector.size (erase_range_done s ((vector.to_list s).take a)
          (((vector.to_list s).drop a).take (b - a)) ((vector.to_list s).drop b)) =
        vector.size s - (b - a) ∧
      vector.capacity (erase_range_done s ((vector.to_list s).take a)
          (((vector.to_list s).drop a).take (b - a)) ((vector.to_list s).drop b)) =
        vector.capacity s := by
  obtain ⟨hl, hlen⟩ := hv.live_to_list
  have hsz := hv.size_eq
  have hst := hv.start_le
  have e : vector.to_list s = (vector.to_list s).take a ++
      (((vector.to_list s).drop a).take (b - a) ++ (vector.to_list s).drop b) := by
    have e1 := List.take_append_drop (b - a) ((vector.to_list s).drop a)
    rw [List.drop_drop] at e1
    have e2 : a + (b - a) = b := by omega
    rw [e2] at e1
    rw [e1, List.take_append_drop]
  have l1 : ((vector.to_list s).take a).length = a := by
    rw [List.length_take]; omega
  have l2 : (((vector.to_list s).drop a).take (b - a)).length = b - a := by
    rw [List.length_take, List.length_drop]; omega
  have l3 : ((vector.to_list s).drop b).length = vector.size s - b := by
    rw [List.length_drop]; omega
  rw [e] at hl
  have hfin : s.finish = s.start + (((vector.to_list s).take a).length +
      ((((vector.to_list s).drop a).take (b - a)).length +
        ((vector.to_list s).drop b).length)) := by
    rw [l1, l2, l3]; omega
  have hdet := erase_range_det s _ _ _ hl hfin
  obtain ⟨b1, b2, b3, b4⟩ := erase_range_done_facts s _ _ _ hv hl hfin
  rw [l1, l2, l3] at hdet
  have eb : s.start + a + (b - a) = s.start + b := by omega
  rw [eb] at hdet
  refine ⟨hdet, b1, b2, ?_, b4⟩
  rw [b3, List.length_append, l1, l3]
  omega

theorem erase_index_det {α : Type} {s : State α} (hv : Valid s) {i : Nat}
    (hi : i < vector.size s) :
    Det s (vector.size s - (i + 1)) (vector.erase s (s.start + i)) (s.start + i)
        (erase_done s ((vector.to_list s).take i) ((vector.to_list s).drop (i + 1))) ∧
      Valid (erase_done s ((vector.to_list s).take i) ((vector.to_list s).drop (i + 1))) ∧
      vector.to_list (erase_done s ((vector.to_list s).take i) ((vector.to_list s).drop (i + 1))) =
        (vector.to_list s).take i ++ (vector.to_list s).drop (i + 1) ∧
      vector.size (erase_done s ((vector.to_list s).take i) ((vector.to_list s).drop (i + 1))) =
        vector.size s - 1 ∧
      vector.capacity (erase_done s ((vector.to_list s).take i)
          ((vector.to_list s).drop (i + 1))) = vector.capacity s := by
  obtain ⟨h1, h2, h3, h4⟩ := hv.split (Nat.le_of_lt hi)
  cases hd : (vector.to_list s).drop i with
  | nil => rw [hd] at h3; simp at h3; omega
  | cons x l3 =>
    rw [hd] at h1 h4 h3
    simp only [List.length_cons] at h4 h3
    have hl3 : (vector.to_list s).drop (i + 1) = l3 := by
      rw [← List.drop_drop 1 i, hd]
      rfl
    have hdet := erase_det s _ l3 x h1 h4
    obtain ⟨b1, b2, b3, b4⟩ := erase_done_facts s _ l3 x hv h1 h4
    rw [h2] at hdet
    rw [hl3]
    refine ⟨Det.cast hdet (by omega) rfl, b1, b2, ?_, b4⟩
    rw [b3, List.length_append, h2]
    omega

/-- C11. Range erase: for indices `a ≤ b ≤ size`, the call `erase(start + a, start + b)`
returns normally whenever the `size - b` element assignments of the shift do not
fail, and every normal return leaves a valid container whose element sequence is
the old elements at indices `[0, a)` followed by those at `[b, size)`, of size
`size - (b - a)` and unchanged capacity, and returns `start + a`. -/
theorem erase_range_correct {α : Type} (s : State α) (a b : Nat) (hv : Valid s)
    (hab : a ≤ b) (hb : b ≤ vector.size s) :
    (allows s.elem_budget (vector.size s - b) →
        ∃ s', vector.erase_range s (s.start + a) (s.start + b) =
          Outcome.ok (s.start + a) s') ∧
      (∀ r s', vector.erase_range s (s.start + a) (s.start + b) = Outcome.ok r s' →
        Valid s' ∧ r = s.start + a ∧
          vector.to_list s' = (vector.to_list s).take a ++ (vector.to_list s).drop b ∧
          vector.size s' = vector.size s - (b - a) ∧
          vector.capacity s' = vector.capacity s) := by
  obtain ⟨hdet, b1, b2, b3, b4⟩ := erase_range_index_det hv hab hb
  constructor
  · intro h
    exact ⟨_, hdet.2 h⟩
  · intro r s' h
    obtain ⟨_, a2, a3⟩ := (hdet.ok_iff r s').1 h
    rw [a3]
    exact ⟨b1, a2, b2, b3, b4⟩

/-- Witness of C11: erasing the indices `[1, 3)` of `[1, 2, 3, 4, 5]` leaves `[1, 4, 5]`. -/
theorem erase_range_correct_witness :
    vector.to_list example_five = [1, 2, 3, 4, 5] ∧
      ∃ s', vector.erase_range example_five 2 4 = Outcome.ok 2 s' ∧
        vector.to_list s' = [1, 4, 5] ∧ vector.size s' = 3 ∧ vector.capacity s' = 5 := by
  have h := erase_range_correct example_five 1 3 example_five_valid (by decide) (by decide)
  obtain ⟨s', hs⟩ := h.1 (by simp [example_five])
  obtain ⟨_, _, h3, h4, h5⟩ := h.2 _ s' hs
  exact ⟨by decide, s', hs, h3, h4, h5⟩

/-- C12. Single erase: for an index `i < size`, the call `erase(start + i)` returns
normally whenever the `size - (i + 1)` element assignments of the shift do not
fail, and every normal return leaves a valid container whose element sequence is
the old one without the element at index `i`, of size `size - 1` and unchanged
capacity, and returns `start + i`; a container of one element is left empty. -/
theorem erase_correct {α : Type} (s : State α) (i : Nat) (hv : Valid s)
    (hi : i < vector.size s) :
    (allows s.elem_budget (vector.size s - (i + 1)) →
        ∃ s', vector.erase s (s.start + i) = Outcome.ok (s.start + i) s') ∧
      (∀ r s', vector.erase s (s.start + i) = Outcome.ok r s' →
        Valid s' ∧ r = s.start + i ∧
          vector.to_list s' = (vector.to_list s).eraseIdx i ∧
          vector.to_list s' = (vector.to_list s).take i ++ (vector.to_list s).drop (i + 1) ∧
          vector.size s' = vector.size s - 1 ∧
          vector.capacity s' = vector.capacity s ∧
          (vector.size s = 1 → vector.empty s' = true ∧ vector.to_list s' = [])) := by
  obtain ⟨hdet, b1, b2, b3, b4⟩ := erase_index_det hv hi
  constructor
  · intro h
    exact ⟨_, hdet.2 h⟩
  · intro r s' h
    obtain ⟨_, a2, a3⟩ := (hdet.ok_iff r s').1 h
    rw [a3]
    refine ⟨b1, a2, by rw [b2, List.eraseIdx_eq_take_drop_succ], b2, b3, b4, ?_⟩
    intro h1
    have e1 := b1.size_eq
    have e2 := b1.start_le
    have e3 := b1.live_to_list.2
    rw [b3, h1] at e1
    constructor
    · have e4 : (erase_done s ((vector.to_list s).take i) ((vector.to_list s).drop (i + 1))).start =
          (erase_done s ((vector.to_list s).take i) ((vector.to_list s).drop (i + 1))).finish := by
        omega
      simp [vector.empty, e4]
    · apply List.eq_nil_of_length_eq_zero
      omega

/-- Witness of C12: erasing the only element of `[5]` leaves the empty container, and
erasing index 1 of `[1, 2, 3, 4, 5]` leaves `[1, 3, 4, 5]`. -/
theorem erase_correct_witness :
    (∃ s', vector.erase example_one 1 = Outcome.ok 1 s' ∧
        vector.to_list s' = [] ∧ vector.size s' = 0 ∧ vector.capacity s' = 1 ∧
        vector.empty s' = true) ∧
      (∃ s', vector.erase example_five 2 = Outcome.ok 2 s' ∧
        vector.to_list s' = [1, 3, 4, 5] ∧ vector.size s' = 4 ∧ vector.capacity s' = 5) := by
  constructor
  · have h := erase_correct example_one 0 example_one_valid (by decide)
    obtain ⟨s', hs⟩ := h.1 (by simp [example_one])
    obtain ⟨_, _, _, _, h5, h6, h7⟩ := h.2 _ s' hs
    exact ⟨s', hs, (h7 (by decide)).2, h5, h6, (h7 (by decide)).1⟩
  · have h := erase_correct example_five 1 example_five_valid (by decide)
    obtain ⟨s', hs⟩ := h.1 (by simp [example_five])
    obtain ⟨_, _, h3, _, h5, h6, _⟩ := h.2 _ s' hs
    exact ⟨s', hs, h3, h5, h6⟩

/-! ## Relations between the calls -/

theorem erase_range_done_one {α : Type} (s : State α) (l1 l2 l3 : List α)
    (h2 : l2.length = 1) (hfin : s.finish = s.start + (l1.length + (l3.length + 1))) :
    erase_range_done s l1 l2 l3 = erase_done s l1 l3 := by
  unfold erase_range_done erase_done
  rw [h2]
  have e : s.start + l1.length + l3.length = s.finish - 1 := by omega
  ext1
  · funext a
    simp only [fill_cells, set_cell, e]
    by_cases ha : a = s.finish - 1
    · rw [if_pos ha, if_pos (by omega)]
    · rw [if_neg ha, if_neg (by omega)]
  · rfl
  · rfl
  · rfl
  · rfl
  · simp only [e]
    by_cases h0 : l3.length = 0
    · rw [if_pos h0, h0]
      rfl
    · rw [if_neg h0]
      rfl
  · rfl
  · rfl
  · rfl

theorem erase_both_det {α : Type} {s : State α} (hv : Valid s) {i : Nat}
    (hi : i < vector.size s) :
    ∃ s0, Det s (vector.size s - (i + 1)) (vector.erase s (s.start + i)) (s.start + i) s0 ∧
      Det s (vector.size s - (i + 1))
        (vector.erase_range s (s.start + i) (s.start + i + 1)) (s.start + i) s0 := by
  obtain ⟨d1, _⟩ := erase_index_det hv hi
  obtain ⟨d2, _⟩ := erase_range_index_det hv (Nat.le_succ i) hi
  refine ⟨_, d1, ?_⟩
  have hl := hv.live_to_list.2
  have hsz := hv.size_eq
  have hst := hv.start_le
  have e := erase_range_done_one s ((vector.to_list s).take i)
    (((vector.to_list s).drop i).take (i + 1 - i)) ((vector.to_list s).drop (i + 1))
    (by rw [List.length_take, List.length_drop]; omega)
    (by rw [List.length_take, List.length_drop]; omega)
  rw [e] at d2
  exact d2

/-- C20. The two erase overloads agree: for an index `i < size`, the calls
`erase(start + i)` and `erase(start + i, start + i + 1)` return normally under the same
failure schedules, and then they return the same position and leave the same
machine state, hence the same size, capacity and element sequence; both return
normally whenever the `size - (i + 1)` element assignments of the shift do not
fail. -/
theorem erase_overloads_agree {α : Type} (s : State α) (i : Nat) (hv : Valid s)
    (hi : i < vector.size s) :
    (∀ r s', vector.erase s (s.start + i) = Outcome.ok r s' ↔
        vector.erase_range s (s.start + i) (s.start + i + 1) = Outcome.ok r s') ∧
      (∀ r1 s1 r2 s2, vector.erase s (s.start + i) = Outcome.ok r1 s1 →
        vector.erase_range s (s.start + i) (s.start + i + 1) = Outcome.ok r2 s2 →
        r1 = r2 ∧ vector.size s1 = vector.size s2 ∧
          vector.capacity s1 = vector.capacity s2 ∧
          vector.to_list s1 = vector.to_list s2) ∧
      (allows s.elem_budget (vector.size s - (i + 1)) →
        ∃ s', vector.erase s (s.start + i) = Outcome.ok (s.start + i) s' ∧
          vector.erase_range s (s.start + i) (s.start + i + 1) =
            Outcome.ok (s.start + i) s') := by
  obtain ⟨s0, d1, d2⟩ := erase_both_det hv hi
  refine ⟨fun r s' => ?_, fun r1 s1 r2 s2 h1 h2 => ?_, fun h => ⟨s0, d1.2 h, d2.2 h⟩⟩
  · rw [d1.ok_iff, d2.ok_iff]
  · obtain ⟨_, a2, a3⟩ := (d1.ok_iff r1 s1).1 h1
    obtain ⟨_, b2, b3⟩ := (d2.ok_iff r2 s2).1 h2
    rw [a2, a3, b2, b3]
    exact ⟨rfl, rfl, rfl, rfl⟩

/-- Witness of C20: both overloads at index 1 of `[1, 2, 3, 4, 5]`. -/
theorem erase_overloads_agree_witness :
    ∃ s', vector.erase example_five 2 = Outcome.ok 2 s' ∧
      vector.erase_range example_five 2 3 = Outcome.ok 2 s' ∧
      vector.to_list s' = [1, 3, 4, 5] := by
  have h := erase_overloads_agree example_five 1 example_five_valid (by decide)
  obtain ⟨s', h1, h2⟩ := h.2.2 (by simp [example_five])
  exact ⟨s', h1, h2, (erase_ok_facts example_five_valid (by decide) h1).2.1⟩

theorem pop_back_ok_facts {α : Type} {s : State α} (hv : Valid s)
    (h1 : 1 ≤ vector.size s) :
    ∃ s', vector.pop_back s = Outcome.ok () s' ∧ Valid s' ∧
      vector.to_list s' = (vector.to_list s).dropLast ∧
      vector.size s' = vector.size s - 1 ∧ vector.capacity s' = vector.capacity s := by
  have hsz := hv.size_eq
  have g1 := hv.start_le
  have g2 := hv.finish_le
  obtain ⟨hl, hlen⟩ := hv.live_to_list
  obtain ⟨w, hw⟩ := hv.live (s.finish - s.start - 1) (by omega)
  have hc : s.mem (s.finish - 1) = Cell.obj w := by
    rw [← hw]; congr 1; omega
  have hd := pop_back_det s w hc
  refine ⟨_, hd.2 (allows_zero _), ?_⟩
  have hlive : Live s.mem s.start (vector.to_list s).dropLast := by
    rw [List.dropLast_eq_take]
    exact Live_take hl _
  have hdl : (vector.to_list s).dropLast.length = s.finish - s.start - 1 := by
    rw [List.length_dropLast, hlen]
  obtain ⟨b1, b2, b3, b4⟩ := @Valid_update α s
    { s with mem := set_cell s.mem (s.finish - 1) Cell.raw,
             log := s.log ++ [Event.destroy (s.finish - 1)],
             finish := s.finish - 1 } hv (vector.to_list s).dropLast rfl rfl rfl
    (by show s.finish - 1 = _; rw [hdl]; omega)
    (by show s.finish - 1 ≤ _; omega)
    (by
      apply Live_congr hlive
      intro a h1 h2
      show set_cell s.mem (s.finish - 1) Cell.raw a = _
      simp only [set_cell]
      rw [if_neg (by omega)])
    (by
      intro j hj
      have hj' : j < s.end_of_stroage - (s.finish - 1) := hj
      show set_cell s.mem (s.finish - 1) Cell.raw (s.finish - 1 + j) = _
      simp only [set_cell]
      by_cases h0 : j = 0
      · rw [if_pos (by omega)]
      · rw [if_neg (by omega)]
        have := hv.spare (j - 1) (by omega)
        rw [← this]; congr 1; omega)
    (by
      intro a ha
      have := hv.below_brk
      show set_cell s.mem (s.finish - 1) Cell.raw a = _
      simp only [set_cell]
      rw [if_neg (by omega)])
  refine ⟨b1, b2, ?_, b4⟩
  rw [b3, hdl]; omega

theorem constructions_append (l1 l2 : List Event) :
    constructions (l1 ++ l2) = constructions l1 + constructions l2 := by
  unfold constructions
  rw [List.countP_append]

theorem constructions_copy_events (k : Nat) :
    ∀ first result, constructions (copy_events first result k) = k := by
  induction k with
  | zero => intro _ _; rfl
  | succ k ih =>
    intro first result
    have := ih (first + 1) (result + 1)
    unfold constructions at this ⊢
    simp only [copy_events, List.countP_cons, Event.is_construction, this]
    simp

theorem constructions_fill_events (k : Nat) :
    ∀ first, constructions (fill_events first k) = k := by
  induction k with
  | zero => intro _; rfl
  | succ k ih =>
    intro first
    have := ih (first + 1)
    unfold constructions at this ⊢
    simp only [fill_events, List.countP_cons, Event.is_construction, this]
    simp

theorem constructions_destroy_events (k : Nat) :
    ∀ first, constructions (destroy_events first k) = 0 := by
  induction k with
  | zero => intro _; rfl
  | succ k ih =>
    intro first
    have := ih (first + 1)
    unfold constructions at this ⊢
    simp only [destroy_events, List.countP_cons, Event.is_construction, this]
    simp

theorem push_back_cost {α : Type} {s : State α} (hv : Valid s) (v : α) {s' : State α}
    (h : vector.push_back s v = Outcome.ok () s') :
    ∃ evs, s'.log = s.log ++ evs ∧
      constructions evs = (if s.finish ≠ s.end_of_stroage then 1 else vector.size s + 1) := by
  by_cases hsp : s.finish ≠ s.end_of_stroage
  · obtain ⟨_, _, a3⟩ := ((push_back_spare_det s v hv hsp).ok_iff () s').1 h
    rw [a3, if_pos hsp]
    exact ⟨[Event.construct s.finish], rfl, rfl⟩
  · have hfull : s.finish = s.end_of_stroage := by
      by_contra hc; exact hsp hc
    unfold vector.push_back at h
    rw [if_neg hsp, hv.finish_eq, insert_aux_full s _ v hfull, aux_new_size hv] at h
    obtain ⟨_, _, _, _, a5⟩ := (grow_ok_iff hv (Nat.le_refl _) 1 v _ s').1 h
    rw [a5, if_neg hsp]
    refine ⟨_, rfl, ?_⟩
    have e : s.finish - s.start - vector.size s = 0 := by
      rw [hv.size_eq]; omega
    have hd : constructions
        (if s.start ≠ 0 then [Event.dealloc s.start (s.end_of_stroage - s.start)] else []) = 0 := by
      split <;> rfl
    have hc : ∀ (e : Event) (l : List Event), e.is_construction = false →
        constructions (e :: l) = constructions l := by
      intro e l he
      unfold constructions
      rw [List.countP_cons, he]
      simp
    rw [hc (Event.alloc _ _) _ rfl]
    unfold build_events
    rw [constructions_append, constructions_append, constructions_append, constructions_append,
      constructions_copy_events, constructions_fill_events, constructions_copy_events,
      constructions_destroy_events, hd, e]

theorem push_back_all_cost {α : Type} (vs : List α) :
    ∀ (s : State α) (caps : List Nat) (s' : State α), Valid s →
      vector.capacity s ≤ 2 * vector.size s →
      push_back_all s vs = Outcome.ok caps s' →
      ∃ evs, s'.log = s.log ++ evs ∧
        constructions evs + 2 * vector.size s' + vector.capacity s ≤
          3 * vs.length + 2 * vector.size s + vector.capacity s' ∧
        vector.capacity s' ≤ 2 * vector.size s' ∧
        vector.size s' = vector.size s + vs.length := by
  induction vs with
  | nil =>
    intro s caps s' _ hc h
    injection h with _ h2
    subst h2
    exact ⟨[], by simp, by simp [constructions], hc, rfl⟩
  | cons v vs ih =>
    intro s caps s' hv hc h
    rw [push_back_all] at h
    obtain ⟨_, s1, h1, h2⟩ := bind_eq_ok h
    obtain ⟨caps1, s2, h3, h4⟩ := bind_eq_ok h2
    injection h4 with _ h5
    subst h5
    obtain ⟨b1, _, b3, b4, _, _⟩ := push_back_ok_facts hv v h1
    obtain ⟨e1, c1, c2⟩ := push_back_cost hv v h1
    have hsz := hv.size_eq
    have hcp := hv.capacity_eq
    have g1 := hv.start_le
    have g2 := hv.finish_le
    have hc1 : vector.capacity s1 ≤ 2 * vector.size s1 := by
      rw [b3, b4]
      split
      · omega
      · have : vector.capacity s = vector.size s := by omega
        omega
    obtain ⟨e2, d1, d2, d3, d4⟩ := ih s1 caps1 s2 b1 hc1 h3
    refine ⟨e1 ++ e2, by rw [d1, c1, List.append_assoc], ?_, d3, by rw [d4, b3]; simp; omega⟩
    rw [constructions_append, c2]
    rw [b3] at d2
    rw [b4] at d2
    simp only [List.length_cons]
    by_cases hsp : s.finish ≠ s.end_of_stroage
    · rw [if_pos hsp] at d2 ⊢
      omega
    · rw [if_neg hsp] at d2 ⊢
      have : vector.capacity s = vector.size s := by omega
      omega

/-- C17. Amortised construction count: from the default-constructed container, `N`
sequential `push_back` calls all return normally when no failure is scheduled (and
`2 N` fits the allocator), and whenever they all return normally the events they
add to the log contain at most `3 N` element constructions, the copies made by the
relocations included. -/
theorem push_back_amortised {α : Type} (t : State α) (vs : List α) (ht : Fresh t) :
    (t.alloc_budget = none → t.elem_budget = none → 2 * vs.length ≤ PTRDIFF_MAX →
        ∃ caps s', push_back_all (vector.ctor t) vs = Outcome.ok caps s') ∧
      (∀ caps s', push_back_all (vector.ctor t) vs = Outcome.ok caps s' →
        ∃ evs, s'.log = t.log ++ evs ∧ constructions evs ≤ 3 * vs.length ∧
          constructions evs ≤ vs.length + vector.capacity s') := by
  have hv : Valid (vector.ctor t) := Valid_ctor ht
  have hsz : vector.size (vector.ctor t) = 0 := by rw [hv.size_eq]; rfl
  have hcap : vector.capacity (vector.ctor t) = 0 := by rw [hv.capacity_eq]; rfl
  constructor
  · intro ha he hn
    exact push_back_all_total vs _ hv ha he (by rw [hsz]; omega)
  · intro caps s' h
    obtain ⟨evs, d1, d2, d3, d4⟩ := push_back_all_cost vs _ caps s' hv (by rw [hcap]; omega) h
    rw [hsz, hcap] at d2
    rw [hsz] at d4
    exact ⟨evs, d1, by omega, by omega⟩

/-- Witness of C17: five calls from the empty container make twelve element
constructions (1, 2, 3, 1 and 5). -/
theorem push_back_amortised_witness :
    ∃ caps s', push_back_all (vector.ctor (State.init Nat)) [1, 2, 3, 4, 5] =
        Outcome.ok caps s' ∧
      constructions s'.log = 12 ∧ constructions s'.log ≤ 3 * 5 := by
  have h := push_back_amortised (State.init Nat) [1, 2, 3, 4, 5] (init_fresh Nat)
  obtain ⟨caps, s', hs⟩ := h.1 rfl rfl (by decide)
  obtain ⟨evs, h1, h2, _⟩ := h.2 caps s' hs
  have hrun : ∃ s0, push_back_all (vector.ctor (State.init Nat)) [1, 2, 3, 4, 5] =
      Outcome.ok [1, 2, 4, 4, 8] s0 ∧ constructions s0.log = 12 := ⟨_, rfl, by decide⟩
  obtain ⟨s0, h0, hc⟩ := hrun
  rw [h0] at hs
  injection hs with h3 h4
  subst h3; subst h4
  refine ⟨_, s0, h0, hc, ?_⟩
  rw [h1]
  exact h2

/-! ## The intermediate states of a middle insertion -/

theorem insert_aux_as_steps {α : Type} (s : State α) (position : Nat) (value : α)
    (h : s.finish ≠ s.end_of_stroage) :
    vector.insert_aux s position value =
      (vector.insert_aux_construct_last s).bind fun _ s =>
        with_value_copy (vector.insert_aux_advance s) value fun value_copy s =>
          (vector.insert_aux_shift s position).bind fun _ s =>
            vector.insert_aux_store s position value_copy := by
  unfold vector.insert_aux vector.insert_aux_construct_last
  rw [if_pos h]
  cases read s (s.finish - 1) with
  | ok x s1 => rfl
  | throw e s1 => rfl
  | undefined => rfl

theorem Det_value_copy_construct {α : Type} (s : State α) :
    Det s 1 (value_copy_construct s) ()
      { s with elem_budget := spend s.elem_budget 1,
               log := s.log ++ [Event.local_construct] } := by
  unfold value_copy_construct
  exact Det.cast (Det_bind ⟨Ticks_tick s, tick_ok s⟩ fun _ => Det_pure _ ()) rfl rfl

theorem with_value_copy_ok {α β : Type} {s s2 s4 : State α} {value : α}
    {body : α → State α → Outcome α β} {r : β}
    (h1 : value_copy_construct s = Outcome.ok () s2) (h2 : body value s2 = Outcome.ok r s4) :
    with_value_copy s value body = Outcome.ok r (value_copy_destroy s4) := by
  unfold value_copy_construct at h1
  obtain ⟨_, sa, ha, hb⟩ := bind_eq_ok h1
  injection hb with _ hb
  subst hb
  unfold with_value_copy
  rw [ha]
  simp only [Outcome.bind_ok, h2]
  rfl

theorem write_list_obj {α : Type} (m : Nat → Cell α) (p : Nat) (l : List α) (a : Nat)
    (h : ∃ v, m a = Cell.obj v) : ∃ v, write_list m p l a = Cell.obj v := by
  simp only [write_list]
  split
  · split
    · exact ⟨_, rfl⟩
    · exact h
  · exact h

theorem set_cell_obj {α : Type} (m : Nat → Cell α) (p : Nat) (w : α) (a : Nat)
    (h : ∃ v, m a = Cell.obj v) : ∃ v, set_cell m p (Cell.obj w) a = Cell.obj v := by
  simp only [set_cell]
  split
  · exact ⟨_, rfl⟩
  · exact h

theorem accesses_below_assign_back (fin k : Nat) :
    ∀ last result, last ≤ fin → result ≤ fin → 0 < fin →
      accesses_below fin (assign_back_events last result k) := by
  induction k with
  | zero =>
    intro _ _ _ _ _ e he
    cases he
  | succ k ih =>
    intro last result h1 h2 h3 e he p hp
    simp only [assign_back_events, List.mem_cons] at he
    rcases he with he | he | he
    · subst he
      injection hp with hp
      omega
    · subst he
      injection hp with hp
      omega
    · exact ih (last - 1) (result - 1) (by omega) (by omega) h3 e he p hp

theorem insert_aux_spare_steps {α : Type} (s : State α) (l1 l2 : List α) (z v : α)
    (hv : Valid s) (hlive : Live s.mem s.start (l1 ++ (l2 ++ [z])))
    (hfin : s.finish = s.start + (l1.length + (l2.length + 1)))
    (hsp : s.finish ≠ s.end_of_stroage) :
    ∃ t1 t2 t3 t4 : State α,
      Det s 1 (vector.insert_aux_construct_last s) () t1 ∧
      Det (vector.insert_aux_advance t1) 1
        (value_copy_construct (vector.insert_aux_advance t1)) () t2 ∧
      Det t2 l2.length (vector.insert_aux_shift t2 (s.start + l1.length))
        (s.start + l1.length + 1) t3 ∧
      Det t3 1 (vector.insert_aux_store t3 (s.start + l1.length) v) () t4 ∧
      (no_gap t1 ∧ t1.start = s.start ∧ t1.finish = s.finish ∧
        ∃ evs, t1.log = s.log ++ evs ∧ accesses_below t1.finish evs) ∧
      no_gap (vector.insert_aux_advance t1) ∧
      (no_gap t2 ∧ t2.start = s.start ∧ t2.finish = s.finish + 1) ∧
      (no_gap t3 ∧ t3.start = s.start ∧ t3.finish = s.finish + 1 ∧
        ∃ evs, t3.log = t2.log ++ evs ∧ accesses_below t3.finish evs) ∧
      (no_gap t4 ∧ t4.start = s.start ∧ t4.finish = s.finish + 1 ∧
        ∃ evs, t4.log = t3.log ++ evs ∧ accesses_below t4.finish evs) := by
  have g1 := hv.start_le
  have g2 := hv.finish_le
  obtain ⟨hl1, hl23⟩ := (Live_append _ _ _ _).1 hlive
  obtain ⟨hl2, hl3⟩ := (Live_append _ _ _ _).1 hl23
  have hz : s.mem (s.finish - 1) = Cell.obj z := by
    have := hl3 0 z (by simp)
    rw [← this]; congr 1; omega
  have hraw : s.mem s.finish = Cell.raw := by
    have := hv.spare 0 (by omega)
    simpa using this
  obtain ⟨y, hy⟩ := Objs_of_Live hl23 0 (by simp)
  have hobj : ∀ a, s.start ≤ a → a < s.finish → ∃ w, s.mem a = Cell.obj w := by
    intro a ha hb
    obtain ⟨w, hw⟩ := hv.live (a - s.start) (by omega)
    refine ⟨w, ?_⟩
    rw [← hw]; congr 1; omega
  have hobj1 : ∀ a, s.start ≤ a → a < s.finish + 1 →
      ∃ w, set_cell s.mem s.finish (Cell.obj z) a = Cell.obj w := by
    intro a ha hb
    by_cases hc : a = s.finish
    · exact ⟨z, by simp only [set_cell]; rw [if_pos hc]⟩
    · exact set_cell_obj _ _ _ _ (hobj a ha (by omega))
  have d1 : Det s 1 (vector.insert_aux_construct_last s) ()
      { s with mem := set_cell s.mem s.finish (Cell.obj z),
               log := s.log ++ [Event.read (s.finish - 1)] ++ [Event.construct s.finish],
               elem_budget := spend s.elem_budget 1 } :=
    Det.cast (Det_bind (Det_read s _ z hz) fun _ => Det_construct _ _ z hraw) rfl rfl
  refine ⟨_, _, _, _, d1, Det_value_copy_construct _,
    Det_copy_backward l2 _ (s.start + l1.length) _ _ (s.start + l1.length + 1) ?_ ?_ ?_ ?_ ?_,
    Det_assign _ _ v y ?_,
    ⟨?_, rfl, rfl, ⟨[Event.read (s.finish - 1), Event.construct s.finish],
      List.append_assoc _ _ _, ?_⟩⟩, ?_, ⟨?_, rfl, rfl⟩,
    ⟨?_, rfl, rfl, ⟨_, rfl, ?_⟩⟩, ⟨?_, rfl, rfl, ⟨_, rfl, ?_⟩⟩⟩
  · show s.finish + 1 - 2 = _
    omega
  · show s.finish + 1 - 1 = _
    omega
  · omega
  · apply Live_congr hl2
    intro a h1 h2
    show set_cell s.mem s.finish (Cell.obj z) a = s.mem a
    simp only [set_cell]
    rw [if_neg (by omega)]
  · intro j hj
    obtain ⟨w, hw⟩ := Objs_of_Live hl23 (j + 1) (by simp; omega)
    refine ⟨w, ?_⟩
    show set_cell s.mem s.finish (Cell.obj z) _ = _
    simp only [set_cell]
    rw [if_neg (by omega), ← hw]
    congr 1
    omega
  · show write_list (set_cell s.mem s.finish (Cell.obj z)) _ l2 _ = _
    rw [write_list_outside _ _ _ _ (by omega)]
    simp only [set_cell]
    rw [if_neg (by omega)]
    simpa using hy
  · intro a ha hb
    exact hobj1 a ha (by have : a < s.finish := hb; omega)
  · intro e he p hp
    show p < s.finish
    simp only [List.mem_cons, List.mem_singleton, List.mem_append, List.not_mem_nil,
      or_false, false_or] at he
    rcases he with he | he
    · subst he
      injection hp with hp
      omega
    · subst he
      cases hp
  · intro a ha hb
    exact hobj1 a ha hb
  · intro a ha hb
    exact hobj1 a ha hb
  · intro a ha hb
    exact write_list_obj _ _ _ _ (hobj1 a ha hb)
  · exact accesses_below_assign_back _ _ _ _ (by show s.finish + 1 - 2 ≤ s.finish + 1; omega)
      (by show s.finish + 1 - 1 ≤ s.finish + 1; omega) (by show 0 < s.finish + 1; omega)
  · intro a ha hb
    exact set_cell_obj _ _ _ _ (write_list_obj _ _ _ _ (hobj1 a ha hb))
  · intro e he p hp
    show p < s.finish + 1
    simp only [List.mem_singleton] at he
    subst he
    injection hp with hp
    omega

theorem keeps_objects_refl {α : Type} (s : State α) : keeps_objects s s :=
  ⟨rfl, rfl, fun _ h => h⟩

theorem keeps_objects_trans {α : Type} {s s1 s2 : State α} (h1 : keeps_objects s s1)
    (h2 : keeps_objects s1 s2) : keeps_objects s s2 :=
  ⟨h2.1.trans h1.1, h2.2.1.trans h1.2.1, fun a h => h2.2.2 a (h1.2.2 a h)⟩

theorem no_gap_of_keeps {α : Type} {s s' : State α} (h : keeps_objects s s')
    (hg : no_gap s) : no_gap s' := by
  intro a ha hb
  rw [h.1] at ha
  rw [h.2.1] at hb
  exact h.2.2 a (hg a ha hb)

theorem bind_keeps {α β γ : Type} {o : Outcome α β} {f : β → State α → Outcome α γ}
    {s : State α} (h1 : ∀ s1, o.final = some s1 → keeps_objects s s1)
    (h2 : ∀ r s1, o = Outcome.ok r s1 → ∀ s', (f r s1).final = some s' → keeps_objects s1 s') :
    ∀ s', (o.bind f).final = some s' → keeps_objects s s' := by
  intro s' h
  cases o with
  | ok r s1 => exact keeps_objects_trans (h1 s1 rfl) (h2 r s1 rfl s' h)
  | throw e s1 => exact h1 s' h
  | undefined => cases h

theorem tick_keeps {α : Type} (s s' : State α) (h : (tick s).final = some s') :
    keeps_objects s s' := by
  rcases tick_cases s with ⟨_, ht⟩ | ⟨_, ht⟩
  · rw [ht] at h
    injection h with h
    subst h
    exact ⟨rfl, rfl, fun _ h => h⟩
  · rw [ht] at h
    injection h with h
    subst h
    exact ⟨rfl, rfl, fun _ h => h⟩

theorem read_keeps {α : Type} (s : State α) (p : Nat) (s' : State α)
    (h : (read s p).final = some s') : keeps_objects s s' := by
  unfold read at h
  split at h
  · injection h with h
    subst h
    exact ⟨rfl, rfl, fun _ h => h⟩
  · cases h

theorem construct_keeps {α : Type} (s : State α) (p : Nat) (v : α) (s' : State α)
    (h : (construct s p v).final = some s') : keeps_objects s s' := by
  unfold construct at h
  split at h
  · refine bind_keeps (tick_keeps s) ?_ s' h
    intro _ s1 _ s2 h2
    injection h2 with h2
    subst h2
    exact ⟨rfl, rfl, fun a ha => set_cell_obj _ _ _ _ ha⟩
  · cases h

theorem assign_keeps {α : Type} (s : State α) (p : Nat) (v : α) (s' : State α)
    (h : (assign s p v).final = some s') : keeps_objects s s' := by
  unfold assign at h
  split at h
  · refine bind_keeps (tick_keeps s) ?_ s' h
    intro _ s1 _ s2 h2
    injection h2 with h2
    subst h2
    exact ⟨rfl, rfl, fun a ha => set_cell_obj _ _ _ _ ha⟩
  · cases h

theorem copy_backward_loop_keeps {α : Type} (k : Nat) :
    ∀ (s : State α) (last result : Nat) (s' : State α),
      (copy_backward_loop s last result k).final = some s' → keeps_objects s s' := by
  induction k with
  | zero =>
    intro s last result s' h
    injection h with h
    subst h
    exact keeps_objects_refl _
  | succ k ih =>
    intro s last result s' h
    rw [copy_backward_loop] at h
    refine bind_keeps (read_keeps s _) ?_ s' h
    intro x s1 _
    refine bind_keeps (assign_keeps s1 _ x) ?_
    intro _ s2 _ s3 h3
    exact ih s2 _ _ s3 h3

theorem copy_backward_keeps {α : Type} (s : State α) (first last result : Nat) (s' : State α)
    (h : (copy_backward s first last result).final = some s') : keeps_objects s s' := by
  unfold copy_backward at h
  split at h
  · cases h
  · exact copy_backward_loop_keeps _ s _ _ s' h

theorem with_value_copy_keeps {α β : Type} (s : State α) (value : α)
    (body : α → State α → Outcome α β)
    (hb : ∀ s1 s', (body value s1).final = some s' → keeps_objects s1 s') :
    ∀ s', (with_value_copy s value body).final = some s' → keeps_objects s s' := by
  intro s' h
  unfold with_value_copy at h
  refine bind_keeps (tick_keeps s) ?_ s' h
  intro _ s1 _ s2 h2
  cases hbody : body value { s1 with log := s1.log ++ [Event.local_construct] } with
  | ok r s3 =>
    rw [hbody] at h2
    injection h2 with h2
    subst h2
    have := hb _ s3 (by rw [hbody]; rfl)
    exact ⟨this.1, this.2.1, this.2.2⟩
  | throw e s3 =>
    rw [hbody] at h2
    injection h2 with h2
    subst h2
    have := hb _ s3 (by rw [hbody]; rfl)
    exact ⟨this.1, this.2.1, this.2.2⟩
  | undefined =>
    rw [hbody] at h2
    cases h2

theorem insert_aux_spare_final {α : Type} (s : State α) (position : Nat) (v : α)
    (hsp : s.finish ≠ s.end_of_stroage) (s' : State α)
    (h : (vector.insert_aux s position v).final = some s') :
    keeps_objects s s' ∨
      ∃ s1, vector.insert_aux_construct_last s = Outcome.ok () s1 ∧
        keeps_objects (vector.insert_aux_advance s1) s' := by
  rw [insert_aux_as_steps s position v hsp] at h
  cases h1 : vector.insert_aux_construct_last s with
  | ok r s1 =>
    right
    refine ⟨s1, rfl, ?_⟩
    rw [h1] at h
    simp only [Outcome.bind_ok] at h
    refine with_value_copy_keeps _ v _ ?_ s' h
    intro s2 s3
    refine bind_keeps (copy_backward_keeps s2 _ _ _) ?_ s3
    intro _ s4 _ s5 h5
    exact assign_keeps s4 _ _ s5 h5
  | throw e s1 =>
    left
    rw [h1] at h
    have hk : ∀ t, (vector.insert_aux_construct_last s).final = some t → keeps_objects s t := by
      unfold vector.insert_aux_construct_last
      refine bind_keeps (read_keeps s _) ?_
      intro x s2 _ s3 h3
      exact construct_keeps s2 _ x s3 h3
    exact hk s' (by rw [h1]; exact h)
  | undefined =>
    rw [h1] at h
    cases h

/-- C16. No gap during a middle insertion with spare capacity. On a container with
`finish < end_of_stroage` and for an index `i < size`, `insert_aux` is the sequence of
its statements `construct(finish, *(finish - 1))`, `++finish`, the construction of
`value_copy`, `copy_backward(position, finish - 2, finish - 1)` and
`*position = value_copy`; in the state left by each of them every slot of the current
`[start, finish)` holds a constructed element and the statement has read and
assigned only slots below the current `finish`, the last state being the one
`insert_aux` returns in; the statements all return normally whenever the element
operations do not fail; and when an element operation throws, the state at the
throw has no gap either. -/
theorem insert_aux_no_gap {α : Type} (s : State α) (i : Nat) (v : α) (hv : Valid s)
    (hsp : s.finish < s.end_of_stroage) (hi : i < vector.size s) :
    (vector.insert_aux s (s.start + i) v =
        (vector.insert_aux_construct_last s).bind fun _ s1 =>
          with_value_copy (vector.insert_aux_advance s1) v fun value_copy s2 =>
            (vector.insert_aux_shift s2 (s.start + i)).bind fun _ s3 =>
              vector.insert_aux_store s3 (s.start + i) value_copy) ∧
      (∀ s1, vector.insert_aux_construct_last s = Outcome.ok () s1 →
        (no_gap s1 ∧ s1.start = s.start ∧ s1.finish = s.finish ∧
          ∃ evs, s1.log = s.log ++ evs ∧ accesses_below s1.finish evs) ∧
        (no_gap (vector.insert_aux_advance s1) ∧
          (vector.insert_aux_advance s1).finish = s.finish + 1) ∧
        ∀ s2, value_copy_construct (vector.insert_aux_advance s1) = Outcome.ok () s2 →
          (no_gap s2 ∧ s2.start = s.start ∧ s2.finish = s.finish + 1) ∧
          ∀ r s3, vector.insert_aux_shift s2 (s.start + i) = Outcome.ok r s3 →
            (no_gap s3 ∧ s3.start = s.start ∧ s3.finish = s.finish + 1 ∧
              ∃ evs, s3.log = s2.log ++ evs ∧ accesses_below s3.finish evs) ∧
            ∀ s4, vector.insert_aux_store s3 (s.start + i) v = Outcome.ok () s4 →
              (no_gap s4 ∧ s4.start = s.start ∧ s4.finish = s.finish + 1 ∧
                ∃ evs, s4.log = s3.log ++ evs ∧ accesses_below s4.finish evs) ∧
              vector.insert_aux s (s.start + i) v = Outcome.ok () (value_copy_destroy s4)) ∧
      (allows s.elem_budget (vector.size s - i + 2) →
        ∃ s1 s2 r s3 s4, vector.insert_aux_construct_last s = Outcome.ok () s1 ∧
          value_copy_construct (vector.insert_aux_advance s1) = Outcome.ok () s2 ∧
          vector.insert_aux_shift s2 (s.start + i) = Outcome.ok r s3 ∧
          vector.insert_aux_store s3 (s.start + i) v = Outcome.ok () s4) ∧
      (∀ e s', vector.insert_aux s (s.start + i) v = Outcome.throw e s' → no_gap s') := by
  have hne : s.finish ≠ s.end_of_stroage := by omega
  obtain ⟨h1, h2, h3, h4⟩ := hv.split (Nat.le_of_lt hi)
  have hnil : (vector.to_list s).drop i ≠ [] := by
    intro h
    rw [h] at h3
    simp at h3
    omega
  have hd := List.dropLast_append_getLast hnil
  have hlen : ((vector.to_list s).drop i).dropLast.length + 1 = vector.size s - i := by
    rw [← h3]
    conv_rhs => rw [← hd]
    simp
  rw [← hd] at h1 h4
  rw [List.length_append, List.length_singleton] at h4
  obtain ⟨t1, t2, t3, t4, d1, d2, d3, d4, f1, f1a, f2, f3, f4⟩ :=
    insert_aux_spare_steps s _ _ _ v hv h1 h4 hne
  rw [h2] at d3 d4
  have hlink := insert_aux_as_steps s (s.start + i) v hne
  have hg : no_gap s := by
    intro a ha hb
    obtain ⟨w, hw⟩ := hv.live (a - s.start) (by omega)
    refine ⟨w, ?_⟩
    rw [← hw]; congr 1; omega
  refine ⟨hlink, ?_, ?_, ?_⟩
  · intro s1 e1
    obtain ⟨_, _, a1⟩ := (d1.ok_iff () s1).1 e1
    subst a1
    refine ⟨f1, ⟨f1a, by rw [← f1.2.2.1]; rfl⟩, ?_⟩
    intro s2 e2
    obtain ⟨_, _, a2⟩ := (d2.ok_iff () s2).1 e2
    subst a2
    refine ⟨f2, ?_⟩
    intro r s3 e3
    obtain ⟨_, _, a3⟩ := (d3.ok_iff r s3).1 e3
    subst a3
    refine ⟨f3, ?_⟩
    intro s4 e4
    obtain ⟨_, _, a4⟩ := (d4.ok_iff () s4).1 e4
    subst a4
    refine ⟨f4, ?_⟩
    rw [hlink, e1]
    simp only [Outcome.bind_ok]
    apply with_value_copy_ok e2
    rw [e3]
    exact e4
  · intro hb
    have hb' : allows s.elem_budget (1 + (1 + (((vector.to_list s).drop i).dropLast.length + 1))) := by
      apply allows_mono hb
      omega
    obtain ⟨b1, hb'⟩ := allows_add.1 hb'
    have e1 := d1.2 b1
    have q1 := (d1.1 _ _ e1).2
    have hb2 : allows (vector.insert_aux_advance t1).elem_budget
        (1 + (((vector.to_list s).drop i).dropLast.length + 1)) := by
      show allows t1.elem_budget _
      rw [q1]; exact hb'
    obtain ⟨b2, hb2⟩ := allows_add.1 hb2
    have e2 := d2.2 b2
    have q2 := (d2.1 _ _ e2).2
    rw [← q2] at hb2
    obtain ⟨b3, hb3⟩ := allows_add.1 hb2
    have e3 := d3.2 b3
    have q3 := (d3.1 _ _ e3).2
    rw [← q3] at hb3
    exact ⟨t1, t2, _, t3, t4, e1, e2, e3, d4.2 hb3⟩
  · intro e s' h
    rcases insert_aux_spare_final s (s.start + i) v hne s' (by rw [h]; rfl) with hk | ⟨s1, e1, hk⟩
    · exact no_gap_of_keeps hk hg
    · obtain ⟨_, _, a1⟩ := (d1.ok_iff () s1).1 e1
      subst a1
      exact no_gap_of_keeps hk f1a

/-- Witness of C16: inserting 7 at index 1 of `[10, 20, 30]` held in eight slots, statement
by statement. -/
theorem insert_aux_no_gap_witness :
    ∃ s1 s2 r s3 s4, vector.insert_aux_construct_last example_spare = Outcome.ok () s1 ∧
      value_copy_construct (vector.insert_aux_advance s1) = Outcome.ok () s2 ∧
      vector.insert_aux_shift s2 2 = Outcome.ok r s3 ∧
      vector.insert_aux_store s3 2 7 = Outcome.ok () s4 ∧
      no_gap s1 ∧ no_gap (vector.insert_aux_advance s1) ∧ no_gap s2 ∧ no_gap s3 ∧ no_gap s4 ∧
      vector.insert_aux example_spare 2 7 = Outcome.ok () (value_copy_destroy s4) ∧
      vector.to_list (value_copy_destroy s4) = [10, 7, 20, 30] := by
  have h := insert_aux_no_gap example_spare 1 7 example_spare_valid (by decide) (by decide)
  obtain ⟨s1, s2, r, s3, s4, e1, e2, e3, e4⟩ := h.2.2.1 (by simp [example_spare])
  obtain ⟨a1, a2, a3⟩ := h.2.1 s1 e1
  obtain ⟨b1, b2⟩ := a3 s2 e2
  obtain ⟨c1, c2⟩ := b2 r s3 e3
  obtain ⟨g1, g2⟩ := c2 s4 e4
  refine ⟨s1, s2, r, s3, s4, e1, e2, e3, e4, a1.1, a2.1, b1.1, c1.1, g1.1, g2, ?_⟩
  have hl : ∃ t, vector.insert_aux example_spare 2 7 = Outcome.ok () t ∧
      vector.to_list t = [10, 7, 20, 30] := ⟨_, rfl, by decide⟩
  obtain ⟨t, ht, hl⟩ := hl
  have g2' : vector.insert_aux example_spare (example_spare.start + 1) 7 =
      vector.insert_aux example_spare 2 7 := rfl
  rw [g2', ht] at g2
  injection g2 with _ g2
  rw [← g2]
  exact hl

end stl
